import Mathlib

/-!
Verification of `cgraph.c`, a static call-graph analyzer.

Shallow embedding of `src/cgraph.c` and proofs about it.

* C `int` values are integers; a conversion to `int` is `int32`, a conversion to
  `int64_t` is `int64`, a conversion to `uint64_t` is `uint64` (two's complement).
* The global tables are total maps from an index to a value.  The parse tables
  (`funcD`, `func_lineD`, `func_addrD`, `func_ccD`, `call_addrD`) are the record
  `Tables`; the three tables the depth analyzer writes (`func_depthD`,
  `func_stackD`, `func_recurseD`) are the record `Marks`.
* A `for (it = 0; it < n; ++it)` loop is a recursion on the number of iterations
  that remain; recursion and `while` loops take a fuel argument and give `none`
  when it runs out.
* The input text is the list of its bytes; a pointer into it is the list of the bytes
  from the pointer on, a byte past the end reads as zero, and NULL is `none`.
-/

namespace CGraph

/-! ## Constants and machine integers -/

/-- Capacity of the function tables: `enum { MAX_FUNC = 8 * 1024 }`. -/
def MAX_FUNC : Int := 8 * 1024

/-- Capacity of a row of call targets: `enum { MAX_CALL = 512 }`. -/
def MAX_CALL : Int := 512

/-- Capacity of a name row: `enum { MAX_NAME = 64 }`. -/
def MAX_NAME : Int := 64

/-- Conversion to a C `int`: the value modulo 2^32 in [-2^31, 2^31). -/
def int32 (x : Int) : Int := (x + 2 ^ 31) % 2 ^ 32 - 2 ^ 31

/-- Conversion to `int64_t`: the value modulo 2^64 in [-2^63, 2^63). -/
def int64 (x : Int) : Int := (x + 2 ^ 63) % 2 ^ 64 - 2 ^ 63

/-- Conversion to `uint64_t`: the value modulo 2^64 in [0, 2^64). -/
def uint64 (x : Int) : Int := x % 2 ^ 64

/-! ## Data model -/

/-- The tables the parse fills: `funcD` (names, one row of chars per function),
`func_lineD`, `func_addrD` (`uint64_t`), `func_ccD` (`int`, call-range starts) and
`call_addrD` (`int64_t`, one row of call targets per function).  Every index has a
cell of its own here: the C arrays end at `MAX_FUNC`, and a store past that end
shows as a store at that index, not as a change of a neighbouring table. -/
structure Tables where
  funcD : Int → Int → Int
  func_lineD : Int → Nat
  func_addrD : Int → Nat
  func_ccD : Int → Int
  call_addrD : Int → Int → Int

/-- The tables the depth analyzer writes: `func_depthD`, `func_stackD`,
`func_recurseD` (all `int`). -/
structure Marks where
  func_depthD : Int → Int
  func_stackD : Int → Int
  func_recurseD : Int → Int

/-- The zero-initialised analyzer tables (`DATA` is `static`). -/
def Marks.zero : Marks :=
  { func_depthD := fun _ => 0, func_stackD := fun _ => 0, func_recurseD := fun _ => 0 }

/-- Array store `a[i] = v`. -/
def setAt (a : Int → Int) (i v : Int) : Int → Int := fun j => if j = i then v else a j

/-- Array store `a[i][j] = v` in a table of rows. -/
def setAt2 (a : Int → Int → Int) (i j v : Int) : Int → Int → Int :=
  fun i1 j1 => if i1 = i ∧ j1 = j then v else a i1 j1

/-! ## The functions of cgraph.c -/

/-- Call count `func_cc(id)`: `func_ccD[id + 1] - func_ccD[id]`.  The C array has
`MAX_FUNC` entries, so the entry `func_ccD[id + 1]` lies inside it when
`id + 1 < MAX_FUNC`; the theorems about the functions `id < func` of a table take
`func < MAX_FUNC`. -/
def func_cc (T : Tables) (id : Int) : Int := int32 (T.func_ccD (id + 1) - T.func_ccD id)

/-- The `while (lo <= hi)` loop of `func_addr`.  The table entry is `uint64_t`, so
the `int` target is converted to `uint64_t` for the three comparisons. -/
def func_addr_loop (T : Tables) (addr : Int) : Nat → Int → Int → Option Int
  | 0, _, _ => none
  | fuel + 1, lo, hi =>
    if lo ≤ hi then
      let idx := Int.tdiv (int32 (lo + hi)) 2
      if (T.func_addrD idx : Int) = uint64 addr then some idx
      else
        let hi1 := if (T.func_addrD idx : Int) > uint64 addr then idx - 1 else hi
        let lo1 := if (T.func_addrD idx : Int) < uint64 addr then idx + 1 else lo
        func_addr_loop T addr fuel lo1 hi1
    else some (-1)

/-- Resolver `func_addr(func, addr)`: binary search of the first `func` entries of
`func_addrD` for `addr`. -/
def func_addr (T : Tables) (func addr : Int) : Option Int :=
  func_addr_loop T addr (func.toNat + 1) 0 (func - 1)

/-- The `for (it ...)` loop of `anydepth_check_func` over the calls of `id`;
`descend` is the recursive call, `n` the number of iterations that remain. -/
def anydepth_loop (T : Tables) (func id : Int)
    (descend : Int → Marks → Option (Int × Marks)) :
    Nat → Int → Int → Marks → Option (Int × Marks)
  | 0, _, depth, S => some (depth, S)
  | n + 1, it, depth, S =>
    match func_addr T func (int32 (T.call_addrD id it)) with
    | none => none
    | some call_id =>
      match (if call_id ≥ 0 then
              (descend call_id S).map (fun p => (int32 (1 + p.1), p.2))
            else some (1, S)) with
      | none => none
      | some (call_depth, S1) =>
        if call_depth = 0 then some (0, S1)
        else
          anydepth_loop T func id descend n (it + 1)
            (if call_depth > depth then call_depth else depth) S1

/-- Depth analyzer `anydepth_check_func(id, func)`: the result and the tables after the
call.  The fuel bounds the number of nested descents, that is of functions that are on
the stack at once; a call that returns at once needs none. -/
def anydepth_check_func (T : Tables) (func : Int) : Nat → Int → Marks → Option (Int × Marks)
  | fuel, id, S =>
    if S.func_depthD id ≠ 0 then some (S.func_depthD id, S)
    else if S.func_stackD id ≠ 0 then
      some (-1, { S with func_recurseD := setAt S.func_recurseD id 1 })
    else
      match fuel with
      | 0 => none
      | fuel + 1 =>
        let call_count := func_cc T id
        let S1 := { S with func_stackD := setAt S.func_stackD id (S.func_stackD id + 1) }
        match anydepth_loop T func id (anydepth_check_func T func fuel)
            call_count.toNat 0 1 S1 with
        | none => none
        | some (depth, S2) =>
          let S3 := { S2 with func_stackD := setAt S2.func_stackD id (S2.func_stackD id - 1) }
          if depth = 0 then some (0, S3)
          else some (depth, { S3 with func_depthD := setAt S3.func_depthD id depth })

/-- Fuel for a top-level call of `anydepth_check_func`: one nested descent per
function. -/
def depth_fuel (func : Int) : Nat := func.toNat

/-- The `DEPTH_SORT` loop of `main`: `anydepth_check_func(it, func)` for every
`it` in ascending order, keeping the highest result in `hi_depth`. -/
def depth_pass_loop (T : Tables) (func : Int) :
    Nat → Int → Int → Marks → Option (Int × Marks)
  | 0, _, hi_depth, S => some (hi_depth, S)
  | n + 1, it, hi_depth, S =>
    match anydepth_check_func T func (depth_fuel func) it S with
    | none => none
    | some (depth, S1) =>
      depth_pass_loop T func n (it + 1) (if depth > hi_depth then depth else hi_depth) S1

/-- The full depth pass from given analyzer tables. -/
def depth_pass (T : Tables) (func : Int) (S : Marks) : Option (Int × Marks) :=
  depth_pass_loop T func func.toNat 0 0 S

/-- The inner `for (jt ...)` loop of the `RM_SELFCALL` pass for function `id`
(the `last_call` variable only drives the disabled `VERBOSE_SELFCALL` log). -/
def rm_selfcall_inner (func id : Int) : Nat → Int → Tables → Option Tables
  | 0, _, T => some T
  | n + 1, jt, T =>
    match func_addr T func (int32 (T.call_addrD id jt)) with
    | none => none
    | some call_id =>
      rm_selfcall_inner func id n (jt + 1)
        (if call_id = id then
          { T with call_addrD := setAt2 T.call_addrD id jt (int64 (T.func_addrD 0)) }
        else T)

/-- The outer `for (id ...)` loop of the `RM_SELFCALL` pass. -/
def rm_selfcall_outer (func : Int) : Nat → Int → Tables → Option Tables
  | 0, _, T => some T
  | n + 1, id, T =>
    match rm_selfcall_inner func id (func_cc T id).toNat 0 T with
    | none => none
    | some T1 => rm_selfcall_outer func n (id + 1) T1

/-- The `RM_SELFCALL` pass of `main` (the self-call normalizer). -/
def rm_selfcall (T : Tables) (func : Int) : Option Tables :=
  rm_selfcall_outer func func.toNat 0 T

/-- The normalizer followed by the full depth pass, from zeroed analyzer tables. -/
def normalize_then_depth_pass (T : Tables) (func : Int) : Option (Tables × Int × Marks) :=
  match rm_selfcall T func with
  | none => none
  | some T1 => (depth_pass T1 func Marks.zero).map (fun r => (T1, r))

/-- The `for (jt ...)` loop of the children-of listing for function `id`: the
indices `call_id` whose names it prints, in order. -/
def list_children_loop (T : Tables) (func id : Int) : Nat → Int → Option (List Int)
  | 0, _ => some []
  | n + 1, jt =>
    match func_addr T func (int32 (T.call_addrD id jt)) with
    | none => none
    | some call_id =>
      (list_children_loop T func id n (jt + 1)).map
        (fun l => if call_id ≥ 0 then call_id :: l else l)

/-- The children-of listing of `main` for function `id`. -/
def list_children (T : Tables) (func id : Int) : Option (List Int) :=
  list_children_loop T func id (func_cc T id).toNat 0

/-- The inner loop of the parents-of scan for caller `it`: on the first call
equal to `target` it prints the caller, and `jt = call_count` ends the loop. -/
def list_parents_inner (T : Tables) (target it : Int) : Nat → Int → List Int
  | 0, _ => []
  | n + 1, jt =>
    if T.call_addrD it jt = target then [it]
    else list_parents_inner T target it n (jt + 1)

/-- The outer loop of the parents-of scan: the indices of the callers printed. -/
def list_parents_outer (T : Tables) (target : Int) : Nat → Int → List Int
  | 0, _ => []
  | n + 1, it =>
    list_parents_inner T target it (func_cc T it).toNat 0 ++
      list_parents_outer T target n (it + 1)

/-- The parents-of scan of `main` for function `id`; the target is
`int func_addr = func_addrD[id]`. -/
def list_parents (T : Tables) (func id : Int) : List Int :=
  list_parents_outer T (int32 (T.func_addrD id)) func.toNat 0

/-- The C string stored in a row: the bytes before the first zero byte, at most `n`
of them, read from position `k`. -/
def cstring (row : Int → Int) : Nat → Int → List Int
  | 0, _ => []
  | n + 1, k => if row k = 0 then [] else row k :: cstring row n (k + 1)

/-- The name of function `id` as printed with `%s`. -/
def func_name_of (T : Tables) (id : Int) : List Int := cstring (T.funcD id) MAX_NAME.toNat 0

/-! ## Predicates of the statements -/

/-- The table addresses are strictly increasing over the first `func` entries. -/
def StrictInc (T : Tables) (func : Int) : Prop :=
  ∀ i j : Int, 0 ≤ i → i < j → j < func → T.func_addrD i < T.func_addrD j

/-- The resolved-call graph as the code resolves it: function `a` (one of the first
`func`) has a recorded call edge that, cut to an `int`, `func_addr` resolves to
function `b`. -/
def Calls (T : Tables) (func a b : Int) : Prop :=
  0 ≤ a ∧ a < func ∧ 0 ≤ b ∧
    ∃ jt, 0 ≤ jt ∧ jt < func_cc T a ∧ func_addr T func (int32 (T.call_addrD a jt)) = some b

/-- No function reaches itself through one or more resolved calls. -/
def Acyclic (T : Tables) (func : Int) : Prop :=
  ∀ a, ¬ Relation.TransGen (Calls T func) a a

/-- The integer `d` is the length of the longest chain of resolved calls that starts
at `f`, counting `f` itself: some chain `f :: rest` has `d` functions and none has
more. -/
def LongestChain (T : Tables) (func f d : Int) : Prop :=
  (∃ rest, List.Chain (Calls T func) f rest ∧ (rest.length : Int) + 1 = d) ∧
  ∀ rest, List.Chain (Calls T func) f rest → (rest.length : Int) + 1 ≤ d

/-- Function `f` has no recorded call that resolves to `f` itself. -/
def NoSelfCall (T : Tables) (func f : Int) : Prop :=
  ∀ jt, 0 ≤ jt → jt < func_cc T f → func_addr T func (int32 (T.call_addrD f jt)) ≠ some f

/-- Every recorded call of `f` resolves to function `g`. -/
def AllCallsTo (T : Tables) (func f g : Int) : Prop :=
  ∀ jt, 0 ≤ jt → jt < func_cc T f → func_addr T func (int32 (T.call_addrD f jt)) = some g

/-- The normalizer as the specification words it: a recorded call of function `id`
(`id < func`, `jt < func_cc(id)`) that resolves to `id` itself holds the address of
function 0; every other table entry is as before. -/
def rm_selfcall_spec (T : Tables) (func : Int) : Tables :=
  { T with
    call_addrD := fun id jt =>
      if 0 ≤ id ∧ id < func ∧ 0 ≤ jt ∧ jt < func_cc T id ∧
          func_addr T func (int32 (T.call_addrD id jt)) = some id then
        int64 (T.func_addrD 0)
      else T.call_addrD id jt }

/-! ## Invariants used in the proofs -/

/-- What a call of `anydepth_check_func` may change: the stack table is restored,
a depth is written only where it was 0 for a function not on the stack, and the
value written is at least 1; a recursion flag is only ever set to 1. -/
structure Frame (S S' : Marks) : Prop where
  stack : S'.func_stackD = S.func_stackD
  depth : ∀ g, S'.func_depthD g = S.func_depthD g ∨
    (S.func_depthD g = 0 ∧ S.func_stackD g = 0 ∧ 1 ≤ S'.func_depthD g)
  recurse : ∀ g, S'.func_recurseD g = S.func_recurseD g ∨ S'.func_recurseD g = 1

/-- The three ways `anydepth_check_func(id, func)` returns `r` with tables `S'` from
tables `S`: the memoized depth, the on-stack result `-1`, or the descent (result 0
without a write, or a depth of at least 1 that is memoized). -/
def Ret (id : Int) (S : Marks) (r : Int) (S' : Marks) : Prop :=
  (S.func_depthD id ≠ 0 ∧ r = S.func_depthD id ∧ S' = S) ∨
  (S.func_depthD id = 0 ∧ S.func_stackD id ≠ 0 ∧ r = -1 ∧
    S' = { S with func_recurseD := setAt S.func_recurseD id 1 }) ∨
  (S.func_depthD id = 0 ∧ S.func_stackD id = 0 ∧
    ((r = 0 ∧ S'.func_depthD id = 0) ∨ (1 ≤ r ∧ S'.func_depthD id = r)))

/-- The number of functions among the first `func` that a call can still descend
into: depth 0 and not on the stack. -/
def whiteCount (func : Int) (S : Marks) : Nat :=
  ((Finset.range func.toNat).filter
    (fun k : Nat => S.func_depthD k = 0 ∧ S.func_stackD k = 0)).card

/-- The number of functions among the first `func` with a memoized (non-zero) depth. -/
def nzCount (func : Int) (d : Int → Int) : Nat :=
  ((Finset.range func.toNat).filter (fun k : Nat => d k ≠ 0)).card

/-- Every depth is at least 0 and at most the number of memoized depths. -/
def DepthBound (func : Int) (d : Int → Int) : Prop :=
  ∀ g, 0 ≤ d g ∧ d g ≤ nzCount func d

/-! ## Concrete tables -/

/-- A row of chars holding the bytes of `l`, zero elsewhere. -/
def name_row (l : List Int) : Int → Int := fun k => if 0 ≤ k then l.getD k.toNat 0 else 0

/-- The bytes of a string literal. -/
def bytes (s : String) : List Int := s.toList.map (fun c => (c.toNat : Int))

/-- The tables for the example of the specification: `foo` at 0x10 calling 0x20,
`bar` at 0x20 calling nothing, `baz` at 0x30 calling 0x10 and 0x20. -/
def example_tables : Tables :=
  { funcD := fun i =>
      if i = 0 then name_row (bytes "foo") else if i = 1 then name_row (bytes "bar")
      else if i = 2 then name_row (bytes "baz") else name_row []
    func_lineD := fun i => if i = 0 then 0 else if i = 1 then 2 else if i = 2 then 3 else 0
    func_addrD := fun i => if i = 0 then 0x10 else if i = 1 then 0x20 else if i = 2 then 0x30 else 0
    func_ccD := fun i =>
      if i = 0 then 0 else if i = 1 then 1 else if i = 2 then 1 else if i = 3 then 3 else 0
    call_addrD := fun i j =>
      if i = 0 ∧ j = 0 then 0x20 else if i = 2 ∧ j = 0 then 0x10
      else if i = 2 ∧ j = 1 then 0x20 else 0 }

/-- One function at 0x140001000, an address that does not fit a C `int`. -/
def high_tables : Tables :=
  { funcD := fun _ => name_row []
    func_lineD := fun _ => 0
    func_addrD := fun i => if i = 0 then 0x140001000 else 0
    func_ccD := fun _ => 0
    call_addrD := fun _ _ => 0 }

/-- One function at 0x10 whose only call targets 0x10, the function itself. -/
def selfcall_tables : Tables :=
  { funcD := fun i => if i = 0 then name_row (bytes "loop") else name_row []
    func_lineD := fun _ => 0
    func_addrD := fun i => if i = 0 then 0x10 else 0
    func_ccD := fun i => if i = 1 then 1 else 0
    call_addrD := fun i j => if i = 0 ∧ j = 0 then 0x10 else 0 }

/-- Function 0 at 0x10 without calls and function 1 at 0x20 whose only call targets
0x20, the function itself. -/
def selfcall_leaf_tables : Tables :=
  { funcD := fun i =>
      if i = 0 then name_row (bytes "main") else if i = 1 then name_row (bytes "loop")
      else name_row []
    func_lineD := fun _ => 0
    func_addrD := fun i => if i = 0 then 0x10 else if i = 1 then 0x20 else 0
    func_ccD := fun i => if i = 2 then 1 else 0
    call_addrD := fun i j => if i = 1 ∧ j = 0 then 0x20 else 0 }

/-- Two functions at 0x10 and 0x20 that call each other. -/
def cycle_tables : Tables :=
  { funcD := fun i =>
      if i = 0 then name_row (bytes "ping") else if i = 1 then name_row (bytes "pong")
      else name_row []
    func_lineD := fun _ => 0
    func_addrD := fun i => if i = 0 then 0x10 else if i = 1 then 0x20 else 0
    func_ccD := fun i => if i = 0 then 0 else if i = 1 then 1 else if i = 2 then 2 else 0
    call_addrD := fun i j =>
      if i = 0 ∧ j = 0 then 0x20 else if i = 1 ∧ j = 0 then 0x10 else 0 }
/-! ## Sequences of top-level calls -/

/-- A sequence of top-level calls `anydepth_check_func(id, func)`, one for each `id` of
the list, in order. -/
def top_level_calls (T : Tables) (func : Int) : List Int → Marks → Option Marks
  | [], S => some S
  | id :: rest, S =>
    match anydepth_check_func T func (depth_fuel func) id S with
    | none => none
    | some (_, S1) => top_level_calls T func rest S1

/-! ## The single-symbol traversal and its unused report -/

/-- The `CHECK_SINGLE` path of `main` for the function of index `s`: the normalizer,
then the single call `anydepth_check_func(s, func)` from zeroed analyzer tables. -/
def seeded_traversal (T : Tables) (func s : Int) : Option (Tables × Int × Marks) :=
  match rm_selfcall T func with
  | none => none
  | some T1 =>
    (anydepth_check_func T1 func (depth_fuel func) s Marks.zero).map (fun r => (T1, r))

/-- The `show_unused` loop: the indices printed (those with `!func_depthD[it]`) and
the final `count`. -/
def list_unused_loop (S : Marks) : Nat → Int → Int → List Int × Int
  | 0, _, count => ([], count)
  | n + 1, it, count =>
    let r := list_unused_loop S n (it + 1) (if S.func_depthD it = 0 then count + 1 else count)
    (if S.func_depthD it = 0 then it :: r.1 else r.1, r.2)

/-- The unused report of the `%` mode over the first `func` functions. -/
def list_unused (S : Marks) (func : Int) : List Int × Int :=
  list_unused_loop S func.toNat 0 0

/-- Function 0 at 0x10 calling 0x10 (itself) and 0x20; function 1 at 0x20 without
calls. -/
def recursive_entry_tables : Tables :=
  { funcD := fun i =>
      if i = 0 then name_row (bytes "main") else if i = 1 then name_row (bytes "leaf")
      else name_row []
    func_lineD := fun i => if i = 1 then 3 else 0
    func_addrD := fun i => if i = 0 then 0x10 else if i = 1 then 0x20 else 0
    func_ccD := fun i => if i = 1 then 2 else if i = 2 then 2 else 0
    call_addrD := fun i j =>
      if i = 0 ∧ j = 0 then 0x10 else if i = 0 ∧ j = 1 then 0x20 else 0 }

/-! ## The table builder -/

/-- The tables before the scan (`DATA` is `static`, so zero-initialised). -/
def Tables.zero : Tables :=
  { funcD := fun _ _ => 0, func_lineD := fun _ => 0, func_addrD := fun _ => 0,
    func_ccD := fun _ => 0, call_addrD := fun _ _ => 0 }

/-- Array store `a[i] = v` in a `uint64_t` table. -/
def setAtN (a : Int → Nat) (i : Int) (v : Nat) : Int → Nat := fun j => if j = i then v else a j

/-- The byte `p[k]` of the text at pointer `p`; past the end of the text it is zero. -/
def byte_at (p : List Int) (k : Nat) : Int := p.getD k 0

/-- Digit test `char_digit(c)`: `'0' <= c && c <= '9'`. -/
def char_digit (c : Int) : Bool := decide (48 ≤ c ∧ c ≤ 57)

/-- Call test `is_call(str)`: `0 == memcmp(str, "call", 4)`. -/
def is_call (str : List Int) : Bool :=
  decide (byte_at str 0 = 99 ∧ byte_at str 1 = 97 ∧ byte_at str 2 = 108 ∧ byte_at str 3 = 108)

/-- The pointer `end` of the scan: `strchr(iter, '\n')` followed by
`end += (end != 0)`, that is the text after the first line feed, or `none` (NULL) when
a zero byte or the end of the text comes first. -/
def next_line : List Int → Option (List Int)
  | [] => none
  | c :: rest => if c = 10 then some rest else if c = 0 then none else next_line rest

/-- The `for` loop of `func_name`: `name` gives the source bytes from the pointer on,
`n` is the number of iterations that remain; the result is `it` and the name rows. -/
def func_name_loop (id : Int) (name : Int → Int) :
    Nat → Int → (Int → Int → Int) → Int × (Int → Int → Int)
  | 0, it, F => (it, F)
  | n + 1, it, F =>
    if name it = 62 then (it, F)
    else func_name_loop id name n (it + 1) (setAt2 F id it (name it))

/-- Name store `func_name(id, name)`: the value returned and the tables after it. -/
def func_name (T : Tables) (id : Int) (name : Int → Int) : Int × Tables :=
  let r := func_name_loop id name (MAX_NAME - 1).toNat 0 T.funcD
  (r.1, { T with funcD := setAt2 r.2 id r.1 0 })

/-- The local variables of the scan in `main` together with the tables. -/
structure Scan where
  T : Tables
  line : Int
  func : Int
  call_count : Int
  lo_addr : Int
  hi_addr : Int

/-- The state before the `while (iter)` loop. -/
def Scan.init : Scan :=
  { T := Tables.zero, line := 0, func := 0, call_count := 0, lo_addr := 2 ^ 64 - 1,
    hi_addr := 0 }

/-- One iteration of the `while (iter)` loop of `main` for the line at `iter`.  The
libc function `strtoull(p, 0, 16)` is the parameter `strtoull`.  When `end` is NULL
the difference `end - iter` is not above `CALL_OF`. -/
def scan_line (strtoull : List Int → Nat) (iter : List Int) (s : Scan) : Scan :=
  if char_digit (byte_at iter 0) then
    let addr := int64 (strtoull iter)
    let lo := if addr ≠ 0 then (if uint64 addr < s.lo_addr then uint64 addr else s.lo_addr)
      else s.lo_addr
    let hi := if uint64 addr > s.hi_addr then uint64 addr else s.hi_addr
    let T1 := { s.T with
      func_addrD := setAtN s.T.func_addrD s.func (uint64 addr).toNat,
      func_lineD := setAtN s.T.func_lineD s.func (uint64 s.line).toNat }
    let T2 := (func_name T1 s.func (fun k => byte_at (iter.drop 18) k.toNat)).2
    { T := { T2 with func_ccD := setAt T2.func_ccD s.func s.call_count },
      line := s.line + 1, func := s.func + 1, call_count := s.call_count,
      lo_addr := lo, hi_addr := hi }
  else if (match next_line iter with
      | some e => decide ((iter.length : Int) - e.length > 40)
      | none => false) && is_call (iter.drop 40) then
    let this_id := s.func - 1
    let call_base := s.T.func_ccD this_id
    let call_idx := int32 (s.call_count - call_base)
    let call_addr := int64 (strtoull (iter.drop 45))
    { s with
      T := if call_idx < MAX_CALL then
          { s.T with call_addrD := setAt2 s.T.call_addrD this_id call_idx call_addr }
        else s.T,
      line := s.line + 1,
      call_count := if call_idx < MAX_CALL then s.call_count + 1 else s.call_count }
  else { s with line := s.line + 1 }

/-- The `while (iter)` loop of `main`; `none` is the NULL pointer. -/
def scan_loop (strtoull : List Int → Nat) : Nat → Option (List Int) → Scan → Option Scan
  | 0, _, _ => none
  | _ + 1, none, s => some s
  | fuel + 1, some iter, s =>
    scan_loop strtoull fuel (next_line iter) (scan_line strtoull iter s)

/-- The closing sentinel `func_ccD[func] = call_count` after the loop. -/
def close_tables (s : Scan) : Scan :=
  { s with T := { s.T with func_ccD := setAt s.T.func_ccD s.func s.call_count } }

/-- The table builder: the scan of the whole text, then the sentinel.  The text is the
file as `mmap` maps it; an empty file, for which `mmap` fails and the scan
dereferences the failure value, is outside the model. -/
def build_tables (strtoull : List Int → Nat) (text : List Int) : Option Scan :=
  (scan_loop strtoull (text.length + 2) (some text) Scan.init).map close_tables

/-- The value of a hexadecimal digit. -/
def hex_digit (c : Int) : Option Nat :=
  if 48 ≤ c ∧ c ≤ 57 then some (c - 48).toNat
  else if 97 ≤ c ∧ c ≤ 102 then some (c - 87).toNat
  else if 65 ≤ c ∧ c ≤ 70 then some (c - 55).toNat
  else none

/-- White space as `isspace` has it in the C locale. -/
def is_space (c : Int) : Bool := decide (c = 32 ∨ (9 ≤ c ∧ c ≤ 13))

/-- The digits loop of `strtoull` in base 16: the value read so far, `none` once it
has gone above `ULLONG_MAX`. -/
def hex_value : List Int → Option Nat → Option Nat
  | [], acc => acc
  | c :: rest, acc =>
    match hex_digit c with
    | some d =>
      hex_value rest
        (match acc with
          | some a => if 16 * a + d < 2 ^ 64 then some (16 * a + d) else none
          | none => none)
    | none => acc

/-- Modelled from libc: `strtoull(p, 0, 16)`.  Leading white space is skipped, then an
optional sign and an optional `0x` or `0X` prefix, then the hexadecimal digits are
read (no digit gives 0); a value above `ULLONG_MAX` gives `ULLONG_MAX`, and after a
minus sign the value is negated modulo 2^64. -/
def strtoull_hex (p : List Int) : Nat :=
  let p1 := p.dropWhile is_space
  let p2 := if byte_at p1 0 = 45 ∨ byte_at p1 0 = 43 then p1.drop 1 else p1
  let p3 := if byte_at p2 0 = 48 ∧ (byte_at p2 1 = 120 ∨ byte_at p2 1 = 88) then p2.drop 2
    else p2
  match hex_value p3 (some 0) with
  | none => 2 ^ 64 - 1
  | some v => if byte_at p1 0 = 45 then (2 ^ 64 - v) % 2 ^ 64 else v

/-! ## The lines of an input, as the scan sees them -/

/-- The loop body run over a list of line starts, first to last. -/
def scan_lines (strtoull : List Int → Nat) (ls : List (List Int)) (s : Scan) : Scan :=
  ls.foldl (fun s1 iter => scan_line strtoull iter s1) s

/-- The values of `iter` over the iterations of the scan, from the value given; the
fuel bounds their number. -/
def line_starts_from : Nat → Option (List Int) → List (List Int)
  | 0, _ => []
  | _ + 1, none => []
  | fuel + 1, some iter => iter :: line_starts_from fuel (next_line iter)

/-- The values of `iter` over the scan of a text: the text from the start of each of
its lines on. -/
def line_starts (text : List Int) : List (List Int) :=
  line_starts_from (text.length + 2) (some text)

/-- The scan takes the line at `iter` for a function header. -/
def is_header (iter : List Int) : Bool := char_digit (byte_at iter 0)

/-- The test of the call branch of the scan, as the code makes it: the line at `iter`
is no header, a line feed is found more than `CALL_OF` bytes on, and `is_call` holds
at `CALL_OF`. -/
def is_call_line (iter : List Int) : Bool :=
  !is_header iter &&
    ((match next_line iter with
      | some e => decide ((iter.length : Int) - e.length > 40)
      | none => false) && is_call (iter.drop 40))

/-- The target that the scan reads from the call line at `iter`. -/
def call_target (strtoull : List Int → Nat) (iter : List Int) : Int :=
  int64 (strtoull (iter.drop 45))

/-- A text of `n` lines `1`, each of which the scan takes for a function header. -/
def header_lines : Nat → List Int
  | 0 => []
  | n + 1 => 49 :: 10 :: header_lines n

/-- A text of three lines: the header of `foo` at 0x10, a line with `call 20` at
column 40, the header of `bar` at 0x20. -/
def one_call_text : List Int :=
  bytes ("0000000000000010 <foo>:\n" ++
    "                                        call 20\n" ++ "0000000000000020 <bar>:\n")

/-- A text of three lines: the header of `foo` at 0x10, a line with `call 100000020`
at column 40 (a target above 32 bits), the header of `bar` at 0x20. -/
def high_call_text : List Int :=
  bytes ("0000000000000010 <foo>:\n" ++
    "                                        call 100000020\n" ++
    "0000000000000020 <bar>:\n")

/-! ## Call edges by address, and tables with targets above 32 bits -/

/-- The resolved-call relation in the words of the specification: a recorded call edge
of function `a` matches the address of the known function `b` (both among the first
`func`); the edge and the address are compared as 64-bit values. -/
def CallsByAddress (T : Tables) (func a b : Int) : Prop :=
  0 ≤ a ∧ a < func ∧ 0 ≤ b ∧ b < func ∧
    ∃ jt, 0 ≤ jt ∧ jt < func_cc T a ∧ uint64 (T.call_addrD a jt) = (T.func_addrD b : Int)

/-- Function 0 (`foo`) at 0x10 whose only call targets 0x100000020, the address of no
function; function 1 (`bar`) at 0x20 without calls. -/
def high_edge_tables : Tables :=
  { funcD := fun i =>
      if i = 0 then name_row (bytes "foo") else if i = 1 then name_row (bytes "bar")
      else name_row []
    func_lineD := fun i => if i = 1 then 2 else 0
    func_addrD := fun i => if i = 0 then 0x10 else if i = 1 then 0x20 else 0
    func_ccD := fun i => if i = 1 then 1 else if i = 2 then 1 else 0
    call_addrD := fun i j => if i = 0 ∧ j = 0 then 0x100000020 else 0 }

/-- Two functions at 0x140001000 and 0x140002000, each with one call, to the address
of the other. -/
def high_cycle_tables : Tables :=
  { funcD := fun i =>
      if i = 0 then name_row (bytes "ping") else if i = 1 then name_row (bytes "pong")
      else name_row []
    func_lineD := fun i => if i = 1 then 2 else 0
    func_addrD := fun i => if i = 0 then 0x140001000 else if i = 1 then 0x140002000 else 0
    func_ccD := fun i => if i = 1 then 1 else if i = 2 then 2 else 0
    call_addrD := fun i j =>
      if i = 0 ∧ j = 0 then 0x140002000 else if i = 1 ∧ j = 0 then 0x140001000 else 0 }

/-- Function 0 at 0x10 whose only call targets 0x100000020, the address of no
function; function 1 at 0x20 whose only call targets 0x10. -/
def high_back_tables : Tables :=
  { funcD := fun i =>
      if i = 0 then name_row (bytes "foo") else if i = 1 then name_row (bytes "bar")
      else name_row []
    func_lineD := fun i => if i = 1 then 2 else 0
    func_addrD := fun i => if i = 0 then 0x10 else if i = 1 then 0x20 else 0
    func_ccD := fun i => if i = 1 then 1 else if i = 2 then 2 else 0
    call_addrD := fun i j =>
      if i = 0 ∧ j = 0 then 0x100000020 else if i = 1 ∧ j = 0 then 0x10 else 0 }

/-- Function 0 (`main`) at 0x10 calling 0x20 and 0x10 (itself); function 1 (`loop`) at
0x20 with two calls, both to 0x20 (itself). -/
def entry_loop_tables : Tables :=
  { funcD := fun i =>
      if i = 0 then name_row (bytes "main") else if i = 1 then name_row (bytes "loop")
      else name_row []
    func_lineD := fun i => if i = 1 then 3 else 0
    func_addrD := fun i => if i = 0 then 0x10 else if i = 1 then 0x20 else 0
    func_ccD := fun i => if i = 1 then 2 else if i = 2 then 4 else 0
    call_addrD := fun i j =>
      if i = 0 ∧ j = 0 then 0x20 else if i = 0 ∧ j = 1 then 0x10
      else if i = 1 ∧ j = 0 then 0x20 else if i = 1 ∧ j = 1 then 0x20 else 0 }

/-- The analyzer tables after the top-level call for `bar` of the example: function 1
has depth 1, nothing else is set. -/
def bar_done_marks : Marks :=
  { Marks.zero with func_depthD := fun g => if g = 1 then 1 else 0 }

/-! ## Lines in the words of the specification -/

/-- The line of the text that starts at `p`: the bytes before the first line feed
(the specification delimits lines by the line-feed byte). -/
def line_at (p : List Int) : List Int := p.takeWhile (fun c => decide (c ≠ 10))

/-- A function header in the words of the specification: the first character of the
line is a decimal digit. -/
def header_line : List Int → Bool
  | [] => false
  | c :: _ => decide (48 ≤ c ∧ c ≤ 57)

/-- A call instruction in the words of the specification: the line is no function
header and the literal token `call` appears at column 40. -/
def call_instruction (line : List Int) : Bool :=
  !header_line line && decide ((line.drop 40).take 4 = [99, 97, 108, 108])

/-- A text of two lines: the header of `foo` at 0x10, and a last line with `call 20`
at column 40 that no line feed ends. -/
def unterminated_call_text : List Int :=
  bytes ("0000000000000010 <foo>:\n" ++
    "                                        call 20")

/-- A text of one line, the header of `foo` at 0x10, that no line feed ends. -/
def unterminated_header_text : List Int := bytes "0000000000000010 <foo>:"

/-! ## Machine-integer facts -/

theorem int32_of_range {x : Int} (h1 : -2 ^ 31 ≤ x) (h2 : x < 2 ^ 31) : int32 x = x := by
  unfold int32; omega

theorem int32_range (x : Int) : -2 ^ 31 ≤ int32 x ∧ int32 x < 2 ^ 31 := by
  unfold int32; omega

theorem uint64_of_range {x : Int} (h1 : 0 ≤ x) (h2 : x < 2 ^ 64) : uint64 x = x := by
  unfold uint64; omega

theorem int64_of_range {x : Int} (h1 : -2 ^ 63 ≤ x) (h2 : x < 2 ^ 63) : int64 x = x := by
  unfold int64; omega

/-! ## The address resolver -/

theorem func_addr_loop_spec (T : Tables) (addr func : Int) (hcap : func ≤ MAX_FUNC) :
    ∀ (fuel : Nat) (lo hi : Int), 0 ≤ lo → hi < func → 0 < fuel → hi - lo + 1 < fuel →
      ∃ r, func_addr_loop T addr fuel lo hi = some r ∧
        (r = -1 ∨ (lo ≤ r ∧ r ≤ hi ∧ (T.func_addrD r : Int) = uint64 addr)) ∧
        (StrictInc T func → r = -1 →
          ∀ i, lo ≤ i → i ≤ hi → (T.func_addrD i : Int) ≠ uint64 addr) := by
  intro fuel
  induction fuel with
  | zero => intro lo hi h1 h2 h3; omega
  | succ fuel ih =>
    intro lo hi hlo hhi _ hfuel
    unfold func_addr_loop
    by_cases hle : lo ≤ hi
    · have hcap2 : func ≤ 8192 := by simpa [MAX_FUNC] using hcap
      have hw : int32 (lo + hi) = lo + hi := int32_of_range (by omega) (by omega)
      have hdiv : Int.tdiv (lo + hi) 2 = (lo + hi) / 2 :=
        Int.tdiv_eq_ediv (by omega) (by omega)
      simp only [hle, if_true, hw, hdiv]
      have hidx1 : lo ≤ (lo + hi) / 2 := by omega
      have hidx2 : (lo + hi) / 2 ≤ hi := by omega
      generalize (lo + hi) / 2 = idx at hidx1 hidx2
      by_cases heq : (T.func_addrD idx : Int) = uint64 addr
      · simp only [heq, if_true]
        exact ⟨idx, rfl, Or.inr ⟨hidx1, hidx2, heq⟩, fun _ h => by omega⟩
      · simp only [heq, if_false]
        by_cases hgt : (T.func_addrD idx : Int) > uint64 addr
        · have hnlt : ¬ ((T.func_addrD idx : Int) < uint64 addr) := by omega
          simp only [hgt, hnlt, if_true, if_false]
          obtain ⟨r, hr, hres, hnone⟩ := ih lo (idx - 1) hlo (by omega) (by omega) (by omega)
          refine ⟨r, hr, ?_, ?_⟩
          · rcases hres with h | ⟨h1, h2, h3⟩
            · exact Or.inl h
            · exact Or.inr ⟨h1, by omega, h3⟩
          · intro hs hr1 i hi1 hi2
            by_cases hc : i ≤ idx - 1
            · exact hnone hs hr1 i hi1 hc
            · by_cases hc2 : i = idx
              · subst hc2; exact heq
              · have := hs idx i (by omega) (by omega) (by omega)
                omega
        · have hlt : (T.func_addrD idx : Int) < uint64 addr := by omega
          simp only [hgt, hlt, if_true, if_false]
          obtain ⟨r, hr, hres, hnone⟩ := ih (idx + 1) hi (by omega) hhi (by omega) (by omega)
          refine ⟨r, hr, ?_, ?_⟩
          · rcases hres with h | ⟨h1, h2, h3⟩
            · exact Or.inl h
            · exact Or.inr ⟨by omega, h2, h3⟩
          · intro hs hr1 i hi1 hi2
            by_cases hc : idx + 1 ≤ i
            · exact hnone hs hr1 i hc hi2
            · by_cases hc2 : i = idx
              · subst hc2; exact heq
              · have := hs i idx (by omega) (by omega) (by omega)
                omega
    · simp only [hle, if_false]
      exact ⟨-1, rfl, Or.inl rfl, fun _ _ i h1 h2 => by omega⟩

/-- The resolver returns, with `-1` or a matching index; on a sorted table `-1` means
no entry matches. -/
theorem func_addr_spec (T : Tables) (func addr : Int) (h0 : 0 ≤ func)
    (hcap : func ≤ MAX_FUNC) :
    ∃ r, func_addr T func addr = some r ∧
      (r = -1 ∨ (0 ≤ r ∧ r < func ∧ (T.func_addrD r : Int) = uint64 addr)) ∧
      (StrictInc T func →
        (r = -1 ↔ ¬ ∃ i, 0 ≤ i ∧ i < func ∧ (T.func_addrD i : Int) = uint64 addr)) := by
  obtain ⟨r, hr, hres, hnone⟩ :=
    func_addr_loop_spec T addr func hcap (func.toNat + 1) 0 (func - 1) (le_refl 0)
      (by omega) (by omega) (by omega)
  refine ⟨r, hr, ?_, ?_⟩
  · rcases hres with h | ⟨h1, h2, h3⟩
    · exact Or.inl h
    · exact Or.inr ⟨h1, by omega, h3⟩
  · intro hs
    constructor
    · rintro hr1 ⟨i, hi0, hi1, hi2⟩
      exact hnone hs hr1 i hi0 (by omega) hi2
    · intro hne
      rcases hres with h | ⟨h1, h2, h3⟩
      · exact h
      · exact absurd ⟨r, h1, by omega, h3⟩ hne

theorem func_addr_total (T : Tables) (func addr : Int) (h0 : 0 ≤ func)
    (hcap : func ≤ MAX_FUNC) :
    ∃ c, func_addr T func addr = some c ∧ c < func ∧ (0 ≤ c ∨ c = -1) := by
  obtain ⟨c, hc, hres, _⟩ := func_addr_spec T func addr h0 hcap
  refine ⟨c, hc, ?_, ?_⟩
  · rcases hres with h | ⟨_, h, _⟩ <;> omega
  · rcases hres with h | ⟨h, _, _⟩
    · exact Or.inr h
    · exact Or.inl h

theorem func_addr_range {T : Tables} {func addr c : Int} (h0 : 0 ≤ func)
    (hcap : func ≤ MAX_FUNC) (h : func_addr T func addr = some c) : c < func := by
  obtain ⟨c1, hc1, hlt, _⟩ := func_addr_total T func addr h0 hcap
  rw [h] at hc1
  cases hc1
  exact hlt

theorem func_addr_loop_congr (T1 T2 : Tables) (h : T1.func_addrD = T2.func_addrD)
    (addr : Int) :
    ∀ (fuel : Nat) (lo hi : Int),
      func_addr_loop T1 addr fuel lo hi = func_addr_loop T2 addr fuel lo hi := by
  intro fuel
  induction fuel with
  | zero => intro lo hi; rfl
  | succ fuel ih =>
    intro lo hi
    unfold func_addr_loop
    simp only [h, ih]

theorem func_addr_congr (T1 T2 : Tables) (h : T1.func_addrD = T2.func_addrD)
    (func addr : Int) : func_addr T1 func addr = func_addr T2 func addr :=
  func_addr_loop_congr T1 T2 h addr _ _ _

theorem func_addr_with (T : Tables) (f : Int → Int → Int) (func a : Int) :
    func_addr { T with call_addrD := f } func a = func_addr T func a :=
  func_addr_congr { T with call_addrD := f } T rfl func a

theorem func_cc_with (T : Tables) (f : Int → Int → Int) (k : Int) :
    func_cc { T with call_addrD := f } k = func_cc T k := rfl

/-- With strictly increasing addresses below 2^31, a function's own address, passed
through the `int` parameter, resolves to the function. -/
theorem func_addr_own (T : Tables) (func : Int) (h0 : 0 ≤ func) (hcap : func ≤ MAX_FUNC)
    (hs : StrictInc T func) (hlt : ∀ i, 0 ≤ i → i < func → (T.func_addrD i : Int) < 2 ^ 31)
    (i : Int) (hi0 : 0 ≤ i) (hi1 : i < func) :
    func_addr T func (int32 (T.func_addrD i)) = some i := by
  have hconv : uint64 (int32 (T.func_addrD i)) = T.func_addrD i := by
    have := hlt i hi0 hi1
    rw [int32_of_range (by omega) this, uint64_of_range (by omega) (by omega)]
  obtain ⟨r, hr, hres, hnone⟩ := func_addr_spec T func (int32 (T.func_addrD i)) h0 hcap
  rw [hr]
  rcases hres with h | ⟨h1, h2, h3⟩
  · exact absurd ⟨i, hi0, hi1, hconv.symm⟩ ((hnone hs).mp h)
  · rw [hconv] at h3
    by_cases hlt2 : r < i
    · have := hs r i h1 hlt2 hi1; omega
    · by_cases hgt : i < r
      · have := hs i r hi0 hgt h2; omega
      · have hri : r = i := by omega
        rw [hri]

/-- C3. For every table, every function count `func` with `0 ≤ func` that the table
can hold (`func ≤ MAX_FUNC`) and every target `addr` (zero and negative values
included), `func_addr(func, addr)` returns, and the result is either `-1` or an
index `i` with `0 ≤ i < func` whose table address equals the target (compared as
`uint64_t`, the way the C comparison converts the `int`); and when the addresses are
strictly increasing the result is `-1` exactly when none of the first `func`
entries has that address. -/
theorem func_addr_correct (T : Tables) (func addr : Int) (h0 : 0 ≤ func)
    (hcap : func ≤ MAX_FUNC) :
    ∃ r, func_addr T func addr = some r ∧
      (r = -1 ∨ (0 ≤ r ∧ r < func ∧ (T.func_addrD r : Int) = uint64 addr)) ∧
      (StrictInc T func →
        (r = -1 ↔ ¬ ∃ i, 0 ≤ i ∧ i < func ∧ (T.func_addrD i : Int) = uint64 addr)) :=
  func_addr_spec T func addr h0 hcap

theorem func_addr_correct_witness :
    (0 : Int) ≤ 3 ∧ (3 : Int) ≤ MAX_FUNC ∧
    ∃ r, func_addr example_tables 3 0x20 = some r ∧
      (r = -1 ∨ (0 ≤ r ∧ r < 3 ∧ (example_tables.func_addrD r : Int) = uint64 0x20)) ∧
      (StrictInc example_tables 3 →
        (r = -1 ↔
          ¬ ∃ i, 0 ≤ i ∧ i < 3 ∧ (example_tables.func_addrD i : Int) = uint64 0x20)) :=
  ⟨by decide, by decide, func_addr_correct example_tables 3 0x20 (by decide) (by decide)⟩

/-- C4 at its failing input: the table holds one function at 0x140001000, a 64-bit
address; its own stored address, passed through the `int` parameter of `func_addr`
as the callers do, resolves to `-1` and not to index 0. -/
theorem func_addr_own_address_truncated :
    StrictInc high_tables 1 ∧ (high_tables.func_addrD 0 : Int) < 2 ^ 64 ∧
      func_addr high_tables 1 (int32 (high_tables.func_addrD 0)) = some (-1) := by
  refine ⟨?_, by decide, by decide⟩
  intro i j h0 h1 h2
  omega

/-! ## The self-call normalizer -/

theorem rm_selfcall_inner_eq (func id : Int) (h0 : 0 ≤ func) (hcap : func ≤ MAX_FUNC) :
    ∀ (n : Nat) (jt : Int) (T : Tables),
      rm_selfcall_inner func id n jt T = some
        { T with
          call_addrD := fun i j =>
            if i = id ∧ jt ≤ j ∧ j < jt + n ∧
                func_addr T func (int32 (T.call_addrD id j)) = some id then
              int64 (T.func_addrD 0)
            else T.call_addrD i j } := by
  intro n
  induction n with
  | zero =>
    intro jt T
    simp only [rm_selfcall_inner, Option.some.injEq]
    have : (fun i j => if i = id ∧ jt ≤ j ∧ j < jt + ((0 : Nat) : Int) ∧
        func_addr T func (int32 (T.call_addrD id j)) = some id then
          int64 (T.func_addrD 0) else T.call_addrD i j) = T.call_addrD := by
      funext i j
      rw [if_neg]
      intro h
      have := h.2.1; have := h.2.2.1
      simp only [Nat.cast_zero, add_zero] at *
      omega
    rw [this]
  | succ n ih =>
    intro jt T
    obtain ⟨c, hc, _, _⟩ := func_addr_total T func (int32 (T.call_addrD id jt)) h0 hcap
    unfold rm_selfcall_inner
    simp only [hc]
    rw [ih]
    by_cases hcid : c = id
    · simp only [hcid, if_true, Option.some.injEq]
      have hfa : ∀ a, func_addr
          { T with call_addrD := setAt2 T.call_addrD id jt (int64 (T.func_addrD 0)) } func a
          = func_addr T func a := fun a => func_addr_congr
            { T with call_addrD := setAt2 T.call_addrD id jt (int64 (T.func_addrD 0)) } T rfl
            func a
      congr 1
      funext i j
      simp only [hfa, setAt2]
      by_cases hi : i = id
      · by_cases hj : j = jt
        · subst hi; subst hj
          have hc1 : func_addr T func (int32 (T.call_addrD i j)) = some i := by rw [hc, hcid]
          have h1 : ¬ (j + 1 ≤ j) := by omega
          have h2 : j < j + ((n + 1 : Nat) : Int) := by push_cast; omega
          simp [h1, h2, hc1]
        · have h3 : (jt + 1 ≤ j ∧ j < jt + 1 + (n : Int)) ↔
              (jt ≤ j ∧ j < jt + ((n + 1 : Nat) : Int)) := by push_cast; omega
          simp only [hi, hj, and_false, if_false, true_and]
          by_cases h4 : jt ≤ j ∧ j < jt + ((n + 1 : Nat) : Int)
          · have h5 := h3.mpr h4
            simp only [h4.1, h4.2, h5.1, h5.2, true_and]
          · have h5 : ¬ (jt + 1 ≤ j ∧ j < jt + 1 + (n : Int)) := fun h => h4 (h3.mp h)
            have a : ¬ (jt + 1 ≤ j ∧ j < jt + 1 + (n : Int) ∧
                func_addr T func (int32 (T.call_addrD id j)) = some id) :=
              fun h => h5 ⟨h.1, h.2.1⟩
            have b : ¬ (jt ≤ j ∧ j < jt + ((n + 1 : Nat) : Int) ∧
                func_addr T func (int32 (T.call_addrD id j)) = some id) :=
              fun h => h4 ⟨h.1, h.2.1⟩
            rw [if_neg a, if_neg b]
      · simp only [hi, false_and, if_false]
    · simp only [hcid, if_false, Option.some.injEq]
      congr 1
      funext i j
      by_cases hj : j = jt
      · subst hj
        have h1 : ¬ (j + 1 ≤ j) := by omega
        have h2 : ¬ (func_addr T func (int32 (T.call_addrD id j)) = some id) := by
          rw [hc]; intro h; exact hcid (Option.some.inj h)
        simp [h1, h2]
      · have h3 : (jt + 1 ≤ j ∧ j < jt + 1 + (n : Int)) ↔
            (jt ≤ j ∧ j < jt + ((n + 1 : Nat) : Int)) := by push_cast; omega
        by_cases h4 : jt ≤ j ∧ j < jt + ((n + 1 : Nat) : Int)
        · have h5 := h3.mpr h4
          simp only [h4.1, h4.2, h5.1, h5.2, true_and]
        · have h5 : ¬ (jt + 1 ≤ j ∧ j < jt + 1 + (n : Int)) := fun h => h4 (h3.mp h)
          have a : ¬ (i = id ∧ jt + 1 ≤ j ∧ j < jt + 1 + (n : Int) ∧
              func_addr T func (int32 (T.call_addrD id j)) = some id) :=
            fun h => h5 ⟨h.2.1, h.2.2.1⟩
          have b : ¬ (i = id ∧ jt ≤ j ∧ j < jt + ((n + 1 : Nat) : Int) ∧
              func_addr T func (int32 (T.call_addrD id j)) = some id) :=
            fun h => h4 ⟨h.2.1, h.2.2.1⟩
          rw [if_neg a, if_neg b]

theorem rm_selfcall_outer_eq (func : Int) (h0 : 0 ≤ func) (hcap : func ≤ MAX_FUNC) :
    ∀ (n : Nat) (id0 : Int) (T : Tables),
      rm_selfcall_outer func n id0 T = some
        { T with
          call_addrD := fun i j =>
            if id0 ≤ i ∧ i < id0 + n ∧ 0 ≤ j ∧ j < func_cc T i ∧
                func_addr T func (int32 (T.call_addrD i j)) = some i then
              int64 (T.func_addrD 0)
            else T.call_addrD i j } := by
  intro n
  induction n with
  | zero =>
    intro id0 T
    simp only [rm_selfcall_outer, Option.some.injEq]
    have : (fun i j => if id0 ≤ i ∧ i < id0 + ((0 : Nat) : Int) ∧ 0 ≤ j ∧ j < func_cc T i ∧
        func_addr T func (int32 (T.call_addrD i j)) = some i then
          int64 (T.func_addrD 0) else T.call_addrD i j) = T.call_addrD := by
      funext i j
      rw [if_neg]
      intro h
      have := h.1; have := h.2.1
      simp only [Nat.cast_zero, add_zero] at *
      omega
    rw [this]
  | succ n ih =>
    intro id0 T
    unfold rm_selfcall_outer
    rw [rm_selfcall_inner_eq func id0 h0 hcap]
    simp only
    rw [ih]
    simp only [Option.some.injEq]
    congr 1
    funext i j
    simp only [func_cc_with, func_addr_with]
    by_cases hi : i = id0
    · subst hi
      have h1 : ¬ (i + 1 ≤ i) := by omega
      have h2 : i < i + ((n + 1 : Nat) : Int) := by push_cast; omega
      have h3 : ∀ j : Int, (0 ≤ j ∧ j < 0 + ((func_cc T i).toNat : Int)) ↔
          (0 ≤ j ∧ j < func_cc T i) := by intro j; omega
      by_cases h4 : 0 ≤ j ∧ j < func_cc T i
      · have h5 := (h3 j).mpr h4
        simp only [h1, false_and, if_false, true_and, h5.1, h5.2, h4.2, le_refl, h2]
      · have a : ¬ (True ∧ 0 ≤ j ∧ j < 0 + ((func_cc T i).toNat : Int) ∧
            func_addr T func (int32 (T.call_addrD i j)) = some i) :=
          fun h => h4 ((h3 j).mp ⟨h.2.1, h.2.2.1⟩)
        have b : ¬ (i ≤ i ∧ i < i + ((n + 1 : Nat) : Int) ∧ 0 ≤ j ∧ j < func_cc T i ∧
            func_addr T func (int32 (T.call_addrD i j)) = some i) :=
          fun h => h4 ⟨h.2.2.1, h.2.2.2.1⟩
        simp only [h1, false_and, if_false]
        rw [if_neg a, if_neg b]
    · simp only [hi, false_and, if_false]
      have h3 : (id0 + 1 ≤ i ∧ i < id0 + 1 + (n : Int)) ↔
          (id0 ≤ i ∧ i < id0 + ((n + 1 : Nat) : Int)) := by push_cast; omega
      by_cases h4 : id0 ≤ i ∧ i < id0 + ((n + 1 : Nat) : Int)
      · have h5 := h3.mpr h4
        simp only [h4.1, h4.2, h5.1, h5.2, true_and]
      · have a : ¬ (id0 + 1 ≤ i ∧ i < id0 + 1 + (n : Int) ∧ 0 ≤ j ∧ j < func_cc T i ∧
            func_addr T func (int32 (T.call_addrD i j)) = some i) :=
          fun h => h4 (h3.mp ⟨h.1, h.2.1⟩)
        have b : ¬ (id0 ≤ i ∧ i < id0 + ((n + 1 : Nat) : Int) ∧ 0 ≤ j ∧ j < func_cc T i ∧
            func_addr T func (int32 (T.call_addrD i j)) = some i) :=
          fun h => h4 ⟨h.1, h.2.1⟩
        rw [if_neg a, if_neg b]

/-- The normalizer computes what the specification says. -/
theorem rm_selfcall_eq (T : Tables) (func : Int) (h0 : 0 ≤ func) (hcap : func ≤ MAX_FUNC) :
    rm_selfcall T func = some (rm_selfcall_spec T func) := by
  unfold rm_selfcall rm_selfcall_spec
  rw [rm_selfcall_outer_eq func h0 hcap]
  simp only [Option.some.injEq]
  congr 1
  funext i j
  have h3 : (0 ≤ i ∧ i < 0 + ((func.toNat : Nat) : Int)) ↔ (0 ≤ i ∧ i < func) := by omega
  by_cases h4 : 0 ≤ i ∧ i < func
  · have h5 := h3.mpr h4
    simp only [h4.1, h4.2, h5.1, h5.2, true_and]
  · have a : ¬ (0 ≤ i ∧ i < 0 + ((func.toNat : Nat) : Int) ∧ 0 ≤ j ∧ j < func_cc T i ∧
        func_addr T func (int32 (T.call_addrD i j)) = some i) :=
      fun h => h4 (h3.mp ⟨h.1, h.2.1⟩)
    have b : ¬ (0 ≤ i ∧ i < func ∧ 0 ≤ j ∧ j < func_cc T i ∧
        func_addr T func (int32 (T.call_addrD i j)) = some i) :=
      fun h => h4 ⟨h.1, h.2.1⟩
    rw [if_neg a, if_neg b]

theorem rm_selfcall_spec_call_other (T : Tables) (func id jt c : Int)
    (h : func_addr T func (int32 (T.call_addrD id jt)) = some c) (hne : c ≠ id) :
    (rm_selfcall_spec T func).call_addrD id jt = T.call_addrD id jt := by
  show (if _ then _ else _) = _
  rw [if_neg]
  intro hc
  rw [h] at hc
  exact hne (Option.some.inj hc.2.2.2.2)

theorem rm_selfcall_spec_idem (T : Tables) (func : Int) :
    rm_selfcall_spec (rm_selfcall_spec T func) func = rm_selfcall_spec T func := by
  have hfa : ∀ a, func_addr (rm_selfcall_spec T func) func a = func_addr T func a :=
    fun a => func_addr_congr (rm_selfcall_spec T func) T rfl func a
  have hcc : ∀ k, func_cc (rm_selfcall_spec T func) k = func_cc T k := fun _ => rfl
  have hcall : (rm_selfcall_spec (rm_selfcall_spec T func) func).call_addrD
      = (rm_selfcall_spec T func).call_addrD := by
    funext i j
    show (if 0 ≤ i ∧ i < func ∧ 0 ≤ j ∧ j < func_cc (rm_selfcall_spec T func) i ∧
        func_addr (rm_selfcall_spec T func) func
          (int32 ((rm_selfcall_spec T func).call_addrD i j)) = some i then
        int64 ((rm_selfcall_spec T func).func_addrD 0)
      else (rm_selfcall_spec T func).call_addrD i j) = _
    rw [hcc, hfa]
    by_cases hc : 0 ≤ i ∧ i < func ∧ 0 ≤ j ∧ j < func_cc T i ∧
        func_addr T func (int32 (T.call_addrD i j)) = some i
    · have e : (rm_selfcall_spec T func).call_addrD i j = int64 (T.func_addrD 0) := by
        show (if _ then _ else _) = _
        rw [if_pos hc]
      rw [e]
      split <;> rfl
    · have e : (rm_selfcall_spec T func).call_addrD i j = T.call_addrD i j := by
        show (if _ then _ else _) = _
        rw [if_neg hc]
      rw [e, if_neg hc]
  show ({ rm_selfcall_spec T func with
    call_addrD := (rm_selfcall_spec (rm_selfcall_spec T func) func).call_addrD } : Tables) = _
  rw [hcall]

/-- C5. For every table (with a function count `0 ≤ func < MAX_FUNC`, so that the
closing entry `func_ccD[func]` lies inside the table), the normalizer pass returns,
and afterwards each recorded call edge `(id, jt)` with `id < func` and
`jt < func_cc(id)` holds the address of function 0 if its value before the pass
resolved through `func_addr` to its own source function `id`, and its original value
otherwise; the addresses, names, source lines, call-range starts `func_ccD` and call
counts are unchanged. -/
theorem rm_selfcall_correct (T : Tables) (func : Int) (h0 : 0 ≤ func)
    (hlim : func < MAX_FUNC) :
    ∃ T1, rm_selfcall T func = some T1 ∧
      (∀ id jt, 0 ≤ id → id < func → 0 ≤ jt → jt < func_cc T id →
        T1.call_addrD id jt =
          if func_addr T func (int32 (T.call_addrD id jt)) = some id then
            int64 (T.func_addrD 0)
          else T.call_addrD id jt) ∧
      T1.func_addrD = T.func_addrD ∧ T1.funcD = T.funcD ∧ T1.func_lineD = T.func_lineD ∧
      T1.func_ccD = T.func_ccD ∧ ∀ id, func_cc T1 id = func_cc T id := by
  refine ⟨rm_selfcall_spec T func, rm_selfcall_eq T func h0 (le_of_lt hlim), ?_, rfl, rfl,
    rfl, rfl, fun _ => rfl⟩
  intro id jt h1 h2 h3 h4
  simp only [rm_selfcall_spec, h1, h2, h3, h4, true_and]

theorem rm_selfcall_correct_witness :
    (0 : Int) ≤ 2 ∧ (2 : Int) < MAX_FUNC ∧
    (entry_loop_tables.call_addrD 1 0, entry_loop_tables.call_addrD 1 1) = (0x20, 0x20) ∧
    (rm_selfcall entry_loop_tables 2).map
        (fun T1 => (T1.call_addrD 0 0, T1.call_addrD 0 1, T1.call_addrD 1 0, T1.call_addrD 1 1))
      = some (0x20, 0x10, 0x10, 0x10) ∧
    ∃ T1, rm_selfcall entry_loop_tables 2 = some T1 ∧
      (∀ id jt, 0 ≤ id → id < 2 → 0 ≤ jt → jt < func_cc entry_loop_tables id →
        T1.call_addrD id jt =
          if func_addr entry_loop_tables 2 (int32 (entry_loop_tables.call_addrD id jt)) =
            some id
          then int64 (entry_loop_tables.func_addrD 0)
          else entry_loop_tables.call_addrD id jt) ∧
      T1.func_addrD = entry_loop_tables.func_addrD ∧ T1.funcD = entry_loop_tables.funcD ∧
      T1.func_lineD = entry_loop_tables.func_lineD ∧
      T1.func_ccD = entry_loop_tables.func_ccD ∧
      ∀ id, func_cc T1 id = func_cc entry_loop_tables id :=
  ⟨by decide, by decide, by decide, by decide,
    rm_selfcall_correct entry_loop_tables 2 (by decide) (by decide)⟩

/-- C6. The normalizer is idempotent: for every table (with a function count
`0 ≤ func < MAX_FUNC`, so that the closing entry `func_ccD[func]` lies inside the
table) the pass returns, and running it again on its result returns
the very same tables, so the same call-edge values as running it once. -/
theorem rm_selfcall_idempotent (T : Tables) (func : Int) (h0 : 0 ≤ func)
    (hlim : func < MAX_FUNC) :
    ∃ T1, rm_selfcall T func = some T1 ∧ rm_selfcall T1 func = some T1 ∧
      ∀ T2, rm_selfcall T1 func = some T2 → T2.call_addrD = T1.call_addrD := by
  have hcap : func ≤ MAX_FUNC := le_of_lt hlim
  refine ⟨rm_selfcall_spec T func, rm_selfcall_eq T func h0 hcap, ?_, ?_⟩
  · rw [rm_selfcall_eq _ func h0 hcap, rm_selfcall_spec_idem]
  · intro T2 h
    rw [rm_selfcall_eq _ func h0 hcap, rm_selfcall_spec_idem] at h
    rw [← Option.some.inj h]

theorem rm_selfcall_idempotent_witness :
    (0 : Int) ≤ 2 ∧ (2 : Int) < MAX_FUNC ∧
    entry_loop_tables.call_addrD 1 0 = 0x20 ∧
    (rm_selfcall entry_loop_tables 2).map (fun T1 => T1.call_addrD 1 0) = some 0x10 ∧
    ∃ T1, rm_selfcall entry_loop_tables 2 = some T1 ∧ rm_selfcall T1 2 = some T1 ∧
      ∀ T2, rm_selfcall T1 2 = some T2 → T2.call_addrD = T1.call_addrD :=
  ⟨by decide, by decide, by decide, by decide,
    rm_selfcall_idempotent entry_loop_tables 2 (by decide) (by decide)⟩

/-! ## Proof rules for the depth analyzer -/

theorem setAt_same (a : Int → Int) (i v : Int) : setAt a i v i = v := by
  simp [setAt]

theorem setAt_other (a : Int → Int) {i j : Int} (v : Int) (h : j ≠ i) :
    setAt a i v j = a j := by
  simp [setAt, h]

theorem setAt_apply (a : Int → Int) (i v j : Int) :
    setAt a i v j = if j = i then v else a j := rfl

/-- One iteration of the call loop, case by case. -/
theorem anydepth_loop_succ {T : Tables} {func id : Int}
    {descend : Int → Marks → Option (Int × Marks)} {n : Nat} {it depth : Int} {S : Marks}
    {res : Int × Marks}
    (h : anydepth_loop T func id descend (n + 1) it depth S = some res) :
    ∃ c, func_addr T func (int32 (T.call_addrD id it)) = some c ∧
      ((c < 0 ∧
          anydepth_loop T func id descend n (it + 1) (if 1 > depth then 1 else depth) S
            = some res) ∨
        (0 ≤ c ∧ ∃ r S1, descend c S = some (r, S1) ∧
          ((int32 (1 + r) = 0 ∧ res = (0, S1)) ∨
            (int32 (1 + r) ≠ 0 ∧
              anydepth_loop T func id descend n (it + 1)
                (if int32 (1 + r) > depth then int32 (1 + r) else depth) S1 = some res)))) := by
  unfold anydepth_loop at h
  cases hfa : func_addr T func (int32 (T.call_addrD id it)) with
  | none => simp [hfa] at h
  | some c =>
    refine ⟨c, rfl, ?_⟩
    simp only [hfa] at h
    by_cases hc : c ≥ 0
    · right
      refine ⟨hc, ?_⟩
      simp only [hc, if_true] at h
      cases hd : descend c S with
      | none => simp [hd] at h
      | some p =>
        obtain ⟨r, S1⟩ := p
        refine ⟨r, S1, rfl, ?_⟩
        simp only [hd, Option.map_some'] at h
        by_cases hz : int32 (1 + r) = 0
        · left
          simp only [hz, if_true] at h
          exact ⟨hz, (Option.some.inj h).symm⟩
        · right
          simp only [hz, if_false] at h
          exact ⟨hz, h⟩
    · left
      refine ⟨by omega, ?_⟩
      simp only [hc, if_false] at h
      simpa using h

/-- Loop rule: `I` holds at the loop head, `Q` of the loop result (on normal exit and
on the early `break`). -/
theorem anydepth_loop_rule {T : Tables} {func id : Int}
    {descend : Int → Marks → Option (Int × Marks)}
    (I : Int → Int → Marks → Prop) (Q : Int × Marks → Prop) (n : Nat) (it0 : Int)
    (hun : ∀ it depth S c, it0 ≤ it → it < it0 + n → I it depth S →
      func_addr T func (int32 (T.call_addrD id it)) = some c → c < 0 →
      I (it + 1) (if 1 > depth then 1 else depth) S)
    (hres : ∀ it depth S c r S1, it0 ≤ it → it < it0 + n → I it depth S →
      func_addr T func (int32 (T.call_addrD id it)) = some c → 0 ≤ c →
      descend c S = some (r, S1) →
      (int32 (1 + r) = 0 → Q (0, S1)) ∧
      (int32 (1 + r) ≠ 0 →
        I (it + 1) (if int32 (1 + r) > depth then int32 (1 + r) else depth) S1))
    (hexit : ∀ depth S, I (it0 + n) depth S → Q (depth, S)) :
    ∀ depth S res, I it0 depth S →
      anydepth_loop T func id descend n it0 depth S = some res → Q res := by
  have key : ∀ (m : Nat) (it depth : Int) (S : Marks) (res : Int × Marks),
      it0 ≤ it → it + m = it0 + n → I it depth S →
      anydepth_loop T func id descend m it depth S = some res → Q res := by
    intro m
    induction m with
    | zero =>
      intro it depth S res _ hm hI h
      have hit : it = it0 + n := by simpa using hm
      subst hit
      simp only [anydepth_loop, Option.some.injEq] at h
      subst h
      exact hexit depth S hI
    | succ m ih =>
      intro it depth S res h0 hm hI h
      have hlt : it < it0 + n := by push_cast at hm; omega
      obtain ⟨c, hc, hcase⟩ := anydepth_loop_succ h
      rcases hcase with ⟨hneg, hrest⟩ | ⟨hpos, r, S1, hd, hcase2⟩
      · exact ih (it + 1) _ S res (by omega) (by push_cast at hm; omega)
          (hun it depth S c h0 hlt hI hc hneg) hrest
      · have := hres it depth S c r S1 h0 hlt hI hc hpos hd
        rcases hcase2 with ⟨hz, hres2⟩ | ⟨hz, hrest⟩
        · subst hres2
          exact this.1 hz
        · exact ih (it + 1) _ S1 res (by omega) (by push_cast at hm; omega)
            (this.2 hz) hrest
  intro depth S res hI h
  exact key n it0 depth S res (le_refl _) rfl hI h

/-- A call of `anydepth_check_func`, case by case. -/
theorem anydepth_cases {T : Tables} {func : Int} {fuel : Nat} {id : Int} {S : Marks}
    {res : Int × Marks}
    (h : anydepth_check_func T func fuel id S = some res) :
    (S.func_depthD id ≠ 0 ∧ res = (S.func_depthD id, S)) ∨
    (S.func_depthD id = 0 ∧ S.func_stackD id ≠ 0 ∧
      res = (-1, { S with func_recurseD := setAt S.func_recurseD id 1 })) ∨
    (S.func_depthD id = 0 ∧ S.func_stackD id = 0 ∧
      ∃ fuel1, fuel = fuel1 + 1 ∧ ∃ depth S2,
        anydepth_loop T func id (anydepth_check_func T func fuel1) (func_cc T id).toNat 0 1
          { S with func_stackD := setAt S.func_stackD id (S.func_stackD id + 1) }
          = some (depth, S2) ∧
        ((depth = 0 ∧
            res = (0, { S2 with
              func_stackD := setAt S2.func_stackD id (S2.func_stackD id - 1) })) ∨
          (depth ≠ 0 ∧
            res = (depth, { S2 with
              func_stackD := setAt S2.func_stackD id (S2.func_stackD id - 1),
              func_depthD := setAt S2.func_depthD id depth })))) := by
  unfold anydepth_check_func at h
  by_cases hd : S.func_depthD id ≠ 0
  · left
    rw [if_pos hd] at h
    exact ⟨hd, (Option.some.inj h).symm⟩
  · right
    have hd0 : S.func_depthD id = 0 := by simpa using hd
    rw [if_neg hd] at h
    by_cases hs : S.func_stackD id ≠ 0
    · left
      rw [if_pos hs] at h
      exact ⟨hd0, hs, (Option.some.inj h).symm⟩
    · right
      have hs0 : S.func_stackD id = 0 := by simpa using hs
      rw [if_neg hs] at h
      refine ⟨hd0, hs0, ?_⟩
      cases fuel with
      | zero => simp at h
      | succ fuel1 =>
        refine ⟨fuel1, rfl, ?_⟩
        simp only at h
        cases hl : anydepth_loop T func id (anydepth_check_func T func fuel1)
            (func_cc T id).toNat 0 1
            { S with func_stackD := setAt S.func_stackD id (S.func_stackD id + 1) } with
        | none => simp [hl] at h
        | some p =>
          obtain ⟨depth, S2⟩ := p
          refine ⟨depth, S2, rfl, ?_⟩
          simp only [hl] at h
          by_cases hz : depth = 0
          · left
            rw [if_pos hz] at h
            exact ⟨hz, (Option.some.inj h).symm⟩
          · right
            rw [if_neg hz] at h
            exact ⟨hz, (Option.some.inj h).symm⟩

/-- Rule for the `DEPTH_SORT` loop: an invariant that every top-level call keeps
holds at the end, and the loop returns. -/
theorem depth_pass_loop_rule (T : Tables) (func : Int) (P : Int → Marks → Prop)
    (n : Nat) (it0 : Int)
    (hstep : ∀ it S, it0 ≤ it → it < it0 + n → P it S →
      ∃ r S1, anydepth_check_func T func (depth_fuel func) it S = some (r, S1) ∧
        P (it + 1) S1) :
    ∀ hi S, P it0 S →
      ∃ hi1 S1, depth_pass_loop T func n it0 hi S = some (hi1, S1) ∧ P (it0 + n) S1 := by
  have key : ∀ (m : Nat) (it hi : Int) (S : Marks), it0 ≤ it → it + m = it0 + n → P it S →
      ∃ hi1 S1, depth_pass_loop T func m it hi S = some (hi1, S1) ∧ P (it0 + n) S1 := by
    intro m
    induction m with
    | zero =>
      intro it hi S _ hm hP
      have hit : it = it0 + n := by simpa using hm
      subst hit
      exact ⟨hi, S, rfl, hP⟩
    | succ m ih =>
      intro it hi S hle hm hP
      obtain ⟨r, S1, hcall, hP1⟩ := hstep it S hle (by push_cast at hm; omega) hP
      obtain ⟨hi1, S2, hrest, hP2⟩ := ih (it + 1) (if r > hi then r else hi) S1 (by omega)
        (by push_cast at hm; omega) hP1
      refine ⟨hi1, S2, ?_, hP2⟩
      unfold depth_pass_loop
      simp only [hcall]
      exact hrest
  intro hi S hP
  exact key n it0 hi S (le_refl _) rfl hP

/-! ## Frame of a call: stack balance, depth memo, sticky flags -/

theorem Frame.refl (S : Marks) : Frame S S :=
  ⟨rfl, fun _ => Or.inl rfl, fun _ => Or.inl rfl⟩

theorem Frame.trans {S S1 S2 : Marks} (h1 : Frame S S1) (h2 : Frame S1 S2) : Frame S S2 := by
  refine ⟨h2.stack.trans h1.stack, fun g => ?_, fun g => ?_⟩
  · have hs : S1.func_stackD g = S.func_stackD g := by rw [h1.stack]
    rcases h1.depth g with a | ⟨a1, a2, a3⟩ <;> rcases h2.depth g with b | ⟨b1, b2, b3⟩
    · left; omega
    · right; exact ⟨by omega, by omega, b3⟩
    · right; exact ⟨a1, a2, by omega⟩
    · right; exact ⟨a1, a2, b3⟩
  · rcases h1.recurse g with a | a <;> rcases h2.recurse g with b | b
    · left; omega
    · right; exact b
    · right; omega
    · right; exact b

theorem anydepth_frame (T : Tables) (func : Int) :
    ∀ (fuel : Nat) (id : Int) (S : Marks) (r : Int) (S' : Marks),
      anydepth_check_func T func fuel id S = some (r, S') → Frame S S' ∧ Ret id S r S' := by
  intro fuel
  induction fuel using Nat.strong_induction_on with
  | _ fuel ihs =>
    intro id S r S' h
    rcases anydepth_cases h with
      ⟨hd, hres⟩ | ⟨hd, hs, hres⟩ | ⟨hd, hs, fuel1, rfl, depth, S2, hloop, hfin⟩
    · obtain ⟨h1, h2⟩ := Prod.mk.inj hres
      rw [h1, h2]
      exact ⟨Frame.refl S, Or.inl ⟨hd, rfl, rfl⟩⟩
    · obtain ⟨h1, h2⟩ := Prod.mk.inj hres
      rw [h1, h2]
      refine ⟨⟨rfl, fun _ => Or.inl rfl, fun g => ?_⟩, Or.inr (Or.inl ⟨hd, hs, rfl, rfl⟩)⟩
      by_cases hg : g = id
      · right; subst hg; exact setAt_same _ _ _
      · left; exact setAt_other _ _ hg
    · have ih := ihs fuel1 (Nat.lt_succ_self fuel1)
      -- the descent
      have hQ := anydepth_loop_rule
        (fun _ d Sc =>
          Frame { S with func_stackD := setAt S.func_stackD id (S.func_stackD id + 1) } Sc ∧
            1 ≤ d)
        (fun p =>
          Frame { S with func_stackD := setAt S.func_stackD id (S.func_stackD id + 1) } p.2 ∧
            (p.1 = 0 ∨ 1 ≤ p.1))
        (func_cc T id).toNat 0
        (fun it d Sc c _ _ hI _ _ => ⟨hI.1, by split <;> omega⟩)
        (fun it d Sc c r1 Sc1 _ _ hI _ _ hdesc =>
          have hf := (ih c Sc r1 Sc1 hdesc).1
          ⟨fun _ => ⟨hI.1.trans hf, Or.inl rfl⟩,
            fun _ => ⟨hI.1.trans hf, by have := hI.2; split <;> omega⟩⟩)
        (fun d Sc hI => ⟨hI.1, Or.inr hI.2⟩)
        1 _ (depth, S2) ⟨Frame.refl _, le_refl 1⟩ hloop
      obtain ⟨hF, hdep⟩ := hQ
      have hstack : setAt S2.func_stackD id (S2.func_stackD id - 1) = S.func_stackD := by
        have h2 := hF.stack
        simp only at h2
        funext g
        by_cases hg : g = id
        · subst hg
          rw [setAt_same, h2, setAt_same]; omega
        · rw [setAt_other _ _ hg, h2, setAt_other _ _ hg]
      have hdepth : ∀ g, S2.func_depthD g = S.func_depthD g ∨
          (S.func_depthD g = 0 ∧ S.func_stackD g = 0 ∧ 1 ≤ S2.func_depthD g) := by
        intro g
        rcases hF.depth g with a | ⟨a1, a2, a3⟩
        · left; exact a
        · right
          simp only at a1 a2
          refine ⟨a1, ?_, a3⟩
          by_cases hg : g = id
          · subst hg; rw [setAt_same] at a2; omega
          · rwa [setAt_other _ _ hg] at a2
      have hdid : S2.func_depthD id = 0 := by
        rcases hF.depth id with a | ⟨_, a2, _⟩
        · simpa [hd] using a
        · simp only [setAt_same] at a2; omega
      rcases hfin with ⟨hz, hres⟩ | ⟨hz, hres⟩
      · obtain ⟨h1, h2⟩ := Prod.mk.inj hres
        rw [h1, h2]
        exact ⟨⟨hstack, hdepth, hF.recurse⟩, Or.inr (Or.inr ⟨hd, hs, Or.inl ⟨rfl, hdid⟩⟩)⟩
      · obtain ⟨h1, h2⟩ := Prod.mk.inj hres
        rw [h1, h2]
        have h1 : 1 ≤ depth := by
          rcases hdep with a | a
          · exact absurd a hz
          · exact a
        refine ⟨⟨hstack, fun g => ?_, hF.recurse⟩,
          Or.inr (Or.inr ⟨hd, hs, Or.inr ⟨h1, setAt_same _ _ _⟩⟩)⟩
        by_cases hg : g = id
        · subst hg
          right
          exact ⟨hd, hs, by simp only [setAt_same]; exact h1⟩
        · simp only [setAt_other _ _ hg]
          exact hdepth g

/-! ## Termination of the depth analyzer -/

theorem whiteCount_le_of_frame (func : Int) {S S' : Marks} (h : Frame S S') :
    whiteCount func S' ≤ whiteCount func S := by
  unfold whiteCount
  apply Finset.card_le_card
  intro k hk
  simp only [Finset.mem_filter] at hk ⊢
  refine ⟨hk.1, ?_, ?_⟩
  · rcases h.depth k with a | ⟨a, _, _⟩
    · rw [← a]; exact hk.2.1
    · exact a
  · rw [← h.stack]; exact hk.2.2

theorem whiteCount_push (func : Int) {S : Marks} {id : Int} (h0 : 0 ≤ id) (h1 : id < func)
    (hd : S.func_depthD id = 0) (hs : S.func_stackD id = 0) :
    whiteCount func { S with func_stackD := setAt S.func_stackD id (S.func_stackD id + 1) }
      < whiteCount func S := by
  unfold whiteCount
  apply Finset.card_lt_card
  rw [Finset.ssubset_iff_of_subset]
  · refine ⟨id.toNat, ?_, ?_⟩
    · simp only [Finset.mem_filter, Finset.mem_range]
      have : ((id.toNat : Nat) : Int) = id := Int.toNat_of_nonneg h0
      rw [this]
      exact ⟨by omega, hd, hs⟩
    · simp only [Finset.mem_filter, Finset.mem_range, not_and]
      have : ((id.toNat : Nat) : Int) = id := Int.toNat_of_nonneg h0
      rw [this]
      intro _ _
      rw [setAt_same]; omega
  · intro k hk
    simp only [Finset.mem_filter] at hk ⊢
    refine ⟨hk.1, hk.2.1, ?_⟩
    have h2 := hk.2.2
    by_cases hg : (k : Int) = id
    · rw [hg, setAt_same] at h2; omega
    · rwa [setAt_other _ _ hg] at h2

theorem whiteCount_le (func : Int) (S : Marks) : whiteCount func S ≤ func.toNat := by
  unfold whiteCount
  calc _ ≤ (Finset.range func.toNat).card := Finset.card_filter_le _ _
    _ = func.toNat := Finset.card_range _

/-- The call loop returns when every recursive call it makes returns. -/
theorem anydepth_loop_total (T : Tables) {func : Int} (id : Int)
    {descend : Int → Marks → Option (Int × Marks)} (h0 : 0 ≤ func) (hcap : func ≤ MAX_FUNC)
    (I : Marks → Prop)
    (hdesc : ∀ c Sc, 0 ≤ c → c < func → I Sc → ∃ r Sc1, descend c Sc = some (r, Sc1) ∧ I Sc1) :
    ∀ (n : Nat) (it depth : Int) (Sc : Marks), I Sc →
      ∃ res, anydepth_loop T func id descend n it depth Sc = some res := by
  intro n
  induction n with
  | zero => intro it depth Sc _; exact ⟨_, rfl⟩
  | succ n ih =>
    intro it depth Sc hI
    obtain ⟨c, hc, hlt, _⟩ := func_addr_total T func (int32 (T.call_addrD id it)) h0 hcap
    unfold anydepth_loop
    simp only [hc]
    by_cases hpos : c ≥ 0
    · obtain ⟨r, Sc1, hd, hI1⟩ := hdesc c Sc hpos hlt hI
      simp only [hpos, if_true, hd, Option.map_some']
      by_cases hz : int32 (1 + r) = 0
      · exact ⟨_, by rw [if_pos hz]⟩
      · obtain ⟨res, hres⟩ := ih (it + 1)
          (if int32 (1 + r) > depth then int32 (1 + r) else depth) Sc1 hI1
        exact ⟨res, by rw [if_neg hz]; exact hres⟩
    · simp only [hpos, if_false]
      obtain ⟨res, hres⟩ := ih (it + 1) (if 1 > depth then 1 else depth) Sc hI
      exact ⟨res, by simpa using hres⟩

theorem anydepth_total (T : Tables) (func : Int) (h0 : 0 ≤ func) (hcap : func ≤ MAX_FUNC) :
    ∀ (fuel : Nat) (id : Int) (S : Marks), 0 ≤ id → id < func → whiteCount func S ≤ fuel →
      ∃ r S', anydepth_check_func T func fuel id S = some (r, S') := by
  intro fuel
  induction fuel using Nat.strong_induction_on with
  | _ fuel ihs =>
    intro id S hid0 hid1 hw
    unfold anydepth_check_func
    by_cases hd : S.func_depthD id ≠ 0
    · exact ⟨_, _, by rw [if_pos hd]⟩
    · rw [if_neg hd]
      by_cases hs : S.func_stackD id ≠ 0
      · exact ⟨_, _, by rw [if_pos hs]⟩
      · rw [if_neg hs]
        have hd0 : S.func_depthD id = 0 := by simpa using hd
        have hs0 : S.func_stackD id = 0 := by simpa using hs
        have hpush := whiteCount_push func hid0 hid1 hd0 hs0
        cases fuel with
        | zero => omega
        | succ fuel1 =>
          obtain ⟨res, hres⟩ := anydepth_loop_total T id h0 hcap
            (fun Sc => whiteCount func Sc ≤ fuel1)
            (fun c Sc hc0 hc1 hI => by
              obtain ⟨r, Sc1, h⟩ := ihs fuel1 (Nat.lt_succ_self fuel1) c Sc hc0 hc1 hI
              have := whiteCount_le_of_frame func (anydepth_frame T func _ _ _ _ _ h).1
              exact ⟨r, Sc1, h, by omega⟩)
            (func_cc T id).toNat 0 1
            { S with func_stackD := setAt S.func_stackD id (S.func_stackD id + 1) } (by omega)
          simp only [hres]
          by_cases hz : res.1 = 0
          · exact ⟨_, _, by rw [if_pos hz]⟩
          · exact ⟨_, _, by rw [if_neg hz]⟩

/-- A top-level call returns with the fuel `depth_fuel func`. -/
theorem anydepth_returns (T : Tables) (func : Int) (h0 : 0 ≤ func) (hcap : func ≤ MAX_FUNC)
    (id : Int) (S : Marks) (hid0 : 0 ≤ id) (hid1 : id < func) :
    ∃ r S', anydepth_check_func T func (depth_fuel func) id S = some (r, S') :=
  anydepth_total T func h0 hcap _ id S hid0 hid1
    (by have := whiteCount_le func S; unfold depth_fuel; omega)

/-- C2. For every state of the tables in which each function's call count lies in
`[0, MAX_CALL]` and every `id` with `0 ≤ id < func`, where `func < MAX_FUNC` (so that
the closing entry `func_ccD[func]` lies inside the table), the recursive call
`anydepth_check_func(id, func)` returns: `func` nested descents are enough (the fuel
bounds their number), since a function is descended into only while its depth is 0
and it is not on the stack, and it stays on the stack during the descent. -/
theorem anydepth_terminates (T : Tables) (func : Int) (S : Marks) (id : Int) (fuel : Nat)
    (h0 : 0 ≤ func) (hlim : func < MAX_FUNC)
    (_hcc : ∀ g, 0 ≤ g → g < func → 0 ≤ func_cc T g ∧ func_cc T g ≤ MAX_CALL)
    (hid0 : 0 ≤ id) (hid1 : id < func) (hfuel : func.toNat ≤ fuel) :
    ∃ r S', anydepth_check_func T func fuel id S = some (r, S') :=
  anydepth_total T func h0 (le_of_lt hlim) fuel id S hid0 hid1
    (by have := whiteCount_le func S; omega)

theorem example_call_counts :
    ∀ g : Int, 0 ≤ g → g < 3 →
      0 ≤ func_cc example_tables g ∧ func_cc example_tables g ≤ MAX_CALL := by
  intro g h0 h1
  have : g = 0 ∨ g = 1 ∨ g = 2 := by omega
  rcases this with rfl | rfl | rfl <;> decide

theorem cycle_call_counts :
    ∀ g : Int, 0 ≤ g → g < 2 →
      0 ≤ func_cc cycle_tables g ∧ func_cc cycle_tables g ≤ MAX_CALL := by
  intro g h0 h1
  have : g = 0 ∨ g = 1 := by omega
  rcases this with rfl | rfl <;> decide

theorem anydepth_terminates_witness :
    (2 : Int) < MAX_FUNC ∧
    ∃ r S', anydepth_check_func cycle_tables 2 2 0 Marks.zero = some (r, S') :=
  ⟨by decide,
    anydepth_terminates cycle_tables 2 Marks.zero 0 2 (by decide) (by decide)
      cycle_call_counts (by decide) (by decide) (by decide)⟩

/-! ## Functions without a resolved call -/

theorem anydepth_loop_unresolved (T : Tables) (func id : Int)
    (descend : Int → Marks → Option (Int × Marks)) (S : Marks) :
    ∀ (n : Nat) (it depth : Int), 1 ≤ depth →
      (∀ jt, it ≤ jt → jt < it + n →
        ∃ c, func_addr T func (int32 (T.call_addrD id jt)) = some c ∧ c < 0) →
      anydepth_loop T func id descend n it depth S = some (depth, S) := by
  intro n
  induction n with
  | zero => intro it depth _ _; rfl
  | succ n ih =>
    intro it depth hd hun
    obtain ⟨c, hc, hneg⟩ := hun it (le_refl _) (by push_cast; omega)
    unfold anydepth_loop
    have hnot : ¬ c ≥ 0 := by omega
    have h1 : ¬ (1 : Int) > depth := by omega
    simp only [hc, hnot, if_false, h1, one_ne_zero]
    exact ih (it + 1) depth hd (fun jt h2 h3 => hun jt (by omega) (by push_cast; omega))

/-- With resolution as the code performs it (`func_addr` on the edge cut to `int`): for
every state of the tables and every function `f` with depth 0 that is not on the stack
and none of whose call edges resolves to a function (no edges, or only unresolved
targets), `anydepth_check_func(f, func)` returns 1 and memoizes
`func_depthD[f] = 1`; nothing else changes. -/
theorem anydepth_leaf (T : Tables) (func f : Int) (S : Marks) (fuel : Nat)
    (hd : S.func_depthD f = 0) (hs : S.func_stackD f = 0)
    (hun : ∀ jt, 0 ≤ jt → jt < func_cc T f →
      ∃ c, func_addr T func (int32 (T.call_addrD f jt)) = some c ∧ c < 0) :
    ∃ S', anydepth_check_func T func (fuel + 1) f S = some (1, S') ∧
      S'.func_depthD f = 1 ∧ S'.func_depthD = setAt S.func_depthD f 1 ∧
      S'.func_stackD = S.func_stackD ∧ S'.func_recurseD = S.func_recurseD := by
  have hloop := anydepth_loop_unresolved T func f
    (anydepth_check_func T func fuel)
    { S with func_stackD := setAt S.func_stackD f (S.func_stackD f + 1) }
    (func_cc T f).toNat 0 1 (le_refl 1)
    (fun jt h1 h2 => hun jt h1 (by omega))
  unfold anydepth_check_func
  have hd1 : ¬ S.func_depthD f ≠ 0 := by simp [hd]
  have hs1 : ¬ S.func_stackD f ≠ 0 := by simp [hs]
  rw [if_neg hd1, if_neg hs1]
  simp only [hloop, one_ne_zero, if_false]
  refine ⟨_, rfl, setAt_same _ _ _, rfl, ?_, rfl⟩
  funext g
  by_cases hg : g = f
  · subst hg; simp [setAt, hs]
  · simp [setAt, hg]

theorem example_bar_unresolved :
    ∀ jt : Int, 0 ≤ jt → jt < func_cc example_tables 1 →
      ∃ c, func_addr example_tables 3 (int32 (example_tables.call_addrD 1 jt)) = some c ∧
        c < 0 := by
  intro jt h0 h1
  have : func_cc example_tables 1 = 0 := by decide
  omega

theorem anydepth_leaf_witness :
    ∃ S', anydepth_check_func example_tables 3 (0 + 1) 1 Marks.zero = some (1, S') ∧
      S'.func_depthD 1 = 1 ∧ S'.func_depthD = setAt Marks.zero.func_depthD 1 1 ∧
      S'.func_stackD = Marks.zero.func_stackD ∧
      S'.func_recurseD = Marks.zero.func_recurseD :=
  anydepth_leaf example_tables 3 1 Marks.zero 0 rfl rfl example_bar_unresolved

/-! ## Depths are bounded by the number of functions -/

theorem nzCount_le (func : Int) (d : Int → Int) : nzCount func d ≤ func.toNat := by
  unfold nzCount
  calc _ ≤ (Finset.range func.toNat).card := Finset.card_filter_le _ _
    _ = func.toNat := Finset.card_range _

theorem nzCount_mono (func : Int) {d d' : Int → Int} (h : ∀ g, d g ≠ 0 → d' g ≠ 0) :
    nzCount func d ≤ nzCount func d' := by
  unfold nzCount
  apply Finset.card_le_card
  intro k hk
  simp only [Finset.mem_filter] at hk ⊢
  exact ⟨hk.1, h _ hk.2⟩

theorem nzCount_of_frame (func : Int) {S S' : Marks} (h : Frame S S') :
    nzCount func S.func_depthD ≤ nzCount func S'.func_depthD := by
  apply nzCount_mono
  intro g hg
  rcases h.depth g with a | ⟨a, _, _⟩
  · rw [a]; exact hg
  · exact absurd a hg

theorem nzCount_setAt (func : Int) (d : Int → Int) (id v : Int) (h0 : 0 ≤ id)
    (h1 : id < func) (hd : d id = 0) (hv : v ≠ 0) :
    nzCount func (setAt d id v) = nzCount func d + 1 := by
  unfold nzCount
  have hcast : ((id.toNat : Nat) : Int) = id := Int.toNat_of_nonneg h0
  have hins : (Finset.range func.toNat).filter (fun k : Nat => setAt d id v k ≠ 0)
      = insert id.toNat ((Finset.range func.toNat).filter (fun k : Nat => d k ≠ 0)) := by
    ext k
    simp only [Finset.mem_filter, Finset.mem_range, Finset.mem_insert]
    by_cases hk : (k : Int) = id
    · have hk2 : k = id.toNat := by omega
      rw [hk, setAt_same]
      constructor
      · intro _; exact Or.inl hk2
      · intro _; exact ⟨by omega, hv⟩
    · have hk2 : k ≠ id.toNat := by omega
      rw [setAt_other _ _ hk]
      constructor
      · intro h; exact Or.inr h
      · rintro (h | h)
        · exact absurd h hk2
        · exact h
  rw [hins, Finset.card_insert_of_not_mem]
  simp only [Finset.mem_filter, not_and, not_not]
  intro _
  rw [hcast]; exact hd

theorem anydepth_bound (T : Tables) (func : Int) (h0 : 0 ≤ func) (hcap : func ≤ MAX_FUNC) :
    ∀ (fuel : Nat) (id : Int) (S : Marks) (r : Int) (S' : Marks),
      0 ≤ id → id < func → DepthBound func S.func_depthD →
      anydepth_check_func T func fuel id S = some (r, S') →
      DepthBound func S'.func_depthD ∧ -1 ≤ r ∧ r ≤ nzCount func S'.func_depthD := by
  have hcap2 : func ≤ 8192 := by simpa [MAX_FUNC] using hcap
  intro fuel
  induction fuel using Nat.strong_induction_on with
  | _ fuel ihs =>
    intro id S r S' hid0 hid1 hB h
    rcases anydepth_cases h with
      ⟨hd, hres⟩ | ⟨hd, hs, hres⟩ | ⟨hd, hs, fuel1, rfl, depth, S2, hloop, hfin⟩
    · obtain ⟨h1, h2⟩ := Prod.mk.inj hres
      rw [h1, h2]
      exact ⟨hB, by have := (hB id).1; omega, (hB id).2⟩
    · obtain ⟨h1, h2⟩ := Prod.mk.inj hres
      rw [h1, h2]
      exact ⟨hB, le_refl _, by omega⟩
    · have ih := ihs fuel1 (Nat.lt_succ_self fuel1)
      have hQ := anydepth_loop_rule
        (fun _ d Sc =>
          DepthBound func Sc.func_depthD ∧
          Frame { S with func_stackD := setAt S.func_stackD id (S.func_stackD id + 1) } Sc ∧
            1 ≤ d ∧ d ≤ nzCount func Sc.func_depthD + 1)
        (fun p =>
          DepthBound func p.2.func_depthD ∧
          Frame { S with func_stackD := setAt S.func_stackD id (S.func_stackD id + 1) } p.2 ∧
            (p.1 = 0 ∨ (1 ≤ p.1 ∧ p.1 ≤ nzCount func p.2.func_depthD + 1)))
        (func_cc T id).toNat 0
        (fun it d Sc c _ _ hI _ _ => ⟨hI.1, hI.2.1, by split <;> omega, by split <;> omega⟩)
        (fun it d Sc c r1 Sc1 _ _ hI hfa hc hdesc => by
          have hc1 := func_addr_range h0 hcap hfa
          obtain ⟨hB1, hr1, hr2⟩ := ih c Sc r1 Sc1 hc hc1 hI.1 hdesc
          have hf := (anydepth_frame T func _ _ _ _ _ hdesc).1
          have hmono := nzCount_of_frame func hf
          have hnz := nzCount_le func Sc1.func_depthD
          have hw : int32 (1 + r1) = 1 + r1 := int32_of_range (by omega) (by omega)
          rw [hw]
          refine ⟨fun _ => ⟨hB1, hI.2.1.trans hf, Or.inl rfl⟩,
            fun _ => ⟨hB1, hI.2.1.trans hf, ?_, ?_⟩⟩
          · have := hI.2.2.1; split <;> omega
          · have := hI.2.2.2; split <;> omega)
        (fun d Sc hI => ⟨hI.1, hI.2.1, Or.inr hI.2.2⟩)
        1 { S with func_stackD := setAt S.func_stackD id (S.func_stackD id + 1) } (depth, S2)
        ⟨hB, Frame.refl _, le_refl 1, by omega⟩ hloop
      obtain ⟨hB2, hF, hdep⟩ := hQ
      dsimp only at hB2 hF hdep
      have hdid : S2.func_depthD id = 0 := by
        rcases hF.depth id with a | ⟨_, a2, _⟩
        · simpa [hd] using a
        · simp only [setAt_same] at a2; omega
      rcases hfin with ⟨hz, hres⟩ | ⟨hz, hres⟩
      · obtain ⟨h1, h2⟩ := Prod.mk.inj hres
        rw [h1, h2]
        exact ⟨hB2, by omega, by omega⟩
      · obtain ⟨h1, h2⟩ := Prod.mk.inj hres
        rw [h1, h2]
        have hd1 : 1 ≤ depth ∧ depth ≤ nzCount func S2.func_depthD + 1 := by
          rcases hdep with a | a
          · exact absurd a hz
          · exact a
        have hnz := nzCount_setAt func S2.func_depthD id depth hid0 hid1 hdid hz
        refine ⟨fun g => ?_, by omega, ?_⟩
        · show 0 ≤ setAt S2.func_depthD id depth g ∧
            setAt S2.func_depthD id depth g ≤ nzCount func (setAt S2.func_depthD id depth)
          rw [hnz]
          by_cases hg : g = id
          · subst hg; rw [setAt_same]; push_cast; omega
          · rw [setAt_other _ _ hg]
            have := hB2 g
            push_cast; omega
        · show depth ≤ nzCount func (setAt S2.func_depthD id depth)
          rw [hnz]; push_cast; omega

theorem DepthBound_zero (func : Int) : DepthBound func Marks.zero.func_depthD := by
  intro g
  exact ⟨le_refl _, by simp [Marks.zero]⟩

theorem DepthBound.le_cap {func : Int} {d : Int → Int} (hcap : func ≤ MAX_FUNC)
    (h : DepthBound func d) (g : Int) : d g ≤ 8192 := by
  have h1 := (h g).2
  have h2 := nzCount_le func d
  have hcap2 : func ≤ 8192 := by simpa [MAX_FUNC] using hcap
  omega

/-! ## Acyclic call graphs: the depth is the longest chain -/

theorem LongestChain.one_le {T : Tables} {func f d : Int} (h : LongestChain T func f d) :
    1 ≤ d := by
  have := h.2 [] List.Chain.nil
  simpa using this

theorem longestChain_of_callees (T : Tables) (func id d : Int) (h1 : 1 ≤ d)
    (hall : ∀ c, Calls T func id c → ∃ dc, LongestChain T func c dc ∧ 1 + dc ≤ d)
    (hex : d = 1 ∨ ∃ c dc, Calls T func id c ∧ LongestChain T func c dc ∧ d = 1 + dc) :
    LongestChain T func id d := by
  constructor
  · rcases hex with h | ⟨c, dc, hc, hlc, hd⟩
    · exact ⟨[], List.Chain.nil, by simp [h]⟩
    · obtain ⟨rest, hch, hlen⟩ := hlc.1
      refine ⟨c :: rest, List.Chain.cons hc hch, ?_⟩
      simp only [List.length_cons]; push_cast; omega
  · intro rest hch
    cases rest with
    | nil => simpa using h1
    | cons b rest1 =>
      rw [List.chain_cons] at hch
      obtain ⟨db, hlb, hdb⟩ := hall b hch.1
      have := hlb.2 rest1 hch.2
      simp only [List.length_cons]; push_cast; omega

theorem anydepth_acyclic (T : Tables) (func : Int) (h0 : 0 ≤ func) (hcap : func ≤ MAX_FUNC)
    (hac : Acyclic T func) :
    ∀ (fuel : Nat) (id : Int) (S : Marks) (r : Int) (S' : Marks),
      0 ≤ id → id < func →
      (∀ g, S.func_depthD g ≠ 0 → LongestChain T func g (S.func_depthD g)) →
      DepthBound func S.func_depthD →
      (∀ g, S.func_stackD g ≠ 0 → Relation.TransGen (Calls T func) g id) →
      anydepth_check_func T func fuel id S = some (r, S') →
      (∀ g, S'.func_depthD g ≠ 0 → LongestChain T func g (S'.func_depthD g)) ∧
        LongestChain T func id r ∧ S'.func_depthD id = r := by
  intro fuel
  induction fuel using Nat.strong_induction_on with
  | _ fuel ihs =>
    intro id S r S' hid0 hid1 hLC hB hst h
    rcases anydepth_cases h with
      ⟨hd, hres⟩ | ⟨hd, hs, hres⟩ | ⟨hd, hs, fuel1, rfl, depth, S2, hloop, hfin⟩
    · obtain ⟨h1, h2⟩ := Prod.mk.inj hres
      rw [h1, h2]
      exact ⟨hLC, hLC id hd, rfl⟩
    · exact absurd (hst id hs) (hac id)
    · have ih := ihs fuel1 (Nat.lt_succ_self fuel1)
      have hQ := anydepth_loop_rule
        (fun it d Sc =>
          (∀ g, Sc.func_depthD g ≠ 0 → LongestChain T func g (Sc.func_depthD g)) ∧
          DepthBound func Sc.func_depthD ∧
          Frame { S with func_stackD := setAt S.func_stackD id (S.func_stackD id + 1) } Sc ∧
          1 ≤ d ∧
          (∀ jt c, 0 ≤ jt → jt < it →
            func_addr T func (int32 (T.call_addrD id jt)) = some c → 0 ≤ c →
            ∃ dc, LongestChain T func c dc ∧ 1 + dc ≤ d) ∧
          (d = 1 ∨ ∃ c dc, Calls T func id c ∧ LongestChain T func c dc ∧ d = 1 + dc))
        (fun p =>
          (∀ g, p.2.func_depthD g ≠ 0 → LongestChain T func g (p.2.func_depthD g)) ∧
          Frame { S with func_stackD := setAt S.func_stackD id (S.func_stackD id + 1) } p.2 ∧
          LongestChain T func id p.1)
        (func_cc T id).toNat 0
        (fun it d Sc c _ _ hI hfa hc => by
          obtain ⟨i1, i2, i3, i4, i5, i6⟩ := hI
          have hd' : (if 1 > d then 1 else d) = d := by split <;> omega
          rw [hd']
          refine ⟨i1, i2, i3, i4, ?_, i6⟩
          intro jt c1 hj0 hj1 hfa1 hc1
          by_cases hj : jt = it
          · subst hj; rw [hfa] at hfa1; cases hfa1; omega
          · exact i5 jt c1 hj0 (by omega) hfa1 hc1)
        (fun it d Sc c r1 Sc1 hit0 hit1 hI hfa hc hdesc => by
          obtain ⟨i1, i2, i3, i4, i5, i6⟩ := hI
          have hc1 := func_addr_range h0 hcap hfa
          have hcall : Calls T func id c := ⟨hid0, hid1, hc, it, hit0, by omega, hfa⟩
          have hf := (anydepth_frame T func _ _ _ _ _ hdesc).1
          have hstk : ∀ g, Sc.func_stackD g ≠ 0 → Relation.TransGen (Calls T func) g c := by
            intro g hg
            rw [i3.stack] at hg
            by_cases hgid : g = id
            · subst hgid; exact Relation.TransGen.single hcall
            · simp only [setAt_other _ _ hgid] at hg
              exact Relation.TransGen.tail (hst g hg) hcall
          obtain ⟨j1, j2, _⟩ := ih c Sc r1 Sc1 hc hc1 i1 i2 hstk hdesc
          obtain ⟨hB1, _, hr2⟩ := anydepth_bound T func h0 hcap _ c Sc r1 Sc1 hc hc1 i2 hdesc
          have hr1 := j2.one_le
          have hcap3 := hB1.le_cap hcap
          have hnz := nzCount_le func Sc1.func_depthD
          have hcap2 : func ≤ 8192 := by simpa [MAX_FUNC] using hcap
          have hw : int32 (1 + r1) = 1 + r1 := int32_of_range (by omega) (by omega)
          rw [hw]
          refine ⟨fun hz => by omega, fun _ => ⟨j1, hB1, i3.trans hf, ?_, ?_, ?_⟩⟩
          · split <;> omega
          · intro jt c1 hj0 hj1 hfa1 hc0
            by_cases hj : jt = it
            · subst hj; rw [hfa] at hfa1; cases hfa1
              exact ⟨r1, j2, by split <;> omega⟩
            · obtain ⟨dc, hdc, hle⟩ := i5 jt c1 hj0 (by omega) hfa1 hc0
              exact ⟨dc, hdc, by split <;> omega⟩
          · by_cases hgt : 1 + r1 > d
            · rw [if_pos hgt]; exact Or.inr ⟨c, r1, hcall, j2, rfl⟩
            · rw [if_neg hgt]; exact i6)
        (fun d Sc hI => by
          obtain ⟨i1, _, i3, i4, i5, i6⟩ := hI
          refine ⟨i1, i3, longestChain_of_callees T func id d i4 ?_ i6⟩
          intro c hc
          obtain ⟨_, _, hc0, jt, hj0, hj1, hfa⟩ := hc
          exact i5 jt c hj0 (by omega) hfa hc0)
        1 { S with func_stackD := setAt S.func_stackD id (S.func_stackD id + 1) } (depth, S2)
        ⟨hLC, hB, Frame.refl _, le_refl 1, fun jt c h1 h2 => by omega, Or.inl rfl⟩ hloop
      obtain ⟨hLC2, hF, hlc⟩ := hQ
      dsimp only at hLC2 hF hlc
      have hne : depth ≠ 0 := by have := hlc.one_le; omega
      rcases hfin with ⟨hz, _⟩ | ⟨_, hres⟩
      · exact absurd hz hne
      · obtain ⟨h1, h2⟩ := Prod.mk.inj hres
        rw [h1, h2]
        refine ⟨fun g hg => ?_, hlc, setAt_same _ _ _⟩
        by_cases hgid : g = id
        · subst hgid
          simp only [setAt_same]; exact hlc
        · simp only [setAt_other _ _ hgid] at hg ⊢
          exact hLC2 g hg

/-- The full pass on an acyclic resolved-call graph: it returns, and every function
ends with the length of its longest chain as depth. -/
theorem depth_pass_acyclic (T : Tables) (func : Int) (h0 : 0 ≤ func) (hcap : func ≤ MAX_FUNC)
    (hac : Acyclic T func) :
    ∃ hi S, depth_pass T func Marks.zero = some (hi, S) ∧
      ∀ f, 0 ≤ f → f < func → LongestChain T func f (S.func_depthD f) := by
  obtain ⟨hi, S, hpass, hP⟩ := depth_pass_loop_rule T func
    (fun it S =>
      (∀ g, S.func_depthD g ≠ 0 → LongestChain T func g (S.func_depthD g)) ∧
      DepthBound func S.func_depthD ∧ (∀ g, S.func_stackD g = 0) ∧
      (∀ g, 0 ≤ g → g < it → LongestChain T func g (S.func_depthD g)))
    func.toNat 0
    (fun it S hit0 hit1 hP => by
      obtain ⟨p1, p2, p3, p4⟩ := hP
      have hit2 : it < func := by omega
      obtain ⟨r, S1, hcall⟩ := anydepth_returns T func h0 hcap it S hit0 hit2
      obtain ⟨q1, q2, q3⟩ := anydepth_acyclic T func h0 hcap hac _ it S r S1 hit0 hit2 p1 p2
        (fun g hg => absurd (p3 g) hg) hcall
      obtain ⟨hB1, _, _⟩ := anydepth_bound T func h0 hcap _ it S r S1 hit0 hit2 p2 hcall
      have hf := (anydepth_frame T func _ _ _ _ _ hcall).1
      refine ⟨r, S1, hcall, q1, hB1, fun g => by rw [hf.stack]; exact p3 g, ?_⟩
      intro g hg0 hg1
      by_cases hg : g = it
      · subst hg; rw [q3]; exact q2
      · have h4 := p4 g hg0 (by omega)
        have hne : S.func_depthD g ≠ 0 := by have := h4.one_le; omega
        rcases hf.depth g with a | ⟨a, _, _⟩
        · rw [a]; exact h4
        · exact absurd a hne)
    0 Marks.zero
    ⟨fun g hg => absurd rfl hg, DepthBound_zero func, fun _ => rfl, fun g h1 h2 => by omega⟩
  refine ⟨hi, S, hpass, fun f hf0 hf1 => hP.2.2.2 f hf0 (by omega)⟩

/-- With the resolved-call graph taken as the code resolves edges (`Calls`: `func_addr` on
the edge cut to `int`): for every function table whose addresses are strictly
increasing and below 2^31 and whose resolved-call graph is acyclic, starting from
all-zero depth, stack
and recursion tables and calling `anydepth_check_func` on every function index in
ascending order, the pass returns and the memoized `func_depthD[f]` of every function
`f` is the length of the longest chain of resolved calls starting at `f`, counting
`f` itself: it is 1 when no edge of `f` resolves to a function, and otherwise it is
1 + the maximum depth over the functions its edges resolve to. -/
theorem depth_is_longest_chain (T : Tables) (func : Int) (h0 : 0 ≤ func)
    (hcap : func ≤ MAX_FUNC) (_hs : StrictInc T func)
    (_hlt : ∀ i, 0 ≤ i → i < func → (T.func_addrD i : Int) < 2 ^ 31)
    (hac : Acyclic T func) :
    ∃ hi S, depth_pass T func Marks.zero = some (hi, S) ∧
      ∀ f, 0 ≤ f → f < func →
        LongestChain T func f (S.func_depthD f) ∧
        ((∀ g, ¬ Calls T func f g) → S.func_depthD f = 1) ∧
        ((∃ g, Calls T func f g) →
          (∃ g, Calls T func f g ∧ S.func_depthD f = 1 + S.func_depthD g) ∧
          ∀ g, Calls T func f g → 1 + S.func_depthD g ≤ S.func_depthD f) := by
  obtain ⟨hi, S, hpass, hall⟩ := depth_pass_acyclic T func h0 hcap hac
  refine ⟨hi, S, hpass, fun f hf0 hf1 => ?_⟩
  have hlc := hall f hf0 hf1
  have hcallee : ∀ g, Calls T func f g → LongestChain T func g (S.func_depthD g) := by
    intro g hg
    obtain ⟨_, _, hg0, jt, _, _, hfa⟩ := hg
    exact hall g hg0 (func_addr_range h0 hcap hfa)
  have hup : ∀ g, Calls T func f g → 1 + S.func_depthD g ≤ S.func_depthD f := by
    intro g hg
    obtain ⟨rest, hch, hlen⟩ := (hcallee g hg).1
    have := hlc.2 (g :: rest) (List.Chain.cons hg hch)
    simp only [List.length_cons] at this
    push_cast at this
    omega
  refine ⟨hlc, ?_, ?_⟩
  · intro hno
    obtain ⟨rest, hch, hlen⟩ := hlc.1
    cases rest with
    | nil => simpa using hlen.symm
    | cons b rest1 =>
      rw [List.chain_cons] at hch
      exact absurd hch.1 (hno b)
  · rintro ⟨g, hg⟩
    refine ⟨?_, hup⟩
    obtain ⟨rest, hch, hlen⟩ := hlc.1
    cases rest with
    | nil =>
      have h1 := hup g hg
      have h2 := (hcallee g hg).one_le
      simp only [List.length_nil] at hlen
      push_cast at hlen
      omega
    | cons b rest1 =>
      rw [List.chain_cons] at hch
      refine ⟨b, hch.1, ?_⟩
      have h1 := hup b hch.1
      have h2 := (hcallee b hch.1).2 rest1 hch.2
      simp only [List.length_cons] at hlen
      push_cast at hlen
      omega

theorem example_strictInc : StrictInc example_tables 3 := by
  intro i j h0 h1 h2
  have hi : i = 0 ∨ i = 1 := by omega
  have hj : j = 1 ∨ j = 2 := by omega
  rcases hi with rfl | rfl <;> rcases hj with rfl | rfl <;> first | decide | omega

theorem example_below : ∀ i : Int, 0 ≤ i → i < 3 →
    (example_tables.func_addrD i : Int) < 2 ^ 31 := by
  intro i h0 h1
  have hi : i = 0 ∨ i = 1 ∨ i = 2 := by omega
  rcases hi with rfl | rfl | rfl <;> decide

theorem example_calls {a b : Int} (h : Calls example_tables 3 a b) :
    (a = 0 ∧ b = 1) ∨ (a = 2 ∧ b = 0) ∨ (a = 2 ∧ b = 1) := by
  obtain ⟨ha0, ha1, _, jt, hj0, hj1, hfa⟩ := h
  have ha : a = 0 ∨ a = 1 ∨ a = 2 := by omega
  rcases ha with rfl | rfl | rfl
  · have hcc : func_cc example_tables 0 = 1 := by decide
    have hjt : jt = 0 := by omega
    subst hjt
    have : func_addr example_tables 3 (int32 (example_tables.call_addrD 0 0)) = some 1 := by
      decide
    rw [this] at hfa
    exact Or.inl ⟨rfl, (Option.some.inj hfa).symm⟩
  · have hcc : func_cc example_tables 1 = 0 := by decide
    omega
  · have hcc : func_cc example_tables 2 = 2 := by decide
    have hjt : jt = 0 ∨ jt = 1 := by omega
    rcases hjt with rfl | rfl
    · have : func_addr example_tables 3 (int32 (example_tables.call_addrD 2 0)) = some 0 := by
        decide
      rw [this] at hfa
      exact Or.inr (Or.inl ⟨rfl, (Option.some.inj hfa).symm⟩)
    · have : func_addr example_tables 3 (int32 (example_tables.call_addrD 2 1)) = some 1 := by
        decide
      rw [this] at hfa
      exact Or.inr (Or.inr ⟨rfl, (Option.some.inj hfa).symm⟩)

theorem example_acyclic : Acyclic example_tables 3 := by
  have hrank : ∀ a b, Relation.TransGen (Calls example_tables 3) a b →
      (if b = 1 then (0 : Int) else if b = 0 then 1 else 2) <
        (if a = 1 then (0 : Int) else if a = 0 then 1 else 2) := by
    intro a b h
    induction h with
    | single h =>
      rcases example_calls h with ⟨rfl, rfl⟩ | ⟨rfl, rfl⟩ | ⟨rfl, rfl⟩ <;> decide
    | tail _ h ih =>
      rcases example_calls h with ⟨rfl, rfl⟩ | ⟨rfl, rfl⟩ | ⟨rfl, rfl⟩ <;>
        simp only [] at ih ⊢ <;> split at ih <;> simp_all <;> omega
  intro a h
  exact lt_irrefl _ (hrank a a h)

theorem depth_is_longest_chain_witness :
    ∃ hi S, depth_pass example_tables 3 Marks.zero = some (hi, S) ∧
      ∀ f, 0 ≤ f → f < 3 →
        LongestChain example_tables 3 f (S.func_depthD f) ∧
        ((∀ g, ¬ Calls example_tables 3 f g) → S.func_depthD f = 1) ∧
        ((∃ g, Calls example_tables 3 f g) →
          (∃ g, Calls example_tables 3 f g ∧ S.func_depthD f = 1 + S.func_depthD g) ∧
          ∀ g, Calls example_tables 3 f g → 1 + S.func_depthD g ≤ S.func_depthD f) :=
  depth_is_longest_chain example_tables 3 (by decide) (by decide) example_strictInc
    example_below example_acyclic

/-! ## Top-level calls -/

/-- A top-level call (nothing on the stack) of a function without a call to itself
memoizes a depth: only a callee on the stack makes the loop give up. -/
theorem anydepth_top_nonzero (T : Tables) (func : Int) (h0 : 0 ≤ func) (hcap : func ≤ MAX_FUNC)
    (fuel : Nat) (id : Int) (S : Marks) (r : Int) (S' : Marks)
    (hstk : ∀ g, S.func_stackD g = 0) (hB : DepthBound func S.func_depthD)
    (hno : NoSelfCall T func id)
    (h : anydepth_check_func T func fuel id S = some (r, S')) :
    S'.func_depthD id ≠ 0 := by
  have hcap2 : func ≤ 8192 := by simpa [MAX_FUNC] using hcap
  rcases anydepth_cases h with
    ⟨hd, hres⟩ | ⟨_, hs, _⟩ | ⟨hd, hs, fuel1, _, depth, S2, hloop, hfin⟩
  · obtain ⟨_, h2⟩ := Prod.mk.inj hres
    rw [h2]; exact hd
  · exact absurd (hstk id) hs
  · have hQ := anydepth_loop_rule
      (fun _ d Sc =>
        Frame { S with func_stackD := setAt S.func_stackD id (S.func_stackD id + 1) } Sc ∧
        DepthBound func Sc.func_depthD ∧ 1 ≤ d)
      (fun p => 1 ≤ p.1)
      (func_cc T id).toNat 0
      (fun it d Sc c _ _ hI _ _ => ⟨hI.1, hI.2.1, by split <;> omega⟩)
      (fun it d Sc c r1 Sc1 hit0 hit1 hI hfa hc hdesc => by
        obtain ⟨i1, i2, i3⟩ := hI
        have hc1 := func_addr_range h0 hcap hfa
        have hcid : c ≠ id := by
          intro e; rw [e] at hfa
          exact hno it hit0 (by omega) hfa
        obtain ⟨hf, hret⟩ := anydepth_frame T func _ _ _ _ _ hdesc
        obtain ⟨hB1, _, hr2⟩ := anydepth_bound T func h0 hcap _ c Sc r1 Sc1 hc hc1 i2 hdesc
        have hnz := nzCount_le func Sc1.func_depthD
        have hr0 : 0 ≤ r1 := by
          rcases hret with ⟨_, a, _⟩ | ⟨_, a, _, _⟩ | ⟨_, _, a⟩
          · rw [a]; exact (i2 c).1
          · rw [i1.stack] at a
            simp only [setAt_other _ _ hcid] at a
            exact absurd (hstk c) a
          · rcases a with ⟨a, _⟩ | ⟨a, _⟩ <;> omega
        have hw : int32 (1 + r1) = 1 + r1 := int32_of_range (by omega) (by omega)
        rw [hw]
        exact ⟨fun hz => by omega, fun _ => ⟨i1.trans hf, hB1, by split <;> omega⟩⟩)
      (fun d Sc hI => hI.2.2)
      1 { S with func_stackD := setAt S.func_stackD id (S.func_stackD id + 1) } (depth, S2)
      ⟨Frame.refl _, hB, le_refl 1⟩ hloop
    dsimp only at hQ
    rcases hfin with ⟨hz, _⟩ | ⟨hz, hres⟩
    · omega
    · obtain ⟨_, h2⟩ := Prod.mk.inj hres
      rw [h2]
      show setAt S2.func_depthD id depth id ≠ 0
      rw [setAt_same]; exact hz

/-! ## A function that calls itself is never memoized -/

theorem anydepth_selfcall_unwritten (T : Tables) (func : Int) (g : Int)
    (hg : Calls T func g g) :
    ∀ (fuel : Nat) (id : Int) (S : Marks) (r : Int) (S' : Marks),
      S.func_depthD g = 0 →
      anydepth_check_func T func fuel id S = some (r, S') → S'.func_depthD g = 0 := by
  obtain ⟨_, _, hg0, j0, hj0, hj1, hfg⟩ := hg
  intro fuel
  induction fuel using Nat.strong_induction_on with
  | _ fuel ihs =>
    intro id S r S' hdg h
    rcases anydepth_cases h with
      ⟨hd, hres⟩ | ⟨hd, hs, hres⟩ | ⟨hd, hs, fuel1, rfl, depth, S2, hloop, hfin⟩
    · obtain ⟨_, h2⟩ := Prod.mk.inj hres
      rw [h2]; exact hdg
    · obtain ⟨_, h2⟩ := Prod.mk.inj hres
      rw [h2]; exact hdg
    · have ih := ihs fuel1 (Nat.lt_succ_self fuel1)
      by_cases hidg : id = g
      · subst hidg
        have hQ := anydepth_loop_rule
          (fun it _ Sc => Sc.func_depthD id = 0 ∧ Sc.func_stackD id ≠ 0 ∧ it ≤ j0)
          (fun p => p.2.func_depthD id = 0 ∧ p.1 = 0)
          (func_cc T id).toNat 0
          (fun it d Sc c hit0 hit1 hI hfa hc => by
            refine ⟨hI.1, hI.2.1, ?_⟩
            by_cases e : it = j0
            · subst e; rw [hfg] at hfa; cases hfa; omega
            · have := hI.2.2; omega)
          (fun it d Sc c r1 Sc1 hit0 hit1 hI hfa hc hdesc => by
            obtain ⟨i1, i2, i3⟩ := hI
            obtain ⟨hf, hret⟩ := anydepth_frame T func _ _ _ _ _ hdesc
            have hd1 : Sc1.func_depthD id = 0 := by
              rcases hf.depth id with a | ⟨_, a, _⟩
              · rw [a]; exact i1
              · exact absurd a i2
            have hs1 : Sc1.func_stackD id ≠ 0 := by rw [hf.stack]; exact i2
            by_cases e : it = j0
            · subst e
              rw [hfg] at hfa; cases hfa
              rcases hret with ⟨a, _, _⟩ | ⟨_, _, a, _⟩ | ⟨_, a, _⟩
              · exact absurd i1 a
              · rw [a]
                have hw : int32 (1 + -1) = 0 := by decide
                exact ⟨fun _ => ⟨hd1, rfl⟩, fun hz => absurd hw hz⟩
              · exact absurd a i2
            · exact ⟨fun _ => ⟨hd1, rfl⟩, fun _ => ⟨hd1, hs1, by omega⟩⟩)
          (fun d Sc hI => by have := hI.2.2; omega)
          1 { S with func_stackD := setAt S.func_stackD id (S.func_stackD id + 1) }
          (depth, S2) ⟨hd, by show setAt _ _ _ _ ≠ 0; rw [setAt_same]; omega, hj0⟩ hloop
        obtain ⟨q1, q2⟩ := hQ
        dsimp only at q1 q2
        rcases hfin with ⟨_, hres⟩ | ⟨hz, _⟩
        · obtain ⟨_, h2⟩ := Prod.mk.inj hres
          rw [h2]; exact q1
        · exact absurd q2 hz
      · have hQ := anydepth_loop_rule
          (fun _ _ Sc => Sc.func_depthD g = 0)
          (fun p => p.2.func_depthD g = 0)
          (func_cc T id).toNat 0
          (fun it d Sc c _ _ hI _ _ => hI)
          (fun it d Sc c r1 Sc1 _ _ hI hfa hc hdesc =>
            have := ih c Sc r1 Sc1 hI hdesc
            ⟨fun _ => this, fun _ => this⟩)
          (fun d Sc hI => hI)
          1 { S with func_stackD := setAt S.func_stackD id (S.func_stackD id + 1) }
          (depth, S2) hdg hloop
        dsimp only at hQ
        rcases hfin with ⟨_, hres⟩ | ⟨_, hres⟩
        · obtain ⟨_, h2⟩ := Prod.mk.inj hres
          rw [h2]; exact hQ
        · obtain ⟨_, h2⟩ := Prod.mk.inj hres
          rw [h2]
          show setAt S2.func_depthD id depth g = 0
          rw [setAt_other _ _ (Ne.symm hidg)]; exact hQ

/-! ## Functions whose calls all go to function 0 -/

/-- Calls made while function 0 is memoized or on the stack (or the call of function 0
itself) never flag a function `f` whose calls all resolve to function 0, and they
memoize for `f` the depth of function 0 plus one. -/
theorem anydepth_entry_caller (T : Tables) (func : Int) (h0 : 0 ≤ func) (hcap : func ≤ MAX_FUNC)
    (f : Int) (hf0 : f ≠ 0) (hcc : 0 < func_cc T f) (hall : AllCallsTo T func f 0) :
    ∀ (fuel : Nat) (id : Int) (S : Marks) (r : Int) (S' : Marks),
      0 ≤ id → id < func →
      (S.func_depthD 0 ≠ 0 ∨ S.func_stackD 0 ≠ 0 ∨ id = 0) →
      S.func_stackD f = 0 → DepthBound func S.func_depthD →
      S.func_recurseD f = 0 →
      (S.func_depthD f ≠ 0 → S.func_depthD 0 ≠ 0 ∧ S.func_depthD f = S.func_depthD 0 + 1) →
      anydepth_check_func T func fuel id S = some (r, S') →
      S'.func_recurseD f = 0 ∧
      (S'.func_depthD f ≠ 0 → S'.func_depthD 0 ≠ 0 ∧ S'.func_depthD f = S'.func_depthD 0 + 1) := by
  have hcap2 : func ≤ 8192 := by simpa [MAX_FUNC] using hcap
  intro fuel
  induction fuel using Nat.strong_induction_on with
  | _ fuel ihs =>
    intro id S r S' hid0 hid1 hG hsf hB hrf hdf h
    rcases anydepth_cases h with
      ⟨hd, hres⟩ | ⟨hd, hs, hres⟩ | ⟨hd, hs, fuel1, rfl, depth, S2, hloop, hfin⟩
    · obtain ⟨_, h2⟩ := Prod.mk.inj hres
      rw [h2]; exact ⟨hrf, hdf⟩
    · obtain ⟨_, h2⟩ := Prod.mk.inj hres
      rw [h2]
      have hne : f ≠ id := by intro e; rw [e] at hsf; exact hs hsf
      exact ⟨by show setAt S.func_recurseD id 1 f = 0; rw [setAt_other _ _ hne]; exact hrf, hdf⟩
    · have ih := ihs fuel1 (Nat.lt_succ_self fuel1)
      by_cases hidf : id = f
      · -- the descent into `f`: every call goes to function 0
        subst hidf
        have hG0 : S.func_depthD 0 ≠ 0 ∨ S.func_stackD 0 ≠ 0 := by
          rcases hG with a | a | a
          · exact Or.inl a
          · exact Or.inr a
          · exact absurd a hf0
        have hd0 := (hB 0).1
        have hd1 := hB.le_cap hcap 0
        have hQ := anydepth_loop_rule
          (fun it d Sc =>
            Sc.func_depthD = S.func_depthD ∧
            Sc.func_stackD = setAt S.func_stackD id (S.func_stackD id + 1) ∧
            Sc.func_recurseD id = 0 ∧ 1 ≤ d ∧ d ≤ 1 + S.func_depthD 0 ∧
            (0 < it → S.func_depthD 0 ≠ 0 ∧ d = 1 + S.func_depthD 0))
          (fun p =>
            p.2.func_depthD = S.func_depthD ∧ p.2.func_recurseD id = 0 ∧
            (p.1 = 0 ∨ (S.func_depthD 0 ≠ 0 ∧ p.1 = 1 + S.func_depthD 0)))
          (func_cc T id).toNat 0
          (fun it d Sc c hit0 hit1 hI hfa hc => by
            have := hall it hit0 (by omega)
            rw [this] at hfa; cases hfa; omega)
          (fun it d Sc c r1 Sc1 hit0 hit1 hI hfa hc hdesc => by
            obtain ⟨i1, i2, i3, i4, i5, i6⟩ := hI
            have hc0 := hall it hit0 (by omega)
            rw [hc0] at hfa; cases hfa
            obtain ⟨_, hret⟩ := anydepth_frame T func _ _ _ _ _ hdesc
            rcases hret with ⟨a1, a2, a3⟩ | ⟨a1, a2, a3, a4⟩ | ⟨a1, a2, _⟩
            · -- function 0 is memoized
              rw [i1] at a1 a2
              rw [a2, a3]
              have hw : int32 (1 + S.func_depthD 0) = 1 + S.func_depthD 0 :=
                int32_of_range (by omega) (by omega)
              rw [hw]
              refine ⟨fun hz => by omega, fun _ => ⟨i1, i2, i3, ?_, ?_, fun _ => ⟨a1, ?_⟩⟩⟩
              · split <;> omega
              · split <;> omega
              · split <;> omega
            · -- function 0 is on the stack
              rw [a3, a4]
              have hw : int32 (1 + -1) = 0 := by decide
              refine ⟨fun _ => ⟨i1, ?_, Or.inl rfl⟩, fun hz => absurd hw hz⟩
              show setAt Sc.func_recurseD 0 1 id = 0
              rw [setAt_other _ _ hf0]; exact i3
            · -- function 0 can not be descended into
              rw [i1] at a1
              rw [i2, setAt_other _ _ (Ne.symm hf0)] at a2
              rcases hG0 with b | b
              · exact absurd a1 b
              · exact absurd a2 b)
          (fun d Sc hI => by
            obtain ⟨i1, _, i3, _, _, i6⟩ := hI
            exact ⟨i1, i3, Or.inr (i6 (by omega))⟩)
          1 { S with func_stackD := setAt S.func_stackD id (S.func_stackD id + 1) }
          (depth, S2) ⟨rfl, rfl, hrf, le_refl 1, by omega, fun hlt => by omega⟩ hloop
        obtain ⟨q1, q2, q3⟩ := hQ
        dsimp only at q1 q2 q3
        rcases hfin with ⟨hz, hres⟩ | ⟨hz, hres⟩
        · obtain ⟨_, h2⟩ := Prod.mk.inj hres
          rw [h2]
          refine ⟨q2, ?_⟩
          show S2.func_depthD id ≠ 0 → _
          rw [q1]; exact hdf
        · obtain ⟨_, h2⟩ := Prod.mk.inj hres
          rw [h2]
          refine ⟨q2, fun _ => ?_⟩
          show setAt S2.func_depthD id depth 0 ≠ 0 ∧
            setAt S2.func_depthD id depth id = setAt S2.func_depthD id depth 0 + 1
          rw [setAt_same, setAt_other _ _ (Ne.symm hf0), q1]
          rcases q3 with a | ⟨a, b⟩
          · exact absurd a hz
          · exact ⟨a, by omega⟩
      · -- the descent into another function
        have hQ := anydepth_loop_rule
          (fun it d Sc =>
            Frame { S with func_stackD := setAt S.func_stackD id (S.func_stackD id + 1) } Sc ∧
            DepthBound func Sc.func_depthD ∧ Sc.func_recurseD f = 0 ∧
            (Sc.func_depthD f ≠ 0 →
              Sc.func_depthD 0 ≠ 0 ∧ Sc.func_depthD f = Sc.func_depthD 0 + 1))
          (fun p =>
            Frame { S with func_stackD := setAt S.func_stackD id (S.func_stackD id + 1) } p.2 ∧
            p.2.func_recurseD f = 0 ∧
            (p.2.func_depthD f ≠ 0 →
              p.2.func_depthD 0 ≠ 0 ∧ p.2.func_depthD f = p.2.func_depthD 0 + 1))
          (func_cc T id).toNat 0
          (fun it d Sc c _ _ hI _ _ => hI)
          (fun it d Sc c r1 Sc1 hit0 hit1 hI hfa hc hdesc => by
            obtain ⟨i1, i2, i3, i4⟩ := hI
            have hc1 := func_addr_range h0 hcap hfa
            have hf := (anydepth_frame T func _ _ _ _ _ hdesc).1
            obtain ⟨hB1, _, _⟩ := anydepth_bound T func h0 hcap _ c Sc r1 Sc1 hc hc1 i2 hdesc
            have hGc : Sc.func_depthD 0 ≠ 0 ∨ Sc.func_stackD 0 ≠ 0 ∨ c = 0 := by
              rw [i1.stack]
              by_cases hid : id = 0
              · subst hid
                right; left
                show setAt S.func_stackD 0 (S.func_stackD 0 + 1) 0 ≠ 0
                rw [setAt_same]; omega
              · rcases hG with a | a | a
                · left
                  rcases i1.depth 0 with b | ⟨b, _, _⟩
                  · rw [b]; exact a
                  · exact absurd b a
                · right; left
                  show setAt S.func_stackD id (S.func_stackD id + 1) 0 ≠ 0
                  rw [setAt_other _ _ (Ne.symm hid)]; exact a
                · exact absurd a hid
            have hsfc : Sc.func_stackD f = 0 := by
              rw [i1.stack]
              show setAt S.func_stackD id (S.func_stackD id + 1) f = 0
              rw [setAt_other _ _ (Ne.symm hidf)]; exact hsf
            obtain ⟨j1, j2⟩ := ih c Sc r1 Sc1 hc hc1 hGc hsfc i2 i3 i4 hdesc
            exact ⟨fun _ => ⟨i1.trans hf, j1, j2⟩, fun _ => ⟨i1.trans hf, hB1, j1, j2⟩⟩)
          (fun d Sc hI => ⟨hI.1, hI.2.2.1, hI.2.2.2⟩)
          1 { S with func_stackD := setAt S.func_stackD id (S.func_stackD id + 1) }
          (depth, S2) ⟨Frame.refl _, hB, hrf, hdf⟩ hloop
        obtain ⟨q1, q2, q3⟩ := hQ
        dsimp only at q1 q2 q3
        have hdid : S2.func_depthD id = 0 := by
          rcases q1.depth id with a | ⟨_, a2, _⟩
          · simpa [hd] using a
          · simp only [setAt_same] at a2; omega
        rcases hfin with ⟨hz, hres⟩ | ⟨hz, hres⟩
        · obtain ⟨_, h2⟩ := Prod.mk.inj hres
          rw [h2]
          exact ⟨q2, q3⟩
        · obtain ⟨_, h2⟩ := Prod.mk.inj hres
          rw [h2]
          refine ⟨q2, ?_⟩
          show setAt S2.func_depthD id depth f ≠ 0 →
            setAt S2.func_depthD id depth 0 ≠ 0 ∧
              setAt S2.func_depthD id depth f = setAt S2.func_depthD id depth 0 + 1
          rw [setAt_other _ _ (Ne.symm hidf)]
          intro hne
          obtain ⟨a, b⟩ := q3 hne
          by_cases hid : id = 0
          · subst hid; exact absurd hdid a
          · rw [setAt_other _ _ (Ne.symm hid)]
            exact ⟨a, b⟩

theorem entry_caller_pass (T : Tables) (func : Int) (h0 : 0 ≤ func) (hcap : func ≤ MAX_FUNC)
    (hentry : NoSelfCall T func 0)
    (f : Int) (hf0 : 0 ≤ f) (hf1 : f < func) (hne : f ≠ 0) (hcc : 0 < func_cc T f)
    (hall : AllCallsTo T func f 0) :
    ∃ hi S, depth_pass T func Marks.zero = some (hi, S) ∧
      S.func_recurseD f = 0 ∧ S.func_depthD f = S.func_depthD 0 + 1 := by
  have hnof : NoSelfCall T func f := by
    intro jt hj0 hj1 hfa
    rw [hall jt hj0 hj1] at hfa
    exact hne (Option.some.inj hfa).symm
  obtain ⟨hi, S, hpass, hP⟩ := depth_pass_loop_rule T func
    (fun it S =>
      S.func_recurseD f = 0 ∧
      (S.func_depthD f ≠ 0 → S.func_depthD 0 ≠ 0 ∧ S.func_depthD f = S.func_depthD 0 + 1) ∧
      DepthBound func S.func_depthD ∧ (∀ g, S.func_stackD g = 0) ∧
      (0 < it → S.func_depthD 0 ≠ 0) ∧ (f < it → S.func_depthD f ≠ 0))
    func.toNat 0
    (fun it S hit0 hit1 hP => by
      obtain ⟨p1, p2, p3, p4, p5, p6⟩ := hP
      have hit2 : it < func := by omega
      obtain ⟨r, S1, hcall⟩ := anydepth_returns T func h0 hcap it S hit0 hit2
      have hG : S.func_depthD 0 ≠ 0 ∨ S.func_stackD 0 ≠ 0 ∨ it = 0 := by
        by_cases h : it = 0
        · exact Or.inr (Or.inr h)
        · exact Or.inl (p5 (by omega))
      obtain ⟨q1, q2⟩ := anydepth_entry_caller T func h0 hcap f hne hcc hall _ it S r S1
        hit0 hit2 hG (p4 f) p3 p1 p2 hcall
      obtain ⟨hB1, _, _⟩ := anydepth_bound T func h0 hcap _ it S r S1 hit0 hit2 p3 hcall
      have hf := (anydepth_frame T func _ _ _ _ _ hcall).1
      have hkeep : ∀ g, S.func_depthD g ≠ 0 → S1.func_depthD g ≠ 0 := by
        intro g hg
        rcases hf.depth g with a | ⟨a, _, _⟩
        · rw [a]; exact hg
        · exact absurd a hg
      refine ⟨r, S1, hcall, q1, q2, hB1, fun g => by rw [hf.stack]; exact p4 g, ?_, ?_⟩
      · intro _
        by_cases h : it = 0
        · subst h
          exact anydepth_top_nonzero T func h0 hcap _ 0 S r S1 p4 p3 hentry hcall
        · exact hkeep 0 (p5 (by omega))
      · intro hlt
        by_cases h : it = f
        · subst h
          exact anydepth_top_nonzero T func h0 hcap _ it S r S1 p4 p3 hnof hcall
        · exact hkeep f (p6 (by omega)))
    0 Marks.zero
    ⟨rfl, fun h => absurd rfl h, DepthBound_zero func, fun _ => rfl, fun h => by omega,
      fun h => by omega⟩
  obtain ⟨p1, p2, _, _, _, p6⟩ := hP
  exact ⟨hi, S, hpass, p1, (p2 (p6 (by omega))).2⟩

/-- While function 0 calls itself (and so keeps depth 0), a function `f` whose calls
all resolve to function 0 is only ever memoized with depth 1. -/
theorem anydepth_entry_caller_selfcall (T : Tables) (func : Int) (hself0 : Calls T func 0 0)
    (f : Int) (hf0 : f ≠ 0) (hall : AllCallsTo T func f 0) :
    ∀ (fuel : Nat) (id : Int) (S : Marks) (r : Int) (S' : Marks),
      S.func_depthD 0 = 0 → (S.func_depthD f ≠ 0 → S.func_depthD f = 1) →
      anydepth_check_func T func fuel id S = some (r, S') →
      (S'.func_depthD f ≠ 0 → S'.func_depthD f = 1) := by
  intro fuel
  induction fuel using Nat.strong_induction_on with
  | _ fuel ihs =>
    intro id S r S' hd0 hdf h
    rcases anydepth_cases h with
      ⟨hd, hres⟩ | ⟨hd, hs, hres⟩ | ⟨hd, hs, fuel1, rfl, depth, S2, hloop, hfin⟩
    · obtain ⟨_, h2⟩ := Prod.mk.inj hres
      rw [h2]; exact hdf
    · obtain ⟨_, h2⟩ := Prod.mk.inj hres
      rw [h2]; exact hdf
    · have ih := ihs fuel1 (Nat.lt_succ_self fuel1)
      by_cases hidf : id = f
      · subst hidf
        have hQ := anydepth_loop_rule
          (fun _ d Sc => Sc.func_depthD 0 = 0 ∧ d = 1)
          (fun p => p.1 = 0 ∨ p.1 = 1)
          (func_cc T id).toNat 0
          (fun it d Sc c hit0 hit1 hI hfa hc => by
            have := hall it hit0 (by omega)
            rw [this] at hfa; cases hfa; omega)
          (fun it d Sc c r1 Sc1 hit0 hit1 hI hfa hc hdesc => by
            obtain ⟨i1, i2⟩ := hI
            have hc0 := hall it hit0 (by omega)
            rw [hc0] at hfa; cases hfa
            obtain ⟨_, hret⟩ := anydepth_frame T func _ _ _ _ _ hdesc
            have hd1 := anydepth_selfcall_unwritten T func 0 hself0 _ 0 Sc r1 Sc1 i1
              hdesc
            rcases hret with ⟨a, _, _⟩ | ⟨_, _, a, _⟩ | ⟨_, _, a⟩
            · exact absurd i1 a
            · rw [a]
              have hw : int32 (1 + -1) = 0 := by decide
              exact ⟨fun _ => Or.inl rfl, fun hz => absurd hw hz⟩
            · rcases a with ⟨a, _⟩ | ⟨a, b⟩
              · rw [a]
                have hw : int32 (1 + 0) = 1 := by decide
                rw [hw, i2]
                exact ⟨fun hz => by omega, fun _ => ⟨hd1, by simp⟩⟩
              · rw [hd1] at b; omega)
          (fun d Sc hI => Or.inr hI.2)
          1 { S with func_stackD := setAt S.func_stackD id (S.func_stackD id + 1) }
          (depth, S2) ⟨hd0, rfl⟩ hloop
        dsimp only at hQ
        rcases hfin with ⟨hz, hres⟩ | ⟨hz, hres⟩
        · obtain ⟨h1, h2⟩ := Prod.mk.inj hres
          have hfr := (anydepth_frame T func _ _ _ _ _ h).2
          rcases hfr with ⟨a, _, _⟩ | ⟨_, a, _, _⟩ | ⟨_, _, a⟩
          · exact absurd hd a
          · exact absurd hs a
          · rcases a with ⟨_, a⟩ | ⟨a, _⟩
            · intro hne; exact absurd a hne
            · omega
        · obtain ⟨_, h2⟩ := Prod.mk.inj hres
          rw [h2]
          intro _
          show setAt S2.func_depthD id depth id = 1
          rw [setAt_same]
          rcases hQ with a | a
          · exact absurd a hz
          · exact a
      · have hQ := anydepth_loop_rule
          (fun _ _ Sc => Sc.func_depthD 0 = 0 ∧ (Sc.func_depthD f ≠ 0 → Sc.func_depthD f = 1))
          (fun p => p.2.func_depthD f ≠ 0 → p.2.func_depthD f = 1)
          (func_cc T id).toNat 0
          (fun it d Sc c _ _ hI _ _ => hI)
          (fun it d Sc c r1 Sc1 _ _ hI hfa hc hdesc =>
            have h1 := ih c Sc r1 Sc1 hI.1 hI.2 hdesc
            have h2 := anydepth_selfcall_unwritten T func 0 hself0 _ c Sc r1 Sc1 hI.1
              hdesc
            ⟨fun _ => h1, fun _ => ⟨h2, h1⟩⟩)
          (fun d Sc hI => hI.2)
          1 { S with func_stackD := setAt S.func_stackD id (S.func_stackD id + 1) }
          (depth, S2) ⟨hd0, hdf⟩ hloop
        dsimp only at hQ
        rcases hfin with ⟨_, hres⟩ | ⟨_, hres⟩
        · obtain ⟨_, h2⟩ := Prod.mk.inj hres
          rw [h2]; exact hQ
        · obtain ⟨_, h2⟩ := Prod.mk.inj hres
          rw [h2]
          show setAt S2.func_depthD id depth f ≠ 0 → setAt S2.func_depthD id depth f = 1
          rw [setAt_other _ _ (Ne.symm hidf)]; exact hQ

theorem entry_selfcall_pass (T : Tables) (func : Int) (h0 : 0 ≤ func) (hcap : func ≤ MAX_FUNC)
    (hself0 : Calls T func 0 0)
    (f : Int) (hf0 : 0 ≤ f) (hf1 : f < func) (hne : f ≠ 0) (hall : AllCallsTo T func f 0) :
    ∃ hi S, depth_pass T func Marks.zero = some (hi, S) ∧
      S.func_depthD 0 = 0 ∧ S.func_depthD f = 1 := by
  have hnof : NoSelfCall T func f := by
    intro jt hj0 hj1 hfa
    rw [hall jt hj0 hj1] at hfa
    exact hne (Option.some.inj hfa).symm
  obtain ⟨hi, S, hpass, hP⟩ := depth_pass_loop_rule T func
    (fun it S =>
      S.func_depthD 0 = 0 ∧ (S.func_depthD f ≠ 0 → S.func_depthD f = 1) ∧
      DepthBound func S.func_depthD ∧ (∀ g, S.func_stackD g = 0) ∧
      (f < it → S.func_depthD f ≠ 0))
    func.toNat 0
    (fun it S hit0 hit1 hP => by
      obtain ⟨p1, p2, p3, p4, p5⟩ := hP
      have hit2 : it < func := by omega
      obtain ⟨r, S1, hcall⟩ := anydepth_returns T func h0 hcap it S hit0 hit2
      have q1 := anydepth_selfcall_unwritten T func 0 hself0 _ it S r S1 p1 hcall
      have q2 := anydepth_entry_caller_selfcall T func hself0 f hne hall _ it S r S1 p1 p2 hcall
      obtain ⟨hB1, _, _⟩ := anydepth_bound T func h0 hcap _ it S r S1 hit0 hit2 p3 hcall
      have hf := (anydepth_frame T func _ _ _ _ _ hcall).1
      refine ⟨r, S1, hcall, q1, q2, hB1, fun g => by rw [hf.stack]; exact p4 g, ?_⟩
      intro hlt
      by_cases h : it = f
      · subst h
        exact anydepth_top_nonzero T func h0 hcap _ it S r S1 p4 p3 hnof hcall
      · rcases hf.depth f with a | ⟨a, _, _⟩
        · rw [a]; exact p5 (by omega)
        · exact absurd a (p5 (by omega)))
    0 Marks.zero
    ⟨rfl, fun h => absurd rfl h, DepthBound_zero func, fun _ => rfl, fun h => by omega⟩
  obtain ⟨p1, p2, _, _, p5⟩ := hP
  exact ⟨hi, S, hpass, p1, p2 (p5 (by omega))⟩

/-- Self-calls of a function other than function 0, on addresses that fit an `int`.
For every table with strictly increasing addresses below 2^31 and
every function `f` other than function 0 that has at least one call edge and all of
whose call edges resolve to `f` itself, the normalizer followed by the full depth
pass returns, and afterwards `func_depthD[f]` equals `func_depthD[0] + 1`; and `f`
is not flagged recursive when function 0 has no call that resolves to function 0. -/
theorem selfcall_only_depth (T : Tables) (func : Int) (h0 : 0 ≤ func) (hcap : func ≤ MAX_FUNC)
    (hs : StrictInc T func) (hlt : ∀ i, 0 ≤ i → i < func → (T.func_addrD i : Int) < 2 ^ 31)
    (f : Int) (hf0 : 0 ≤ f) (hf1 : f < func) (hne : f ≠ 0) (hcc : 0 < func_cc T f)
    (hself : AllCallsTo T func f f) :
    ∃ T1 hi S, normalize_then_depth_pass T func = some (T1, hi, S) ∧
      S.func_depthD f = S.func_depthD 0 + 1 ∧
      (NoSelfCall T func 0 → S.func_recurseD f = 0) := by
  have hfa : ∀ a, func_addr (rm_selfcall_spec T func) func a = func_addr T func a :=
    fun a => func_addr_congr (rm_selfcall_spec T func) T rfl func a
  have ha0 := hlt 0 (le_refl 0) (by omega)
  have hown : func_addr T func (int32 (int64 (T.func_addrD 0))) = some 0 := by
    rw [int64_of_range (by omega) (by omega)]
    exact func_addr_own T func h0 hcap hs hlt 0 (le_refl 0) (by omega)
  have hall1 : AllCallsTo (rm_selfcall_spec T func) func f 0 := by
    intro jt hj0 hj1
    have hcell : (rm_selfcall_spec T func).call_addrD f jt = int64 (T.func_addrD 0) := by
      show (if _ then _ else _) = _
      rw [if_pos ⟨hf0, hf1, hj0, hj1, hself jt hj0 hj1⟩]
    rw [hcell, hfa]
    exact hown
  have hnorm : ∀ hi S, depth_pass (rm_selfcall_spec T func) func Marks.zero = some (hi, S) →
      normalize_then_depth_pass T func = some (rm_selfcall_spec T func, hi, S) := by
    intro hi S hpass
    unfold normalize_then_depth_pass
    rw [rm_selfcall_eq T func h0 hcap]
    simp only [hpass, Option.map_some']
  by_cases hentry : NoSelfCall T func 0
  · have hentry1 : NoSelfCall (rm_selfcall_spec T func) func 0 := by
      intro jt hj0 hj1
      obtain ⟨c, hc, _, _⟩ := func_addr_total T func (int32 (T.call_addrD 0 jt)) h0 hcap
      have hc0 : c ≠ 0 := by
        intro e; rw [e] at hc; exact hentry jt hj0 hj1 hc
      rw [rm_selfcall_spec_call_other T func 0 jt c hc hc0, hfa]
      exact hentry jt hj0 hj1
    obtain ⟨hi, S, hpass, hr, hd⟩ := entry_caller_pass (rm_selfcall_spec T func) func h0 hcap
      hentry1 f hf0 hf1 hne hcc hall1
    exact ⟨rm_selfcall_spec T func, hi, S, hnorm hi S hpass, hd, fun _ => hr⟩
  · have hex : ∃ jt, 0 ≤ jt ∧ jt < func_cc T 0 ∧
        func_addr T func (int32 (T.call_addrD 0 jt)) = some 0 := by
      unfold NoSelfCall at hentry
      push_neg at hentry
      exact hentry
    obtain ⟨jt, hj0, hj1, hj2⟩ := hex
    have hself1 : Calls (rm_selfcall_spec T func) func 0 0 := by
      refine ⟨le_refl 0, by omega, le_refl 0, jt, hj0, hj1, ?_⟩
      have hcell : (rm_selfcall_spec T func).call_addrD 0 jt = int64 (T.func_addrD 0) := by
        show (if _ then _ else _) = _
        rw [if_pos ⟨le_refl 0, by omega, hj0, hj1, hj2⟩]
      rw [hcell, hfa]
      exact hown
    obtain ⟨hi, S, hpass, hd0, hdf⟩ := entry_selfcall_pass (rm_selfcall_spec T func) func h0
      hcap hself1 f hf0 hf1 hne hall1
    exact ⟨rm_selfcall_spec T func, hi, S, hnorm hi S hpass, by rw [hd0, hdf]; rfl,
      fun h => absurd h hentry⟩

theorem selfcall_leaf_strictInc : StrictInc selfcall_leaf_tables 2 := by
  intro i j h0 h1 h2
  have hi : i = 0 := by omega
  have hj : j = 1 := by omega
  subst hi; subst hj
  decide

theorem selfcall_leaf_below : ∀ i : Int, 0 ≤ i → i < 2 →
    (selfcall_leaf_tables.func_addrD i : Int) < 2 ^ 31 := by
  intro i h0 h1
  have hi : i = 0 ∨ i = 1 := by omega
  rcases hi with rfl | rfl <;> decide

theorem selfcall_leaf_entry : NoSelfCall selfcall_leaf_tables 2 0 := by
  intro jt h0 h1
  have hcc : func_cc selfcall_leaf_tables 0 = 0 := by decide
  omega

theorem selfcall_leaf_self : AllCallsTo selfcall_leaf_tables 2 1 1 := by
  intro jt h0 h1
  have hcc : func_cc selfcall_leaf_tables 1 = 1 := by decide
  have hj : jt = 0 := by omega
  subst hj
  decide

theorem selfcall_only_depth_witness :
    ∃ T1 hi S, normalize_then_depth_pass selfcall_leaf_tables 2 = some (T1, hi, S) ∧
      S.func_depthD 1 = S.func_depthD 0 + 1 ∧ S.func_recurseD 1 = 0 := by
  obtain ⟨T1, hi, S, hrun, hd, hr⟩ :=
    selfcall_only_depth selfcall_leaf_tables 2 (by decide) (by decide) selfcall_leaf_strictInc
      selfcall_leaf_below 1 (by decide) (by decide) (by decide) (by decide)
      selfcall_leaf_self
  exact ⟨T1, hi, S, hrun, hd, hr selfcall_leaf_entry⟩

theorem selfcall_tables_self : AllCallsTo selfcall_tables 1 0 0 := by
  intro jt h0 h1
  have hcc : func_cc selfcall_tables 0 = 1 := by decide
  have hj : jt = 0 := by omega
  subst hj
  decide

/-- The self-call of function 0 survives: in the table of one function at 0x10 whose
only
call targets 0x10, every call edge of function 0 targets function 0, the normalizer
rewrites the edge to the address of function 0 again, and after the full depth pass
function 0 is flagged recursive (`func_recurseD[0] = 1`, not 0) and has
`func_depthD[0] = 0`, which is not `func_depthD[0] + 1`. -/
theorem selfcall_entry_flagged :
    StrictInc selfcall_tables 1 ∧ AllCallsTo selfcall_tables 1 0 0 ∧
    ∃ T1 hi S, normalize_then_depth_pass selfcall_tables 1 = some (T1, hi, S) ∧
      S.func_recurseD 0 = 1 ∧ S.func_depthD 0 = 0 ∧
      ¬ (S.func_recurseD 0 = 0 ∧ S.func_depthD 0 = S.func_depthD 0 + 1) := by
  have hmap : (normalize_then_depth_pass selfcall_tables 1).map
      (fun r => (r.2.2.func_recurseD 0, r.2.2.func_depthD 0)) = some (1, 0) := by decide
  refine ⟨fun i j h0 h1 h2 => by omega, selfcall_tables_self, ?_⟩
  cases h : normalize_then_depth_pass selfcall_tables 1 with
  | none => rw [h] at hmap; exact absurd hmap (by simp)
  | some R =>
    obtain ⟨T1, hi, S⟩ := R
    rw [h] at hmap
    have h2 := Prod.mk.inj (Option.some.inj hmap)
    exact ⟨T1, hi, S, rfl, h2.1, h2.2, fun hc => by have := hc.2; omega⟩

/-! ## A cycle of two functions -/

theorem two_cycle_pass (T : Tables)
    (hcc0 : func_cc T 0 = 1) (hcc1 : func_cc T 1 = 1)
    (h01 : func_addr T 2 (int32 (T.call_addrD 0 0)) = some 1)
    (h10 : func_addr T 2 (int32 (T.call_addrD 1 0)) = some 0) :
    ∃ hi S, depth_pass T 2 Marks.zero = some (hi, S) ∧ S.func_recurseD 0 = 1 ∧
      S.func_depthD 0 = 1 ∧ S.func_depthD 1 = 2 := by
  have e1 : int32 0 = 0 := by decide
  have e2 : int32 1 = 1 := by decide
  have e3 : int32 2 = 2 := by decide
  have f2 : depth_fuel 2 = 1 + 1 := rfl
  have n2 : (2 : Int).toNat = 1 + 1 := rfl
  have n1 : (1 : Int).toNat = 0 + 1 := rfl
  simp [depth_pass, depth_pass_loop, f2, n2, n1, anydepth_check_func, anydepth_loop,
    Marks.zero, setAt_apply, hcc0, hcc1, h01, h10, e1, e2, e3]
  exact ⟨_, _, ⟨rfl, rfl⟩, by simp [setAt], by simp [setAt], by simp [setAt]⟩

/-- With resolution as the code performs it (`func_addr` on the edge cut to `int`): for
every table of exactly two functions `A` and `B` where the only call edge of `A`
resolves to `B` and the only call edge of `B` resolves to `A`, the normalizer
followed by the full depth pass over both functions returns, and afterwards at least
one of `func_recurseD[A]`, `func_recurseD[B]` is set. -/
theorem two_cycle_flagged (T : Tables) (A B : Int)
    (hA : 0 ≤ A ∧ A < 2) (hB : 0 ≤ B ∧ B < 2) (hAB : A ≠ B)
    (hccA : func_cc T A = 1) (hccB : func_cc T B = 1)
    (hAtoB : func_addr T 2 (int32 (T.call_addrD A 0)) = some B)
    (hBtoA : func_addr T 2 (int32 (T.call_addrD B 0)) = some A) :
    ∃ T1 hi S, normalize_then_depth_pass T 2 = some (T1, hi, S) ∧
      (S.func_recurseD A ≠ 0 ∨ S.func_recurseD B ≠ 0) := by
  have key : func_cc T 0 = 1 ∧ func_cc T 1 = 1 ∧
      func_addr T 2 (int32 (T.call_addrD 0 0)) = some 1 ∧
      func_addr T 2 (int32 (T.call_addrD 1 0)) = some 0 := by
    have hcase : (A = 0 ∧ B = 1) ∨ (A = 1 ∧ B = 0) := by omega
    rcases hcase with ⟨rfl, rfl⟩ | ⟨rfl, rfl⟩
    · exact ⟨hccA, hccB, hAtoB, hBtoA⟩
    · exact ⟨hccB, hccA, hBtoA, hAtoB⟩
  obtain ⟨hcc0, hcc1, h01, h10⟩ := key
  have hc0 := rm_selfcall_spec_call_other T 2 0 0 1 h01 (by decide)
  have hc1 := rm_selfcall_spec_call_other T 2 1 0 0 h10 (by decide)
  obtain ⟨hi, S, hpass, hrec, _, _⟩ := two_cycle_pass (rm_selfcall_spec T 2) hcc0 hcc1
    (by rw [hc0]; exact (func_addr_congr _ T rfl 2 _).trans h01)
    (by rw [hc1]; exact (func_addr_congr _ T rfl 2 _).trans h10)
  refine ⟨rm_selfcall_spec T 2, hi, S, ?_, ?_⟩
  · unfold normalize_then_depth_pass
    rw [rm_selfcall_eq T 2 (by decide) (by decide)]
    simp only [hpass, Option.map_some']
  · have hcase : A = 0 ∨ B = 0 := by omega
    rcases hcase with rfl | rfl
    · left; rw [hrec]; decide
    · right; rw [hrec]; decide

theorem two_cycle_flagged_witness :
    ∃ T1 hi S, normalize_then_depth_pass cycle_tables 2 = some (T1, hi, S) ∧
      (S.func_recurseD 0 ≠ 0 ∨ S.func_recurseD 1 ≠ 0) :=
  two_cycle_flagged cycle_tables 0 1 (by decide) (by decide) (by decide) (by decide)
    (by decide) (by decide) (by decide)

/-! ## The example of the specification -/

/-- C10. For the example tables (`foo` at 0x10 calling 0x20, `bar` at 0x20 calling
nothing, `baz` at 0x30 calling 0x10 and 0x20), the normalizer followed by the full
depth pass returns with depths `bar = 1`, `foo = 2`, `baz = 3` and no function
flagged recursive; the children-of loop for `baz` prints `foo` then `bar`; the
parents-of loop for `bar` prints `foo` then `baz`. -/
theorem example_scenario :
    (normalize_then_depth_pass example_tables 3).map
        (fun r => (r.2.2.func_depthD 1, r.2.2.func_depthD 0, r.2.2.func_depthD 2))
      = some (1, 2, 3) ∧
    (∀ g, (normalize_then_depth_pass example_tables 3).map
        (fun r => r.2.2.func_recurseD g) = some 0) ∧
    (list_children example_tables 3 2).map
        (List.map (func_name_of example_tables))
      = some [bytes "foo", bytes "bar"] ∧
    (list_parents example_tables 3 1).map (func_name_of example_tables)
      = [bytes "foo", bytes "baz"] :=
  ⟨by decide, fun _ => rfl, by decide, by decide⟩
/-! ## Depth memo and stack balance -/

/-- C15. Depth memo invariant: for every state of the tables in which all depths are at
least 0 and every call `anydepth_check_func(id, func)` (`0 ≤ id < func < MAX_FUNC`), the
call returns, each function whose depth was non-zero before the call has exactly the same
depth after it, and each function whose depth was 0 before has afterwards depth 0 or
a depth of at least 1; so no depth ever decreases. -/
theorem depth_memo_invariant (T : Tables) (func : Int) (S : Marks) (id : Int) (fuel : Nat)
    (h0 : 0 ≤ func) (hlim : func < MAX_FUNC) (hid0 : 0 ≤ id) (hid1 : id < func)
    (hfuel : func.toNat ≤ fuel) (hnn : ∀ g, 0 ≤ S.func_depthD g) :
    ∃ r S', anydepth_check_func T func fuel id S = some (r, S') ∧
      (∀ g, S.func_depthD g ≠ 0 → S'.func_depthD g = S.func_depthD g) ∧
      (∀ g, S.func_depthD g = 0 → S'.func_depthD g = 0 ∨ 1 ≤ S'.func_depthD g) ∧
      (∀ g, S.func_depthD g ≤ S'.func_depthD g) ∧ (∀ g, 0 ≤ S'.func_depthD g) := by
  have hcap : func ≤ MAX_FUNC := le_of_lt hlim
  obtain ⟨r, S', hcall⟩ := anydepth_total T func h0 hcap fuel id S hid0 hid1
    (by have := whiteCount_le func S; omega)
  have hf := (anydepth_frame T func _ _ _ _ _ hcall).1
  refine ⟨r, S', hcall, fun g hg => ?_, fun g hg => ?_, fun g => ?_, fun g => ?_⟩
  · rcases hf.depth g with a | ⟨a, _, _⟩
    · exact a
    · exact absurd a hg
  · rcases hf.depth g with a | ⟨_, _, a⟩
    · left; rw [a]; exact hg
    · right; exact a
  · rcases hf.depth g with a | ⟨a, _, b⟩
    · rw [a]
    · omega
  · have := hnn g
    rcases hf.depth g with a | ⟨a, _, b⟩ <;> omega

theorem depth_memo_invariant_witness :
    (3 : Int) < MAX_FUNC ∧ bar_done_marks.func_depthD 1 = 1 ∧
    (anydepth_check_func example_tables 3 3 0 bar_done_marks).map
        (fun r => (r.1, r.2.func_depthD 0, r.2.func_depthD 1)) = some (2, 2, 1) ∧
    ∃ r S', anydepth_check_func example_tables 3 3 0 bar_done_marks = some (r, S') ∧
      (∀ g, bar_done_marks.func_depthD g ≠ 0 →
        S'.func_depthD g = bar_done_marks.func_depthD g) ∧
      (∀ g, bar_done_marks.func_depthD g = 0 →
        S'.func_depthD g = 0 ∨ 1 ≤ S'.func_depthD g) ∧
      (∀ g, bar_done_marks.func_depthD g ≤ S'.func_depthD g) ∧
      (∀ g, 0 ≤ S'.func_depthD g) :=
  ⟨by decide, by decide, by decide,
    depth_memo_invariant example_tables 3 bar_done_marks 0 3 (by decide) (by decide)
      (by decide) (by decide) (by decide)
      (fun g => by
        show (0 : Int) ≤ if g = 1 then 1 else 0
        split <;> decide)⟩

/-- C19. On-stack balance: for every state of the tables and every `id` with
`0 ≤ id < func` (where `func < MAX_FUNC`), the call `anydepth_check_func(id, func)` returns with the table
`func_stackD` identical to what it was before the call, also when a callee on the
stack makes the loop break early; so when no function is on the stack before a
top-level call, none is after it. -/
theorem stack_balance (T : Tables) (func : Int) (S : Marks) (id : Int) (fuel : Nat)
    (h0 : 0 ≤ func) (hlim : func < MAX_FUNC) (hid0 : 0 ≤ id) (hid1 : id < func)
    (hfuel : func.toNat ≤ fuel) :
    ∃ r S', anydepth_check_func T func fuel id S = some (r, S') ∧
      S'.func_stackD = S.func_stackD ∧
      ((∀ g, S.func_stackD g = 0) → ∀ g, S'.func_stackD g = 0) := by
  have hcap : func ≤ MAX_FUNC := le_of_lt hlim
  obtain ⟨r, S', hcall⟩ := anydepth_total T func h0 hcap fuel id S hid0 hid1
    (by have := whiteCount_le func S; omega)
  have hf := (anydepth_frame T func _ _ _ _ _ hcall).1
  exact ⟨r, S', hcall, hf.stack, fun hz g => by rw [hf.stack]; exact hz g⟩

theorem stack_balance_witness :
    (2 : Int) < MAX_FUNC ∧
    ∃ r S', anydepth_check_func cycle_tables 2 2 0 Marks.zero = some (r, S') ∧
      S'.func_stackD = Marks.zero.func_stackD ∧
      ((∀ g, Marks.zero.func_stackD g = 0) → ∀ g, S'.func_stackD g = 0) :=
  ⟨by decide, stack_balance cycle_tables 2 Marks.zero 0 2 (by decide) (by decide) (by decide)
    (by decide) (by decide)⟩

/-! ## Soundness of the recursion flag -/

/-- A flag is set only for a function on the stack, and a function on the stack reaches
the function being called; so every flagged function reaches itself. -/
theorem anydepth_flag_sound (T : Tables) (func : Int) (h0 : 0 ≤ func) (hcap : func ≤ MAX_FUNC) :
    ∀ (fuel : Nat) (id : Int) (S : Marks) (r : Int) (S' : Marks),
      0 ≤ id → id < func →
      (∀ g, S.func_stackD g ≠ 0 → Relation.TransGen (Calls T func) g id) →
      (∀ g, S.func_recurseD g ≠ 0 → Relation.TransGen (Calls T func) g g) →
      anydepth_check_func T func fuel id S = some (r, S') →
      (∀ g, S'.func_recurseD g ≠ 0 → Relation.TransGen (Calls T func) g g) := by
  intro fuel
  induction fuel using Nat.strong_induction_on with
  | _ fuel ihs =>
    intro id S r S' hid0 hid1 hst hfl h
    rcases anydepth_cases h with
      ⟨hd, hres⟩ | ⟨hd, hs, hres⟩ | ⟨hd, hs, fuel1, rfl, depth, S2, hloop, hfin⟩
    · obtain ⟨_, h2⟩ := Prod.mk.inj hres
      rw [h2]; exact hfl
    · obtain ⟨_, h2⟩ := Prod.mk.inj hres
      rw [h2]
      intro g hg
      by_cases hgid : g = id
      · subst hgid; exact hst g hs
      · have hg2 : setAt S.func_recurseD id 1 g ≠ 0 := hg
        rw [setAt_other _ _ hgid] at hg2
        exact hfl g hg2
    · have ih := ihs fuel1 (Nat.lt_succ_self fuel1)
      have hQ := anydepth_loop_rule
        (fun _ _ Sc =>
          Sc.func_stackD = setAt S.func_stackD id (S.func_stackD id + 1) ∧
          (∀ g, Sc.func_recurseD g ≠ 0 → Relation.TransGen (Calls T func) g g))
        (fun p => ∀ g, p.2.func_recurseD g ≠ 0 → Relation.TransGen (Calls T func) g g)
        (func_cc T id).toNat 0
        (fun it d Sc c _ _ hI _ _ => hI)
        (fun it d Sc c r1 Sc1 hit0 hit1 hI hfa hc hdesc => by
          obtain ⟨i1, i2⟩ := hI
          have hc1 := func_addr_range h0 hcap hfa
          have hcall : Calls T func id c := ⟨hid0, hid1, hc, it, hit0, by omega, hfa⟩
          have hf := (anydepth_frame T func _ _ _ _ _ hdesc).1
          have hstk : ∀ g, Sc.func_stackD g ≠ 0 → Relation.TransGen (Calls T func) g c := by
            intro g hg
            rw [i1] at hg
            by_cases hgid : g = id
            · subst hgid; exact Relation.TransGen.single hcall
            · rw [setAt_other _ _ hgid] at hg
              exact Relation.TransGen.tail (hst g hg) hcall
          have j := ih c Sc r1 Sc1 hc hc1 hstk i2 hdesc
          exact ⟨fun _ => j, fun _ => ⟨hf.stack.trans i1, j⟩⟩)
        (fun d Sc hI => hI.2)
        1 { S with func_stackD := setAt S.func_stackD id (S.func_stackD id + 1) }
        (depth, S2) ⟨rfl, hfl⟩ hloop
      dsimp only at hQ
      rcases hfin with ⟨_, hres⟩ | ⟨_, hres⟩
      · obtain ⟨_, h2⟩ := Prod.mk.inj hres
        rw [h2]; exact hQ
      · obtain ⟨_, h2⟩ := Prod.mk.inj hres
        rw [h2]; exact hQ

theorem top_level_calls_flags_kept (T : Tables) (func : Int) :
    ∀ (ids : List Int) (S S2 : Marks), top_level_calls T func ids S = some S2 →
      ∀ f, S.func_recurseD f ≠ 0 → S2.func_recurseD f ≠ 0 := by
  intro ids
  induction ids with
  | nil =>
    intro S S2 h f hf
    simp only [top_level_calls, Option.some.injEq] at h
    rw [← h]; exact hf
  | cons id rest ih =>
    intro S S2 h f hf
    unfold top_level_calls at h
    cases hc : anydepth_check_func T func (depth_fuel func) id S with
    | none => simp [hc] at h
    | some p =>
      obtain ⟨r, S1⟩ := p
      simp only [hc] at h
      have hfr := (anydepth_frame T func _ _ _ _ _ hc).1
      refine ih S1 S2 h f ?_
      rcases hfr.recurse f with a | a
      · rw [a]; exact hf
      · rw [a]; decide

theorem top_level_calls_sound (T : Tables) (func : Int) (h0 : 0 ≤ func) (hcap : func ≤ MAX_FUNC) :
    ∀ (ids : List Int) (S : Marks), (∀ id ∈ ids, 0 ≤ id ∧ id < func) →
      (∀ g, S.func_stackD g = 0) →
      (∀ g, S.func_recurseD g ≠ 0 → Relation.TransGen (Calls T func) g g) →
      ∃ S2, top_level_calls T func ids S = some S2 ∧ (∀ g, S2.func_stackD g = 0) ∧
        (∀ g, S2.func_recurseD g ≠ 0 → Relation.TransGen (Calls T func) g g) := by
  intro ids
  induction ids with
  | nil => intro S _ hs hf; exact ⟨S, rfl, hs, hf⟩
  | cons id rest ih =>
    intro S hids hs hf
    have hid := hids id (List.mem_cons_self _ _)
    obtain ⟨r, S1, hc⟩ := anydepth_returns T func h0 hcap id S hid.1 hid.2
    have hf1 := anydepth_flag_sound T func h0 hcap _ id S r S1 hid.1 hid.2
      (fun g hg => absurd (hs g) hg) hf hc
    have hfr := (anydepth_frame T func _ _ _ _ _ hc).1
    obtain ⟨S2, hrun, hs2, hf2⟩ := ih S1
      (fun i hi => hids i (List.mem_cons_of_mem _ hi))
      (fun g => by rw [hfr.stack]; exact hs g) hf1
    refine ⟨S2, ?_, hs2, hf2⟩
    unfold top_level_calls
    simp only [hc]
    exact hrun

/-- Soundness of the recursion flag for the edges as the code resolves them (`Calls`:
`func_addr` on the edge cut to `int`): starting from a state with every recursion flag
clear and every stack counter 0, after any sequence of top-level calls
`anydepth_check_func(id, func)` (`0 ≤ id < func`) the calls have returned and a
function `f` has `func_recurseD[f]` set only if `f` is reachable from itself through
one or more resolved call edges; hence on an acyclic resolved-call graph no function
is ever flagged; and a flag that is set stays set through any further calls. -/
theorem recursion_flag_sound (T : Tables) (func : Int) (h0 : 0 ≤ func) (hcap : func ≤ MAX_FUNC)
    (S0 : Marks) (hflag : ∀ g, S0.func_recurseD g = 0) (hstk : ∀ g, S0.func_stackD g = 0)
    (ids : List Int) (hids : ∀ id ∈ ids, 0 ≤ id ∧ id < func) :
    ∃ S, top_level_calls T func ids S0 = some S ∧
      (∀ f, S.func_recurseD f ≠ 0 → Relation.TransGen (Calls T func) f f) ∧
      (Acyclic T func → ∀ f, S.func_recurseD f = 0) ∧
      (∀ more S2, top_level_calls T func more S = some S2 →
        ∀ f, S.func_recurseD f ≠ 0 → S2.func_recurseD f ≠ 0) := by
  obtain ⟨S, hrun, _, hsound⟩ := top_level_calls_sound T func h0 hcap ids S0 hids hstk
    (fun g hg => absurd (hflag g) hg)
  refine ⟨S, hrun, hsound, fun hac f => ?_, fun more S2 h => ?_⟩
  · by_contra hne
    exact hac f (hsound f hne)
  · exact top_level_calls_flags_kept T func more S S2 h

theorem recursion_flag_sound_witness :
    ∃ S, top_level_calls cycle_tables 2 [0, 1, 0] Marks.zero = some S ∧
      (∀ f, S.func_recurseD f ≠ 0 → Relation.TransGen (Calls cycle_tables 2) f f) ∧
      (Acyclic cycle_tables 2 → ∀ f, S.func_recurseD f = 0) ∧
      (∀ more S2, top_level_calls cycle_tables 2 more S = some S2 →
        ∀ f, S.func_recurseD f ≠ 0 → S2.func_recurseD f ≠ 0) :=
  recursion_flag_sound cycle_tables 2 (by decide) (by decide) Marks.zero (fun _ => rfl)
    (fun _ => rfl) [0, 1, 0] (by decide)

/-! ## After the normalizer only function 0 can call itself -/

theorem rm_selfcall_spec_entry_address (T : Tables) (func : Int) (h0 : 0 ≤ func)
    (hcap : func ≤ MAX_FUNC) (hs : StrictInc T func)
    (hlt : ∀ i, 0 ≤ i → i < func → (T.func_addrD i : Int) < 2 ^ 31) (hpos : 0 < func) :
    func_addr (rm_selfcall_spec T func) func (int32 (int64 (T.func_addrD 0))) = some 0 := by
  have ha0 := hlt 0 (le_refl 0) hpos
  rw [func_addr_congr (rm_selfcall_spec T func) T rfl func, int64_of_range (by omega) (by omega)]
  exact func_addr_own T func h0 hcap hs hlt 0 (le_refl 0) hpos

theorem rm_selfcall_spec_no_selfcall (T : Tables) (func : Int) (h0 : 0 ≤ func)
    (hcap : func ≤ MAX_FUNC) (hs : StrictInc T func)
    (hlt : ∀ i, 0 ≤ i → i < func → (T.func_addrD i : Int) < 2 ^ 31)
    (f : Int) (hf0 : 1 ≤ f) (hf1 : f < func) :
    NoSelfCall (rm_selfcall_spec T func) func f := by
  intro jt hj0 hj1 hfa
  have hj1' : jt < func_cc T f := hj1
  obtain ⟨c, hc, _, _⟩ := func_addr_total T func (int32 (T.call_addrD f jt)) h0 hcap
  by_cases hcf : c = f
  · have hcell : (rm_selfcall_spec T func).call_addrD f jt = int64 (T.func_addrD 0) := by
      show (if _ then _ else _) = _
      rw [if_pos ⟨by omega, hf1, hj0, hj1', by rw [hc, hcf]⟩]
    rw [hcell, rm_selfcall_spec_entry_address T func h0 hcap hs hlt (by omega)] at hfa
    have := Option.some.inj hfa
    omega
  · rw [rm_selfcall_spec_call_other T func f jt c hc hcf,
      func_addr_congr (rm_selfcall_spec T func) T rfl func, hc] at hfa
    exact hcf (Option.some.inj hfa)

theorem rm_selfcall_spec_entry_no_selfcall (T : Tables) (func : Int) (h0 : 0 ≤ func)
    (hcap : func ≤ MAX_FUNC) (hentry : NoSelfCall T func 0) :
    NoSelfCall (rm_selfcall_spec T func) func 0 := by
  intro jt hj0 hj1
  have hj1' : jt < func_cc T 0 := hj1
  obtain ⟨c, hc, _, _⟩ := func_addr_total T func (int32 (T.call_addrD 0 jt)) h0 hcap
  have hc0 : c ≠ 0 := by
    intro e; rw [e] at hc; exact hentry jt hj0 hj1' hc
  rw [rm_selfcall_spec_call_other T func 0 jt c hc hc0,
    func_addr_congr (rm_selfcall_spec T func) T rfl func]
  exact hentry jt hj0 hj1'

theorem rm_selfcall_spec_entry_selfcall (T : Tables) (func : Int) (h0 : 0 ≤ func)
    (hcap : func ≤ MAX_FUNC) (hs : StrictInc T func)
    (hlt : ∀ i, 0 ≤ i → i < func → (T.func_addrD i : Int) < 2 ^ 31) (hpos : 0 < func)
    (hself : ∃ jt, 0 ≤ jt ∧ jt < func_cc T 0 ∧
      func_addr T func (int32 (T.call_addrD 0 jt)) = some 0) :
    Calls (rm_selfcall_spec T func) func 0 0 := by
  obtain ⟨jt, hj0, hj1, hj2⟩ := hself
  refine ⟨le_refl 0, hpos, le_refl 0, jt, hj0, hj1, ?_⟩
  have hcell : (rm_selfcall_spec T func).call_addrD 0 jt = int64 (T.func_addrD 0) := by
    show (if _ then _ else _) = _
    rw [if_pos ⟨le_refl 0, hpos, hj0, hj1, hj2⟩]
  rw [hcell]
  exact rm_selfcall_spec_entry_address T func h0 hcap hs hlt hpos

/-- A top-level call of a function that calls itself flags the function: the loop can
only stop early at a callee that is on the stack, and only the function itself is. -/
theorem anydepth_top_selfcall_flag (T : Tables) (func : Int) (h0 : 0 ≤ func)
    (hcap : func ≤ MAX_FUNC) (g : Int) (hg : Calls T func g g)
    (fuel : Nat) (S : Marks) (r : Int) (S' : Marks)
    (hstk : ∀ x, S.func_stackD x = 0) (hB : DepthBound func S.func_depthD)
    (hd : S.func_depthD g = 0)
    (h : anydepth_check_func T func fuel g S = some (r, S')) :
    S'.func_recurseD g = 1 := by
  have hcap2 : func ≤ 8192 := by simpa [MAX_FUNC] using hcap
  obtain ⟨_, _, hg0, j0, hj0, hj1, hfg⟩ := hg
  rcases anydepth_cases h with
    ⟨hd1, _⟩ | ⟨_, hs, _⟩ | ⟨_, hs, fuel1, _, depth, S2, hloop, hfin⟩
  · exact absurd hd hd1
  · exact absurd (hstk g) hs
  · have hQ := anydepth_loop_rule
      (fun it _ Sc =>
        Frame { S with func_stackD := setAt S.func_stackD g (S.func_stackD g + 1) } Sc ∧
        DepthBound func Sc.func_depthD ∧ (it ≤ j0 ∨ Sc.func_recurseD g = 1))
      (fun p => p.2.func_recurseD g = 1)
      (func_cc T g).toNat 0
      (fun it d Sc c hit0 hit1 hI hfa hc => by
        refine ⟨hI.1, hI.2.1, ?_⟩
        rcases hI.2.2 with a | a
        · by_cases e : it = j0
          · subst e; rw [hfg] at hfa; cases hfa; omega
          · left; omega
        · exact Or.inr a)
      (fun it d Sc c r1 Sc1 hit0 hit1 hI hfa hc hdesc => by
        obtain ⟨i1, i2, i3⟩ := hI
        have hc1 := func_addr_range h0 hcap hfa
        obtain ⟨hf, hret⟩ := anydepth_frame T func _ _ _ _ _ hdesc
        obtain ⟨hB1, hr1, hr2⟩ := anydepth_bound T func h0 hcap _ c Sc r1 Sc1 hc hc1 i2 hdesc
        have hnz := nzCount_le func Sc1.func_depthD
        have hsg : Sc.func_stackD g ≠ 0 := by
          rw [i1.stack]
          show setAt S.func_stackD g (S.func_stackD g + 1) g ≠ 0
          rw [setAt_same, hstk g]; decide
        have hdg : Sc.func_depthD g = 0 := by
          rcases i1.depth g with a | ⟨_, a, _⟩
          · rw [a]; exact hd
          · simp only [setAt_same] at a; have := hstk g; omega
        have hkeep : Sc.func_recurseD g = 1 → Sc1.func_recurseD g = 1 := by
          intro a
          rcases hf.recurse g with b | b
          · rw [b]; exact a
          · exact b
        have hw : int32 (1 + r1) = 1 + r1 := int32_of_range (by omega) (by omega)
        rw [hw]
        constructor
        · intro hz
          have hr : r1 = -1 := by omega
          rcases hret with ⟨_, a, _⟩ | ⟨_, a, _, b⟩ | ⟨_, _, a⟩
          · have := (i2 c).1; omega
          · have hcg : c = g := by
              by_contra hne
              rw [i1.stack] at a
              simp only [setAt_other _ _ hne] at a
              exact a (hstk c)
            rw [b, hcg]
            exact setAt_same _ _ _
          · rcases a with ⟨a, _⟩ | ⟨a, _⟩ <;> omega
        · intro hz
          refine ⟨i1.trans hf, hB1, ?_⟩
          rcases i3 with a | a
          · by_cases e : it = j0
            · subst e
              rw [hfg] at hfa; cases hfa
              rcases hret with ⟨a1, _, _⟩ | ⟨_, _, a2, _⟩ | ⟨_, a3, _⟩
              · exact absurd hdg a1
              · omega
              · exact absurd a3 hsg
            · left; omega
          · exact Or.inr (hkeep a))
      (fun d Sc hI => by
        rcases hI.2.2 with a | a
        · omega
        · exact a)
      1 { S with func_stackD := setAt S.func_stackD g (S.func_stackD g + 1) }
      (depth, S2) ⟨Frame.refl _, hB, Or.inl hj0⟩ hloop
    dsimp only at hQ
    rcases hfin with ⟨_, hres⟩ | ⟨_, hres⟩
    · obtain ⟨_, h2⟩ := Prod.mk.inj hres
      rw [h2]; exact hQ
    · obtain ⟨_, h2⟩ := Prod.mk.inj hres
      rw [h2]; exact hQ

/-! ## Which functions end the full pass with depth 0 -/

/-- The full pass on tables in which no function other than function 0 calls itself:
every function from index 1 on is memoized; function 0 is memoized when it does not
call itself, and keeps depth 0 and is flagged when it does. -/
theorem depth_pass_zero_depth (T : Tables) (func : Int) (h0 : 0 ≤ func) (hcap : func ≤ MAX_FUNC)
    (hno : ∀ f, 1 ≤ f → f < func → NoSelfCall T func f) :
    ∃ hi S, depth_pass T func Marks.zero = some (hi, S) ∧
      (∀ f, 1 ≤ f → f < func → 1 ≤ S.func_depthD f) ∧
      (0 < func → NoSelfCall T func 0 → 1 ≤ S.func_depthD 0) ∧
      (Calls T func 0 0 → S.func_depthD 0 = 0 ∧ S.func_recurseD 0 = 1) := by
  obtain ⟨hi, S, hpass, hP⟩ := depth_pass_loop_rule T func
    (fun it S =>
      DepthBound func S.func_depthD ∧ (∀ g, S.func_stackD g = 0) ∧
      (∀ g, 1 ≤ g → g < it → S.func_depthD g ≠ 0) ∧
      (NoSelfCall T func 0 → 0 < it → S.func_depthD 0 ≠ 0) ∧
      (Calls T func 0 0 → S.func_depthD 0 = 0 ∧ (0 < it → S.func_recurseD 0 = 1)))
    func.toNat 0
    (fun it S hit0 hit1 hP => by
      obtain ⟨p1, p2, p3, p4, p5⟩ := hP
      have hit2 : it < func := by omega
      obtain ⟨r, S1, hcall⟩ := anydepth_returns T func h0 hcap it S hit0 hit2
      obtain ⟨hB1, _, _⟩ := anydepth_bound T func h0 hcap _ it S r S1 hit0 hit2 p1 hcall
      have hf := (anydepth_frame T func _ _ _ _ _ hcall).1
      have hkeep : ∀ g, S.func_depthD g ≠ 0 → S1.func_depthD g ≠ 0 := by
        intro g hg
        rcases hf.depth g with a | ⟨a, _, _⟩
        · rw [a]; exact hg
        · exact absurd a hg
      refine ⟨r, S1, hcall, hB1, fun g => by rw [hf.stack]; exact p2 g, ?_, ?_, ?_⟩
      · intro g hg0 hg1
        by_cases hg : g = it
        · subst hg
          exact anydepth_top_nonzero T func h0 hcap _ g S r S1 p2 p1 (hno g hg0 hit2) hcall
        · exact hkeep g (p3 g hg0 (by omega))
      · intro hns _
        by_cases h : it = 0
        · subst h
          exact anydepth_top_nonzero T func h0 hcap _ 0 S r S1 p2 p1 hns hcall
        · exact hkeep 0 (p4 hns (by omega))
      · intro hself
        obtain ⟨q1, q2⟩ := p5 hself
        refine ⟨anydepth_selfcall_unwritten T func 0 hself _ it S r S1 q1 hcall, fun _ => ?_⟩
        by_cases h : it = 0
        · subst h
          exact anydepth_top_selfcall_flag T func h0 hcap 0 hself _ S r S1 p2 p1 q1 hcall
        · rcases hf.recurse 0 with a | a
          · rw [a]; exact q2 (by omega)
          · exact a)
    0 Marks.zero
    ⟨DepthBound_zero func, fun _ => rfl, fun g h1 h2 => by omega, fun _ h => by omega,
      fun _ => ⟨rfl, fun h => by omega⟩⟩
  obtain ⟨p1, _, p3, p4, p5⟩ := hP
  refine ⟨hi, S, hpass, fun f hf0 hf1 => ?_, fun hpos hns => ?_, fun hself => ?_⟩
  · have := p3 f hf0 (by omega)
    have := (p1 f).1
    omega
  · have := p4 hns (by omega)
    have := (p1 0).1
    omega
  · obtain ⟨q1, q2⟩ := p5 hself
    obtain ⟨_, hpos, _⟩ := hself
    exact ⟨q1, q2 (by omega)⟩

/-- C20. Exact characterisation of unresolved depth: for every table with strictly
increasing addresses below 2^31 (and `0 ≤ func < MAX_FUNC`, so that the closing entry
`func_ccD[func]` lies inside the table), the self-call normalizer followed by a full depth pass
in ascending index order returns, and afterwards every function with index at least 1
has `func_depthD >= 1`, and function 0 has `func_depthD == 0` if and only if one of its
recorded call edges resolves to function 0 itself, in which case function 0 is also
flagged recursive. -/
theorem zero_depth_characterisation (T : Tables) (func : Int) (h0 : 0 ≤ func)
    (hlim : func < MAX_FUNC) (hs : StrictInc T func)
    (hlt : ∀ i, 0 ≤ i → i < func → (T.func_addrD i : Int) < 2 ^ 31) :
    ∃ T1 hi S, normalize_then_depth_pass T func = some (T1, hi, S) ∧
      (∀ f, 1 ≤ f → f < func → 1 ≤ S.func_depthD f) ∧
      (0 < func →
        (S.func_depthD 0 = 0 ↔
          ∃ jt, 0 ≤ jt ∧ jt < func_cc T 0 ∧
            func_addr T func (int32 (T.call_addrD 0 jt)) = some 0) ∧
        ((∃ jt, 0 ≤ jt ∧ jt < func_cc T 0 ∧
            func_addr T func (int32 (T.call_addrD 0 jt)) = some 0) →
          S.func_recurseD 0 = 1)) := by
  have hcap : func ≤ MAX_FUNC := le_of_lt hlim
  obtain ⟨hi, S, hpass, hge, hentry, hself⟩ :=
    depth_pass_zero_depth (rm_selfcall_spec T func) func h0 hcap
      (fun f hf0 hf1 => rm_selfcall_spec_no_selfcall T func h0 hcap hs hlt f hf0 hf1)
  refine ⟨rm_selfcall_spec T func, hi, S, ?_, hge, fun hpos => ⟨⟨fun hz => ?_, fun hex => ?_⟩,
    fun hex => ?_⟩⟩
  · unfold normalize_then_depth_pass
    rw [rm_selfcall_eq T func h0 hcap]
    simp only [hpass, Option.map_some']
  · by_contra hne
    have hns : NoSelfCall T func 0 := by
      intro jt hj0 hj1 hfa
      exact hne ⟨jt, hj0, hj1, hfa⟩
    have := hentry hpos (rm_selfcall_spec_entry_no_selfcall T func h0 hcap hns)
    omega
  · exact (hself (rm_selfcall_spec_entry_selfcall T func h0 hcap hs hlt hpos hex)).1
  · exact (hself (rm_selfcall_spec_entry_selfcall T func h0 hcap hs hlt hpos hex)).2

theorem recursive_entry_strictInc : StrictInc recursive_entry_tables 2 := by
  intro i j h0 h1 h2
  have hi : i = 0 := by omega
  have hj : j = 1 := by omega
  subst hi; subst hj
  decide

theorem recursive_entry_below : ∀ i : Int, 0 ≤ i → i < 2 →
    (recursive_entry_tables.func_addrD i : Int) < 2 ^ 31 := by
  intro i h0 h1
  have hi : i = 0 ∨ i = 1 := by omega
  rcases hi with rfl | rfl <;> decide

theorem zero_depth_characterisation_witness :
    (2 : Int) < MAX_FUNC ∧
    (0 ≤ (0 : Int) ∧ (0 : Int) < func_cc recursive_entry_tables 0 ∧
      func_addr recursive_entry_tables 2 (int32 (recursive_entry_tables.call_addrD 0 0)) =
        some 0) ∧
    ∃ T1 hi S, normalize_then_depth_pass recursive_entry_tables 2 = some (T1, hi, S) ∧
      (∀ f, 1 ≤ f → f < 2 → 1 ≤ S.func_depthD f) ∧
      ((0 : Int) < 2 →
        (S.func_depthD 0 = 0 ↔
          ∃ jt, 0 ≤ jt ∧ jt < func_cc recursive_entry_tables 0 ∧
            func_addr recursive_entry_tables 2
              (int32 (recursive_entry_tables.call_addrD 0 jt)) = some 0) ∧
        ((∃ jt, 0 ≤ jt ∧ jt < func_cc recursive_entry_tables 0 ∧
            func_addr recursive_entry_tables 2
              (int32 (recursive_entry_tables.call_addrD 0 jt)) = some 0) →
          S.func_recurseD 0 = 1)) :=
  ⟨by decide, by decide,
    zero_depth_characterisation recursive_entry_tables 2 (by decide) (by decide)
      recursive_entry_strictInc recursive_entry_below⟩

/-! ## Functions left at depth 0 although they have a way out -/

/-- C16 at its failing input: function 0 at 0x10 calls itself and function 1 at 0x20,
which calls nothing and so cannot reach function 0. Function 0 has a non-cyclic exit,
yet after the normalizer and the full depth pass `func_depthD[0]` is 0 (function 1
ends with depth 1). -/
theorem recursive_entry_depth_zero :
    StrictInc recursive_entry_tables 2 ∧
    (∀ T1, rm_selfcall recursive_entry_tables 2 = some T1 →
      Calls T1 2 0 1 ∧ ¬ Relation.TransGen (Calls T1 2) 1 0) ∧
    (normalize_then_depth_pass recursive_entry_tables 2).map
        (fun r => (r.2.2.func_depthD 0, r.2.2.func_depthD 1))
      = some (0, 1) := by
  refine ⟨?_, ?_, by decide⟩
  · intro i j h0 h1 h2
    have hi : i = 0 := by omega
    have hj : j = 1 := by omega
    subst hi; subst hj
    decide
  · intro T1 h
    rw [rm_selfcall_eq recursive_entry_tables 2 (by decide) (by decide)] at h
    cases h
    refine ⟨⟨by decide, by decide, by decide, 1, by decide, by decide, by decide⟩, ?_⟩
    intro hreach
    obtain ⟨b, hb, _⟩ := Relation.TransGen.head'_iff.mp hreach
    obtain ⟨_, _, _, jt, hj0, hj1, _⟩ := hb
    have hcc : func_cc (rm_selfcall_spec recursive_entry_tables 2) 1 = 0 := by decide
    omega

/-- C17 at its failing input: functions 0 and 1 call each other. After the normalizer
and the single traversal `anydepth_check_func(0, func)` from the all-zero state,
function 1 is reachable from the seed 0 (function 0 calls it) but has
`func_depthD[1] == 0`, so the unused report prints function 1 and counts 1 unused
function. -/
theorem seeded_cycle_unused :
    StrictInc cycle_tables 2 ∧
    (∀ T1, rm_selfcall cycle_tables 2 = some T1 → Calls T1 2 0 1) ∧
    (seeded_traversal cycle_tables 2 0).map
        (fun r => (r.2.2.func_depthD 0, r.2.2.func_depthD 1, list_unused r.2.2 2))
      = some (1, 0, [1], 1) := by
  refine ⟨?_, ?_, by decide⟩
  · intro i j h0 h1 h2
    have hi : i = 0 := by omega
    have hj : j = 1 := by omega
    subst hi; subst hj
    decide
  · intro T1 h
    rw [rm_selfcall_eq cycle_tables 2 (by decide) (by decide)] at h
    cases h
    exact ⟨by decide, by decide, by decide, 0, by decide, by decide, by decide⟩


/-! ## The name store -/

theorem func_name_loop_spec (id : Int) (name : Int → Int) :
    ∀ (n : Nat) (it : Int) (F : Int → Int → Int),
      it ≤ (func_name_loop id name n it F).1 ∧
      (func_name_loop id name n it F).1 ≤ it + n ∧
      (∀ k, it ≤ k → k < (func_name_loop id name n it F).1 →
        (func_name_loop id name n it F).2 id k = name k ∧ name k ≠ 62) ∧
      (∀ i k, ¬ (i = id ∧ it ≤ k ∧ k < (func_name_loop id name n it F).1) →
        (func_name_loop id name n it F).2 i k = F i k) ∧
      ((func_name_loop id name n it F).1 = it + n ∨
        name (func_name_loop id name n it F).1 = 62) := by
  intro n
  induction n with
  | zero =>
    intro it F
    simp only [func_name_loop]
    refine ⟨le_refl _, by simp, ?_, ?_, Or.inl (by simp)⟩
    · intro k h1 h2; omega
    · intro i k _; trivial
  | succ n ih =>
    intro it F
    by_cases hgt : name it = 62
    · simp only [func_name_loop, if_pos hgt]
      refine ⟨le_refl _, by omega, ?_, ?_, Or.inr hgt⟩
      · intro k h1 h2; omega
      · intro i k _; trivial
    · simp only [func_name_loop, if_neg hgt]
      obtain ⟨h1, h2, h3, h4, h5⟩ := ih (it + 1) (setAt2 F id it (name it))
      refine ⟨by omega, by push_cast; omega, ?_, ?_, ?_⟩
      · intro k hk1 hk2
        by_cases hk : k = it
        · subst hk
          refine ⟨?_, hgt⟩
          rw [h4 id k (by omega)]
          simp [setAt2]
        · exact h3 k (by omega) hk2
      · intro i k hik
        rw [h4 i k (by intro hh; exact hik ⟨hh.1, by omega, hh.2.2⟩)]
        simp only [setAt2]
        rw [if_neg]
        intro hh
        apply hik
        refine ⟨hh.1, by omega, ?_⟩
        omega
      · rcases h5 with h5 | h5
        · left; push_cast; omega
        · right; exact h5

/-- Every byte of the C string read from a row lies before the first zero byte of
the row. -/
theorem cstring_mem (row : Int → Int) :
    ∀ (n : Nat) (k0 c : Int), c ∈ cstring row n k0 →
      ∃ k, k0 ≤ k ∧ c = row k ∧ ∀ j, k0 ≤ j → j ≤ k → row j ≠ 0 := by
  intro n
  induction n with
  | zero => intro k0 c h; simp [cstring] at h
  | succ n ih =>
    intro k0 c h
    by_cases hz : row k0 = 0
    · simp [cstring, hz] at h
    · simp only [cstring, if_neg hz, List.mem_cons] at h
      rcases h with h | h
      · exact ⟨k0, le_refl _, h, fun j h1 h2 => by
          have : j = k0 := by omega
          rw [this]; exact hz⟩
      · obtain ⟨k, hk1, hk2, hk3⟩ := ih (k0 + 1) c h
        refine ⟨k, by omega, hk2, ?_⟩
        intro j h1 h2
        by_cases hj : j = k0
        · rw [hj]; exact hz
        · exact hk3 j (by omega) h2

theorem func_name_spec (T : Tables) (id : Int) (name : Int → Int) :
    0 ≤ (func_name T id name).1 ∧ (func_name T id name).1 ≤ MAX_NAME - 1 ∧
    (∀ k, 0 ≤ k → k < (func_name T id name).1 →
      (func_name T id name).2.funcD id k = name k ∧ name k ≠ 62) ∧
    (func_name T id name).2.funcD id (func_name T id name).1 = 0 ∧
    ((func_name T id name).1 = MAX_NAME - 1 ∨ name (func_name T id name).1 = 62) ∧
    (∀ i k, ¬ (i = id ∧ 0 ≤ k ∧ k ≤ (func_name T id name).1) →
      (func_name T id name).2.funcD i k = T.funcD i k) ∧
    (∀ c, c ∈ func_name_of (func_name T id name).2 id → c ≠ 62) := by
  obtain ⟨h1, h2, h3, h4, h5⟩ := func_name_loop_spec id name (MAX_NAME - 1).toNat 0 T.funcD
  have hM : ((MAX_NAME - 1).toNat : Int) = MAX_NAME - 1 := by decide
  rw [hM] at h2 h5
  have hrow : ∀ k, 0 ≤ k → k < (func_name T id name).1 →
      (func_name T id name).2.funcD id k = name k ∧ name k ≠ 62 := by
    intro k hk1 hk2
    obtain ⟨ha, hb⟩ := h3 k hk1 hk2
    refine ⟨?_, hb⟩
    show setAt2 _ id _ 0 id k = name k
    simp only [setAt2]
    rw [if_neg (by intro hh; exact absurd hh.2 (ne_of_lt hk2))]
    exact ha
  have hend : (func_name T id name).2.funcD id (func_name T id name).1 = 0 := by
    show (if id = id ∧ _ = _ then (0 : Int) else _) = 0
    rw [if_pos ⟨rfl, rfl⟩]
  refine ⟨h1, by simpa using h2, hrow, hend, by simpa using h5, ?_, ?_⟩
  · intro i k hik
    show setAt2 _ id _ 0 i k = T.funcD i k
    simp only [setAt2]
    rw [if_neg (by
      intro hh
      apply hik
      refine ⟨hh.1, ?_, le_of_eq hh.2⟩
      rw [hh.2]; exact h1)]
    apply h4
    intro hh
    exact hik ⟨hh.1, hh.2.1, le_of_lt hh.2.2⟩
  · intro c hc
    obtain ⟨k, hk1, hk2, hk3⟩ := cstring_mem _ _ _ _ hc
    have hlt : k < (func_name T id name).1 := by
      by_contra hge
      exact hk3 (func_name T id name).1 h1 (by omega) hend
    rw [hk2, (hrow k hk1 hlt).1]
    exact (hrow k hk1 hlt).2

/-- C14. For every function id and source text, `func_name` returns a length
between 0 and 63, stores at the positions below it the bytes of the source, none of
which is the delimiter `>`, stores a zero byte at that length, and the length is 63
or the source holds `>` there (so the prefix stored is the longest one); no other
byte of the name rows changes, and the name read back as a C string has no `>`. -/
theorem func_name_longest_prefix (T : Tables) (id : Int) (name : Int → Int) :
    0 ≤ (func_name T id name).1 ∧ (func_name T id name).1 ≤ 63 ∧
    (∀ k, 0 ≤ k → k < (func_name T id name).1 →
      (func_name T id name).2.funcD id k = name k ∧ name k ≠ 62) ∧
    (func_name T id name).2.funcD id (func_name T id name).1 = 0 ∧
    ((func_name T id name).1 = 63 ∨ name (func_name T id name).1 = 62) ∧
    (∀ i k, ¬ (i = id ∧ 0 ≤ k ∧ k ≤ (func_name T id name).1) →
      (func_name T id name).2.funcD i k = T.funcD i k) ∧
    (∀ c, c ∈ func_name_of (func_name T id name).2 id → c ≠ 62) :=
  func_name_spec T id name

/-! ## The scan as a fold over the lines -/

theorem next_line_length : ∀ (l e : List Int), next_line l = some e → e.length < l.length := by
  intro l
  induction l with
  | nil => intro e h; simp [next_line] at h
  | cons c rest ih =>
    intro e h
    simp only [next_line] at h
    by_cases h10 : c = 10
    · rw [if_pos h10] at h
      have : rest = e := Option.some.inj h
      rw [← this]; simp
    · rw [if_neg h10] at h
      by_cases h0 : c = 0
      · rw [if_pos h0] at h; exact absurd h (by simp)
      · rw [if_neg h0] at h
        have := ih e h
        simp only [List.length_cons]; omega

/-- With fuel above the number of bytes left, the loop returns, and its result is the
fold of its body over the line starts. -/
theorem scan_loop_eq (strtoull : List Int → Nat) :
    ∀ (fuel : Nat) (it : Option (List Int)) (s : Scan),
      (match it with | none => 0 | some l => l.length + 1) < fuel →
      scan_loop strtoull fuel it s = some (scan_lines strtoull (line_starts_from fuel it) s) := by
  intro fuel
  induction fuel with
  | zero => intro it s h; omega
  | succ fuel ih =>
    intro it s h
    cases it with
    | none => rfl
    | some iter =>
      simp only [scan_loop, line_starts_from, scan_lines, List.foldl_cons]
      have hm : (match next_line iter with | none => 0 | some l => l.length + 1) < fuel := by
        cases hn : next_line iter with
        | none => simp only []; simp only [] at h; omega
        | some e =>
          have := next_line_length iter e hn
          have h2 : iter.length + 1 < fuel + 1 := h
          show e.length + 1 < fuel
          omega
      exact ih (next_line iter) (scan_line strtoull iter s) hm

theorem line_starts_from_stable :
    ∀ (fuel fuel1 : Nat) (it : Option (List Int)),
      (match it with | none => 0 | some l => l.length + 1) < fuel →
      (match it with | none => 0 | some l => l.length + 1) < fuel1 →
      line_starts_from fuel it = line_starts_from fuel1 it := by
  intro fuel
  induction fuel with
  | zero => intro fuel1 it h; omega
  | succ fuel ih =>
    intro fuel1 it h h1
    cases fuel1 with
    | zero => omega
    | succ fuel1 =>
      cases it with
      | none => rfl
      | some iter =>
        simp only [line_starts_from]
        have hm : ∀ f : Nat, iter.length + 1 < f + 1 →
            (match next_line iter with | none => 0 | some l => l.length + 1) < f := by
          intro f hf
          cases hn : next_line iter with
          | none => simp only []; omega
          | some e =>
            have := next_line_length iter e hn
            show e.length + 1 < f
            omega
        rw [ih fuel1 (next_line iter) (hm fuel h) (hm fuel1 h1)]

theorem line_starts_cons (text : List Int) :
    line_starts text =
      text :: (match next_line text with | none => [] | some e => line_starts e) := by
  have h3 : ∀ (fuel : Nat) (iter : List Int), line_starts_from (fuel + 1) (some iter) =
      iter :: line_starts_from fuel (next_line iter) := fun _ _ => rfl
  unfold line_starts
  rw [h3]
  cases hn : next_line text with
  | none => rfl
  | some e =>
    have := next_line_length text e hn
    show text :: line_starts_from (text.length + 1) (some e) =
      text :: line_starts_from (e.length + 2) (some e)
    rw [line_starts_from_stable (text.length + 1) (e.length + 2) (some e)
      (by show e.length + 1 < text.length + 1; omega)
      (by show e.length + 1 < e.length + 2; omega)]

theorem build_tables_eq (strtoull : List Int → Nat) (text : List Int) :
    build_tables strtoull text =
      some (close_tables (scan_lines strtoull (line_starts text) Scan.init)) := by
  unfold build_tables line_starts
  rw [scan_loop_eq strtoull (text.length + 2) (some text) Scan.init
    (by show text.length + 1 < text.length + 2; omega)]
  rfl

theorem scan_lines_append (strtoull : List Int → Nat) (l1 l2 : List (List Int)) (s : Scan) :
    scan_lines strtoull (l1 ++ l2) s = scan_lines strtoull l2 (scan_lines strtoull l1 s) := by
  simp [scan_lines, List.foldl_append]

theorem scan_lines_cons (strtoull : List Int → Nat) (l : List Int) (ls : List (List Int))
    (s : Scan) :
    scan_lines strtoull (l :: ls) s = scan_lines strtoull ls (scan_line strtoull l s) := rfl

theorem scan_lines_nil (strtoull : List Int → Nat) (s : Scan) :
    scan_lines strtoull [] s = s := rfl

/-! ## One iteration of the scan -/

theorem scan_line_header (strtoull : List Int → Nat) (iter : List Int) (s : Scan)
    (h : is_header iter = true) :
    (scan_line strtoull iter s).func = s.func + 1 ∧
    (scan_line strtoull iter s).call_count = s.call_count ∧
    (scan_line strtoull iter s).line = s.line + 1 ∧
    (scan_line strtoull iter s).T.func_ccD = setAt s.T.func_ccD s.func s.call_count ∧
    (scan_line strtoull iter s).T.call_addrD = s.T.call_addrD ∧
    (scan_line strtoull iter s).T.func_lineD =
      setAtN s.T.func_lineD s.func (uint64 s.line).toNat ∧
    (scan_line strtoull iter s).T.func_addrD =
      setAtN s.T.func_addrD s.func (uint64 (int64 (strtoull iter))).toNat := by
  unfold is_header at h
  unfold scan_line
  rw [if_pos h]
  exact ⟨rfl, rfl, rfl, rfl, rfl, rfl, rfl⟩

theorem scan_line_call (strtoull : List Int → Nat) (iter : List Int) (s : Scan)
    (hh : is_header iter = false) (hc : is_call_line iter = true) :
    scan_line strtoull iter s =
      { s with
        T := if int32 (s.call_count - s.T.func_ccD (s.func - 1)) < MAX_CALL then
            { s.T with call_addrD := (setAt2 s.T.call_addrD (s.func - 1)
                (int32 (s.call_count - s.T.func_ccD (s.func - 1)))
                (call_target strtoull iter)) }
          else s.T,
        line := s.line + 1,
        call_count := if int32 (s.call_count - s.T.func_ccD (s.func - 1)) < MAX_CALL then
          s.call_count + 1 else s.call_count } := by
  unfold is_call_line at hc
  rw [hh] at hc
  unfold is_header at hh
  unfold scan_line
  rw [if_neg (by rw [hh]; simp)]
  simp only [Bool.not_false, Bool.true_and] at hc
  rw [if_pos hc]
  rfl

theorem scan_line_other (strtoull : List Int → Nat) (iter : List Int) (s : Scan)
    (hh : is_header iter = false) (hc : is_call_line iter = false) :
    scan_line strtoull iter s = { s with line := s.line + 1 } := by
  unfold is_call_line at hc
  rw [hh] at hc
  unfold is_header at hh
  unfold scan_line
  rw [if_neg (by rw [hh]; simp)]
  simp only [Bool.not_false, Bool.true_and] at hc
  rw [if_neg (by rw [hc]; simp)]

/-- What one iteration leaves alone: the function count never goes down, the call-range
starts other than the one at `func` stay, and so do the edge rows other than the one of
the last function. -/
theorem scan_line_keep (strtoull : List Int → Nat) (iter : List Int) (s : Scan) :
    s.func ≤ (scan_line strtoull iter s).func ∧
    (∀ j, j ≠ s.func → (scan_line strtoull iter s).T.func_ccD j = s.T.func_ccD j) ∧
    (∀ i x, i ≠ s.func - 1 →
      (scan_line strtoull iter s).T.call_addrD i x = s.T.call_addrD i x) ∧
    (∀ j, j ≠ s.func → (scan_line strtoull iter s).T.func_lineD j = s.T.func_lineD j) := by
  cases hh : is_header iter with
  | true =>
    obtain ⟨h1, _, _, h4, h5, h6, _⟩ := scan_line_header strtoull iter s hh
    rw [h1, h4, h5, h6]
    refine ⟨by omega, ?_, fun _ _ _ => rfl, ?_⟩
    · intro j hj; exact setAt_other _ _ hj
    · intro j hj; simp [setAtN, hj]
  | false =>
    cases hc : is_call_line iter with
    | false =>
      rw [scan_line_other strtoull iter s hh hc]
      exact ⟨le_refl _, fun _ _ => rfl, fun _ _ _ => rfl, fun _ _ => rfl⟩
    | true =>
      rw [scan_line_call strtoull iter s hh hc]
      refine ⟨le_refl _, ?_, ?_, ?_⟩
      · intro j _
        by_cases hlt : int32 (s.call_count - s.T.func_ccD (s.func - 1)) < MAX_CALL
        · simp only [if_pos hlt]
        · simp only [if_neg hlt]
      · intro i x hi
        by_cases hlt : int32 (s.call_count - s.T.func_ccD (s.func - 1)) < MAX_CALL
        · simp only [if_pos hlt, setAt2]
          rw [if_neg (by intro hh2; exact hi hh2.1)]
        · simp only [if_neg hlt]
      · intro j _
        by_cases hlt : int32 (s.call_count - s.T.func_ccD (s.func - 1)) < MAX_CALL
        · simp only [if_pos hlt]
        · simp only [if_neg hlt]

theorem scan_lines_keep (strtoull : List Int → Nat) (m : Int) :
    ∀ (ls : List (List Int)) (s : Scan), m ≤ s.func →
      m ≤ (scan_lines strtoull ls s).func ∧
      (∀ j, j < m → (scan_lines strtoull ls s).T.func_ccD j = s.T.func_ccD j) ∧
      (∀ i x, i < m - 1 → (scan_lines strtoull ls s).T.call_addrD i x = s.T.call_addrD i x) ∧
      (∀ j, j < m → (scan_lines strtoull ls s).T.func_lineD j = s.T.func_lineD j) := by
  intro ls
  induction ls with
  | nil => intro s h; exact ⟨h, fun _ _ => rfl, fun _ _ _ => rfl, fun _ _ => rfl⟩
  | cons l ls ih =>
    intro s h
    obtain ⟨k1, k2, k3, k4⟩ := scan_line_keep strtoull l s
    obtain ⟨i1, i2, i3, i4⟩ := ih (scan_line strtoull l s) (by omega)
    rw [scan_lines_cons]
    refine ⟨i1, ?_, ?_, ?_⟩
    · intro j hj; rw [i2 j hj, k2 j (by omega)]
    · intro i x hi; rw [i3 i x hi, k3 i x (by omega)]
    · intro j hj; rw [i4 j hj, k4 j (by omega)]

theorem scan_lines_func (strtoull : List Int → Nat) :
    ∀ (ls : List (List Int)) (s : Scan),
      (scan_lines strtoull ls s).func = s.func + (ls.countP is_header : Nat) ∧
      (scan_lines strtoull ls s).line = s.line + (ls.length : Nat) := by
  intro ls
  induction ls with
  | nil => intro s; simp [scan_lines]
  | cons l ls ih =>
    intro s
    rw [scan_lines_cons, (ih _).1, (ih _).2]
    cases hh : is_header l with
    | true =>
      obtain ⟨h1, _, h3, _⟩ := scan_line_header strtoull l s hh
      rw [h1, h3, List.countP_cons_of_pos _ _ hh]
      simp only [List.length_cons]; push_cast; omega
    | false =>
      have hl : (scan_line strtoull l s).func = s.func ∧
          (scan_line strtoull l s).line = s.line + 1 := by
        cases hc : is_call_line l with
        | false => rw [scan_line_other strtoull l s hh hc]; exact ⟨rfl, rfl⟩
        | true => rw [scan_line_call strtoull l s hh hc]; exact ⟨rfl, rfl⟩
      rw [hl.1, hl.2, List.countP_cons_of_neg _ _ (by rw [hh]; simp)]
      simp only [List.length_cons]; push_cast
      exact ⟨trivial, by omega⟩

/-! ## The number of function records -/

/-- The builder takes every header line for a function, whatever their number. -/
theorem build_tables_func (strtoull : List Int → Nat) (text : List Int) :
    ∃ s, build_tables strtoull text = some s ∧
      s.func = ((line_starts text).countP is_header : Nat) := by
  refine ⟨_, build_tables_eq strtoull text, ?_⟩
  show (scan_lines strtoull (line_starts text) Scan.init).func = _
  rw [(scan_lines_func strtoull _ _).1]
  show (0 : Int) + _ = _
  omega

theorem line_starts_header_lines (n : Nat) :
    line_starts (header_lines (n + 1)) =
      header_lines (n + 1) :: line_starts (header_lines n) := by
  rw [line_starts_cons (header_lines (n + 1))]
  rfl

theorem header_lines_scan (strtoull : List Int → Nat) :
    ∀ (n : Nat) (s : Scan), 0 ≤ s.line → s.line + n < 2 ^ 64 →
      (scan_lines strtoull (line_starts (header_lines n)) s).func = s.func + n ∧
      (∀ k : Nat, k < n →
        (scan_lines strtoull (line_starts (header_lines n)) s).T.func_lineD (s.func + k) =
          (s.line + k).toNat) := by
  intro n
  induction n with
  | zero =>
    intro s _ _
    refine ⟨?_, fun k hk => by omega⟩
    rw [(scan_lines_func strtoull _ _).1]
    have : (line_starts (header_lines 0)).countP is_header = 0 := by decide
    rw [this]
  | succ n ih =>
    intro s h0 h1
    rw [line_starts_header_lines, scan_lines_cons]
    have hh : is_header (header_lines (n + 1)) = true := rfl
    obtain ⟨k1, _, k3, _, _, k6, _⟩ := scan_line_header strtoull (header_lines (n + 1)) s hh
    obtain ⟨i1, i2⟩ := ih (scan_line strtoull (header_lines (n + 1)) s)
      (by rw [k3]; omega) (by rw [k3]; push_cast at h1; omega)
    refine ⟨by rw [i1, k1]; push_cast; omega, ?_⟩
    intro k hk
    cases k with
    | zero =>
      obtain ⟨_, _, _, j4⟩ := scan_lines_keep strtoull (s.func + 1)
        (line_starts (header_lines n)) (scan_line strtoull (header_lines (n + 1)) s)
        (by rw [k1])
      have hs : s.func + ((0 : Nat) : Int) = s.func := by simp
      rw [hs, j4 s.func (by omega), k6]
      have hu : uint64 s.line = s.line := uint64_of_range h0 (by push_cast at h1; omega)
      simp [setAtN, hu]
    | succ k =>
      have := i2 k (by omega)
      rw [k1, k3] at this
      have e1 : s.func + ((k + 1 : Nat) : Int) = s.func + 1 + (k : Int) := by push_cast; omega
      have e2 : s.line + ((k + 1 : Nat) : Int) = s.line + 1 + (k : Int) := by push_cast; omega
      rw [e1, e2]; exact this

theorem header_lines_build (strtoull : List Int → Nat) (n : Nat) (hn : (n : Int) < 2 ^ 64) :
    ∃ s, build_tables strtoull (header_lines n) = some s ∧ s.func = n ∧
      ∀ k : Nat, k < n → s.T.func_lineD k = k := by
  obtain ⟨h1, h2⟩ := header_lines_scan strtoull n Scan.init (le_refl _)
    (by show (0 : Int) + n < 2 ^ 64; omega)
  refine ⟨_, build_tables_eq strtoull (header_lines n), ?_, ?_⟩
  · show (scan_lines strtoull (line_starts (header_lines n)) Scan.init).func = _
    rw [h1]; show (0 : Int) + n = n; omega
  · intro k hk
    have := h2 k hk
    have e1 : Scan.init.func + (k : Int) = k := by show (0 : Int) + k = k; omega
    have e2 : Scan.init.line + (k : Int) = k := by show (0 : Int) + k = k; omega
    rw [e1, e2] at this
    show (scan_lines strtoull (line_starts (header_lines n)) Scan.init).T.func_lineD k = k
    rw [this]; simp

/-- C13 at its failing input: on a text of 8193 header lines the builder
returns with a function count of 8193, above `MAX_FUNC = 8192`, and the record of the
header on line 8192 is written at index 8192, one past the last entry of the
tables; this holds whatever `strtoull` reads. -/
theorem header_lines_over_capacity (strtoull : List Int → Nat) :
    ∃ s, build_tables strtoull (header_lines 8193) = some s ∧
      s.func = 8193 ∧ MAX_FUNC < s.func ∧ s.T.func_lineD 8192 = 8192 ∧
      Tables.zero.func_lineD 8192 = 0 := by
  obtain ⟨s, h1, h2, h3⟩ := header_lines_build strtoull 8193 (by norm_num)
  refine ⟨s, h1, by rw [h2]; rfl, by rw [h2]; decide, ?_, rfl⟩
  have := h3 8192 (by norm_num)
  simpa using this

/-! ## The call lines of one function -/

/-- The lines between a header and the next one, scanned from a state in which `n`
call lines of the function have been seen: the call count goes up to the capacity and
no further, the targets are stored in order, and nothing else changes. -/
theorem scan_block (strtoull : List Int → Nat) (id : Int) :
    ∀ (B : List (List Int)) (s : Scan) (n : Nat),
      (∀ l ∈ B, is_header l = false) → s.func = id + 1 →
      s.call_count = s.T.func_ccD id + (min n 512 : Nat) →
      (scan_lines strtoull B s).func = id + 1 ∧
      (scan_lines strtoull B s).T.func_ccD = s.T.func_ccD ∧
      (scan_lines strtoull B s).call_count =
        s.T.func_ccD id + (min (n + (B.filter is_call_line).length) 512 : Nat) ∧
      (∀ i x, (scan_lines strtoull B s).T.call_addrD i x =
        if i = id ∧ (n : Int) ≤ x ∧
            x < (min (n + (B.filter is_call_line).length) 512 : Nat) then
          call_target strtoull ((B.filter is_call_line).getD (x - n).toNat [])
        else s.T.call_addrD i x) := by
  intro B
  induction B with
  | nil =>
    intro s n _ hf hc
    refine ⟨hf, rfl, by simpa using hc, ?_⟩
    intro i x
    rw [if_neg]
    · rfl
    · intro hh
      have h1 := hh.2.1
      have h2 := hh.2.2
      simp only [List.filter_nil, List.length_nil] at h2
      omega
  | cons l B ih =>
    intro s n hB hf hc
    have hh : is_header l = false := hB l (List.mem_cons_self _ _)
    have hB1 : ∀ l1 ∈ B, is_header l1 = false := fun l1 h1 => hB l1 (List.mem_cons_of_mem _ h1)
    rw [scan_lines_cons]
    cases hcl : is_call_line l with
    | false =>
      rw [scan_line_other strtoull l s hh hcl, List.filter_cons_of_neg (by rw [hcl]; simp)]
      exact ih { s with line := s.line + 1 } n hB1 hf hc
    | true =>
      rw [scan_line_call strtoull l s hh hcl, List.filter_cons_of_pos hcl]
      have hid : s.func - 1 = id := by omega
      rw [hid]
      by_cases hlt : n < 512
      · have hidx : int32 (s.call_count - s.T.func_ccD id) = n := by
          rw [hc]
          have : s.T.func_ccD id + ((min n 512 : Nat) : Int) - s.T.func_ccD id = (n : Int) := by
            omega
          rw [this]
          exact int32_of_range (by omega) (by omega)
        have hlt2 : int32 (s.call_count - s.T.func_ccD id) < MAX_CALL := by
          rw [hidx]; show (n : Int) < 512; omega
        rw [if_pos hlt2, if_pos hlt2, hidx]
        obtain ⟨i1, i2, i3, i4⟩ := ih
          { s with
            T := { s.T with
              call_addrD := (setAt2 s.T.call_addrD id n (call_target strtoull l)) },
            line := s.line + 1, call_count := s.call_count + 1 }
          (n + 1) hB1 hf (by
            show s.call_count + 1 = s.T.func_ccD id + ((min (n + 1) 512 : Nat) : Int)
            rw [hc]; omega)
        have hlen : n + ((B.filter is_call_line).length + 1) =
            n + 1 + (B.filter is_call_line).length := by omega
        simp only [List.length_cons, hlen]
        refine ⟨i1, i2, i3, ?_⟩
        intro i x
        rw [i4 i x]
        by_cases hc1 : i = id ∧ ((n + 1 : Nat) : Int) ≤ x ∧
            x < ((min (n + 1 + (B.filter is_call_line).length) 512 : Nat) : Int)
        · rw [if_pos hc1, if_pos ⟨hc1.1, by have := hc1.2.1; push_cast at this; omega, hc1.2.2⟩]
          have hx : (x - (n : Int)).toNat = (x - ((n + 1 : Nat) : Int)).toNat + 1 := by
            have := hc1.2.1; push_cast at this ⊢; omega
          rw [hx, List.getD_cons_succ]
        · rw [if_neg hc1]
          show setAt2 s.T.call_addrD id n (call_target strtoull l) i x = _
          by_cases hc2 : i = id ∧ x = n
          · have hc3 : i = id ∧ (n : Int) ≤ x ∧
                x < ((min (n + 1 + (B.filter is_call_line).length) 512 : Nat) : Int) :=
              ⟨hc2.1, by omega, by omega⟩
            rw [if_pos hc3]
            have hx : (x - (n : Int)).toNat = 0 := by omega
            rw [hx, List.getD_cons_zero]
            simp only [setAt2]
            rw [if_pos hc2]
          · have hc3 : ¬ (i = id ∧ (n : Int) ≤ x ∧
                x < ((min (n + 1 + (B.filter is_call_line).length) 512 : Nat) : Int)) := by
              intro h3
              by_cases hxn : x = n
              · exact hc2 ⟨h3.1, hxn⟩
              · exact hc1 ⟨h3.1, by push_cast; omega, h3.2.2⟩
            rw [if_neg hc3]
            simp only [setAt2]
            rw [if_neg hc2]
      · have hidx : int32 (s.call_count - s.T.func_ccD id) = 512 := by
          rw [hc]
          have : s.T.func_ccD id + ((min n 512 : Nat) : Int) - s.T.func_ccD id = 512 := by
            omega
          rw [this]
          rfl
        have hlt2 : ¬ int32 (s.call_count - s.T.func_ccD id) < MAX_CALL := by
          rw [hidx]; decide
        rw [if_neg hlt2, if_neg hlt2]
        obtain ⟨i1, i2, i3, i4⟩ := ih { s with line := s.line + 1 } n hB1 hf hc
        have hm : min (n + ((B.filter is_call_line).length + 1)) 512 =
            min (n + (B.filter is_call_line).length) 512 := by omega
        simp only [List.length_cons, hm]
        refine ⟨i1, i2, i3, ?_⟩
        intro i x
        rw [i4 i x]
        have hno : ¬ (i = id ∧ (n : Int) ≤ x ∧
            x < ((min (n + (B.filter is_call_line).length) 512 : Nat) : Int)) := by
          intro h3
          have := h3.2.1
          have := h3.2.2
          omega
        rw [if_neg hno, if_neg hno]

/-- Once the capacity is reached, the lines up to the next header change nothing but
the line counter. -/
theorem scan_block_full (strtoull : List Int → Nat) (id : Int) :
    ∀ (B : List (List Int)) (s : Scan),
      (∀ l ∈ B, is_header l = false) → s.func = id + 1 →
      s.call_count = s.T.func_ccD id + 512 →
      scan_lines strtoull B s = { s with line := s.line + (B.length : Nat) } := by
  intro B
  induction B with
  | nil => intro s _ _ _; simp [scan_lines]
  | cons l B ih =>
    intro s hB hf hc
    have hh : is_header l = false := hB l (List.mem_cons_self _ _)
    have hB1 : ∀ l1 ∈ B, is_header l1 = false := fun l1 h1 => hB l1 (List.mem_cons_of_mem _ h1)
    have hstep : scan_line strtoull l s = { s with line := s.line + 1 } := by
      cases hcl : is_call_line l with
      | false => exact scan_line_other strtoull l s hh hcl
      | true =>
        rw [scan_line_call strtoull l s hh hcl]
        have hid : s.func - 1 = id := by omega
        have hidx : int32 (s.call_count - s.T.func_ccD id) = 512 := by
          rw [hc]
          have : s.T.func_ccD id + 512 - s.T.func_ccD id = 512 := by omega
          rw [this]; rfl
        have hlt2 : ¬ int32 (s.call_count - s.T.func_ccD id) < MAX_CALL := by
          rw [hidx]; decide
        rw [hid, if_neg hlt2, if_neg hlt2]
    rw [scan_lines_cons, hstep, ih { s with line := s.line + 1 } hB1 hf hc]
    simp only [List.length_cons]
    have : s.line + 1 + ((B.length : Nat) : Int) = s.line + ((B.length + 1 : Nat) : Int) := by
      push_cast; omega
    rw [this]

theorem build_call_capacity (strtoull : List Int → Nat) (text : List Int)
    (L1 B L2 : List (List Int)) (h : List Int)
    (hsplit : line_starts text = L1 ++ h :: B ++ L2)
    (hh : is_header h = true)
    (hB : ∀ l ∈ B, is_header l = false)
    (hL2 : L2 = [] ∨ ∃ h2 rest, L2 = h2 :: rest ∧ is_header h2 = true) :
    ∃ s, build_tables strtoull text = some s ∧
      func_cc s.T (L1.countP is_header : Nat) =
        (min (B.filter is_call_line).length 512 : Nat) ∧
      (∀ j : Nat, j < (B.filter is_call_line).length → j < 512 →
        s.T.call_addrD (L1.countP is_header : Nat) j =
          call_target strtoull ((B.filter is_call_line).getD j [])) ∧
      (func_cc s.T (L1.countP is_header : Nat) = MAX_CALL ↔
        512 ≤ (B.filter is_call_line).length) ∧
      (∀ B1 B2 : List (List Int), B = B1 ++ B2 → 512 ≤ (B1.filter is_call_line).length →
        (scan_lines strtoull (L1 ++ h :: B1 ++ B2) Scan.init).T =
          (scan_lines strtoull (L1 ++ h :: B1) Scan.init).T ∧
        (scan_lines strtoull (L1 ++ h :: B1 ++ B2) Scan.init).func =
          (scan_lines strtoull (L1 ++ h :: B1) Scan.init).func ∧
        (scan_lines strtoull (L1 ++ h :: B1 ++ B2) Scan.init).call_count =
          (scan_lines strtoull (L1 ++ h :: B1) Scan.init).call_count) := by
  generalize hid : ((L1.countP is_header : Nat) : Int) = id
  generalize hs0 : scan_lines strtoull L1 Scan.init = s0
  have hf0 : s0.func = id := by
    rw [← hs0, (scan_lines_func strtoull L1 Scan.init).1, ← hid]
    show (0 : Int) + _ = _
    omega
  obtain ⟨a1, a2, _, a4, a5, _, _⟩ := scan_line_header strtoull h s0 hh
  generalize hs1 : scan_line strtoull h s0 = s1 at a1 a2 a4 a5
  have hf1 : s1.func = id + 1 := by rw [a1, hf0]
  have hcc1 : s1.T.func_ccD id = s1.call_count := by
    rw [a4, a2, hf0]; exact setAt_same _ _ _
  have hstart : s1.call_count = s1.T.func_ccD id + ((min 0 512 : Nat) : Int) := by
    rw [hcc1]; simp
  have hblock : ∀ Bx : List (List Int), (∀ l ∈ Bx, is_header l = false) →
      (scan_lines strtoull Bx s1).func = id + 1 ∧
      (scan_lines strtoull Bx s1).T.func_ccD id = s1.T.func_ccD id ∧
      (scan_lines strtoull Bx s1).call_count =
        s1.T.func_ccD id + ((min (Bx.filter is_call_line).length 512 : Nat) : Int) ∧
      (∀ j : Nat, j < (Bx.filter is_call_line).length → j < 512 →
        (scan_lines strtoull Bx s1).T.call_addrD id j =
          call_target strtoull ((Bx.filter is_call_line).getD j [])) := by
    intro Bx hBx
    obtain ⟨b1, b2, b3, b4⟩ := scan_block strtoull id Bx s1 0 hBx hf1 hstart
    simp only [Nat.zero_add] at b3 b4
    refine ⟨b1, by rw [b2], b3, ?_⟩
    intro j hj1 hj2
    rw [b4 id j, if_pos ⟨rfl, by simp, by omega⟩]
    simp
  obtain ⟨c1, c2, c3, c4⟩ := hblock B hB
  generalize hs2 : scan_lines strtoull B s1 = s2 at c1 c2 c3 c4
  have hscan : scan_lines strtoull (line_starts text) Scan.init = scan_lines strtoull L2 s2 := by
    rw [hsplit, scan_lines_append, scan_lines_append, scan_lines_cons, hs0, hs1, hs2]
  have hfinal : (close_tables (scan_lines strtoull L2 s2)).T.func_ccD id = s2.T.func_ccD id ∧
      (close_tables (scan_lines strtoull L2 s2)).T.func_ccD (id + 1) = s2.call_count ∧
      ∀ x, (close_tables (scan_lines strtoull L2 s2)).T.call_addrD id x =
        s2.T.call_addrD id x := by
    rcases hL2 with hnil | ⟨h2, rest, hcons, hh2⟩
    · rw [hnil, scan_lines_nil]
      refine ⟨?_, ?_, fun _ => rfl⟩
      · show setAt s2.T.func_ccD s2.func s2.call_count id = _
        rw [setAt_other _ _ (by omega)]
      · show setAt s2.T.func_ccD s2.func s2.call_count (id + 1) = _
        rw [c1]; exact setAt_same _ _ _
    · rw [hcons, scan_lines_cons]
      obtain ⟨d1, d2, _, d4, d5, _, _⟩ := scan_line_header strtoull h2 s2 hh2
      obtain ⟨e1, e2, e3, _⟩ := scan_lines_keep strtoull (id + 2) rest
        (scan_line strtoull h2 s2) (by rw [d1, c1]; omega)
      refine ⟨?_, ?_, ?_⟩
      · show setAt _ _ _ id = _
        rw [setAt_other _ _ (by omega), e2 id (by omega), d4, setAt_other _ _ (by omega)]
      · show setAt _ _ _ (id + 1) = _
        rw [setAt_other _ _ (by omega), e2 (id + 1) (by omega), d4, c1]
        exact setAt_same _ _ _
      · intro x
        show (scan_lines strtoull rest (scan_line strtoull h2 s2)).T.call_addrD id x = _
        rw [e3 id x (by omega), d5]
  obtain ⟨f1, f2, f3⟩ := hfinal
  have hcc : func_cc (close_tables (scan_lines strtoull L2 s2)).T id =
      ((min (B.filter is_call_line).length 512 : Nat) : Int) := by
    unfold func_cc
    rw [f1, f2, c3, c2]
    have : s1.T.func_ccD id + ((min (B.filter is_call_line).length 512 : Nat) : Int) -
        s1.T.func_ccD id = ((min (B.filter is_call_line).length 512 : Nat) : Int) := by omega
    rw [this]
    exact int32_of_range (by omega) (by omega)
  refine ⟨_, build_tables_eq strtoull text, ?_, ?_, ?_, ?_⟩
  · rw [hscan]; exact hcc
  · intro j hj1 hj2
    rw [hscan, f3 j]
    exact c4 j hj1 hj2
  · rw [hscan, hcc]
    show ((min (B.filter is_call_line).length 512 : Nat) : Int) = 512 ↔ _
    omega
  · intro B1 B2 hB12 hfull
    have hB1 : ∀ l ∈ B1, is_header l = false := fun l hl =>
      hB l (by rw [hB12]; exact List.mem_append_left _ hl)
    have hB2 : ∀ l ∈ B2, is_header l = false := fun l hl =>
      hB l (by rw [hB12]; exact List.mem_append_right _ hl)
    obtain ⟨g1, g2, g3, _⟩ := hblock B1 hB1
    have hpre : scan_lines strtoull (L1 ++ h :: B1) Scan.init = scan_lines strtoull B1 s1 := by
      rw [scan_lines_append, scan_lines_cons, hs0, hs1]
    have hfull2 : (scan_lines strtoull B1 s1).call_count =
        (scan_lines strtoull B1 s1).T.func_ccD id + 512 := by
      rw [g3, g2]; omega
    rw [scan_lines_append, hpre, scan_block_full strtoull id B2 _ hB2 g1 hfull2]
    exact ⟨rfl, rfl, rfl⟩

/-- Call-capacity truncation for the lines as the scan takes them (a call line is one
that passes the test of the call branch, `is_call_line`): for every input whose lines
are `L1`, a header
`h`, lines `B` that are no headers, and then a header or the end of the input, the
builder returns tables in which the function of `h` has a call count `func_cc` of
`min k 512`, where `k` is the number of call lines in `B`, and holds the targets of
the first `min k 512` call lines in input order; the cap check `func_cc == MAX_CALL`
holds exactly when `k ≥ 512`; and once 512 call lines have been read, the further
lines of `B` leave the tables, the function count and the call count as they are. -/
theorem call_capacity_truncation (strtoull : List Int → Nat) (text : List Int)
    (L1 B L2 : List (List Int)) (h : List Int)
    (hsplit : line_starts text = L1 ++ h :: B ++ L2)
    (hh : is_header h = true)
    (hB : ∀ l ∈ B, is_header l = false)
    (hL2 : L2 = [] ∨ ∃ h2 rest, L2 = h2 :: rest ∧ is_header h2 = true) :
    ∃ s, build_tables strtoull text = some s ∧
      func_cc s.T (L1.countP is_header : Nat) =
        (min (B.filter is_call_line).length 512 : Nat) ∧
      (∀ j : Nat, j < (B.filter is_call_line).length → j < 512 →
        s.T.call_addrD (L1.countP is_header : Nat) j =
          call_target strtoull ((B.filter is_call_line).getD j [])) ∧
      (func_cc s.T (L1.countP is_header : Nat) = MAX_CALL ↔
        512 ≤ (B.filter is_call_line).length) ∧
      (∀ B1 B2 : List (List Int), B = B1 ++ B2 → 512 ≤ (B1.filter is_call_line).length →
        (scan_lines strtoull (L1 ++ h :: B1 ++ B2) Scan.init).T =
          (scan_lines strtoull (L1 ++ h :: B1) Scan.init).T ∧
        (scan_lines strtoull (L1 ++ h :: B1 ++ B2) Scan.init).func =
          (scan_lines strtoull (L1 ++ h :: B1) Scan.init).func ∧
        (scan_lines strtoull (L1 ++ h :: B1 ++ B2) Scan.init).call_count =
          (scan_lines strtoull (L1 ++ h :: B1) Scan.init).call_count) :=
  build_call_capacity strtoull text L1 B L2 h hsplit hh hB hL2

theorem call_capacity_truncation_witness :
    line_starts one_call_text =
      [] ++ one_call_text :: [one_call_text.drop 24] ++ [one_call_text.drop 72, []] ∧
    is_header one_call_text = true ∧
    (∀ l ∈ [one_call_text.drop 24], is_header l = false) ∧
    ∃ s, build_tables strtoull_hex one_call_text = some s ∧
      func_cc s.T (([] : List (List Int)).countP is_header : Nat) =
        (min ([one_call_text.drop 24].filter is_call_line).length 512 : Nat) ∧
      (∀ j : Nat, j < ([one_call_text.drop 24].filter is_call_line).length → j < 512 →
        s.T.call_addrD (([] : List (List Int)).countP is_header : Nat) j =
          call_target strtoull_hex (([one_call_text.drop 24].filter is_call_line).getD j [])) ∧
      (func_cc s.T (([] : List (List Int)).countP is_header : Nat) = MAX_CALL ↔
        512 ≤ ([one_call_text.drop 24].filter is_call_line).length) ∧
      (∀ B1 B2 : List (List Int), [one_call_text.drop 24] = B1 ++ B2 →
        512 ≤ (B1.filter is_call_line).length →
        (scan_lines strtoull_hex ([] ++ one_call_text :: B1 ++ B2) Scan.init).T =
          (scan_lines strtoull_hex ([] ++ one_call_text :: B1) Scan.init).T ∧
        (scan_lines strtoull_hex ([] ++ one_call_text :: B1 ++ B2) Scan.init).func =
          (scan_lines strtoull_hex ([] ++ one_call_text :: B1) Scan.init).func ∧
        (scan_lines strtoull_hex ([] ++ one_call_text :: B1 ++ B2) Scan.init).call_count =
          (scan_lines strtoull_hex ([] ++ one_call_text :: B1) Scan.init).call_count) :=
  ⟨by decide, by decide, by decide,
    call_capacity_truncation strtoull_hex one_call_text [] [one_call_text.drop 24]
      [one_call_text.drop 72, []] one_call_text (by decide) (by decide) (by decide)
      (Or.inr ⟨_, _, rfl, by decide⟩)⟩

/-! ## Children-of and parents-of on a target above 32 bits -/

set_option maxRecDepth 100000 in
/-- C11 at its failing input: the text has `foo` at 0x10 with one call line whose
target is 0x100000020, and `bar` at 0x20. The tables built have strictly increasing
addresses and distinct names; the edge of `foo`, cut to an `int`, resolves through
`func_addr` to `bar`, so the children-of listing of `foo` holds `bar`, but the
parents-of scan compares the whole 64-bit edge with the address of `bar` and lists
no caller of `bar`. -/
theorem high_call_children_without_parent :
    ∃ s, build_tables strtoull_hex high_call_text = some s ∧ s.func = 2 ∧
      StrictInc s.T s.func ∧
      func_name_of s.T 0 = bytes "foo" ∧ func_name_of s.T 1 = bytes "bar" ∧
      func_cc s.T 0 = 1 ∧ s.T.call_addrD 0 0 = 0x100000020 ∧
      func_addr s.T s.func (int32 (s.T.call_addrD 0 0)) = some 1 ∧
      list_children s.T s.func 0 = some [1] ∧ list_parents s.T s.func 1 = [] := by
  refine ⟨_, build_tables_eq strtoull_hex high_call_text, by decide, ?_, by decide,
    by decide, by decide, by decide, by decide, by decide, by decide⟩
  intro i j h0 h1 h2
  have h3 : (close_tables
      (scan_lines strtoull_hex (line_starts high_call_text) Scan.init)).func = 2 := by decide
  rw [h3] at h2
  have hi : i = 0 := by omega
  have hj : j = 1 := by omega
  rw [hi, hj]
  decide

/-! ## Call targets above 32 bits in the depth analysis -/

theorem high_edge_strictInc : StrictInc high_edge_tables 2 := by
  intro i j h0 h1 h2
  have hi : i = 0 := by omega
  have hj : j = 1 := by omega
  subst hi; subst hj
  decide

/-- In `high_edge_tables` no call edge matches the address of a function. -/
theorem high_edge_no_match : ∀ a b, ¬ CallsByAddress high_edge_tables 2 a b := by
  intro a b h
  obtain ⟨ha0, ha1, hb0, hb1, jt, hj0, hj1, he⟩ := h
  have ha : a = 0 ∨ a = 1 := by omega
  rcases ha with rfl | rfl
  · have hcc : func_cc high_edge_tables 0 = 1 := by decide
    have hjt : jt = 0 := by omega
    subst hjt
    have hb : b = 0 ∨ b = 1 := by omega
    rcases hb with rfl | rfl <;> revert he <;> decide
  · have hcc : func_cc high_edge_tables 1 = 0 := by decide
    omega

/-- C1 at its failing input: `foo` at 0x10 has the single call edge 0x100000020 and
`bar` at 0x20 has none. The addresses are strictly increasing and below 2^31, and no
call edge matches the address of a function: the resolved-call graph has no edge, it
is acyclic, and the longest chain from `foo` is `foo` alone, of length 1. The edge cut
to an `int` is 0x20, which `func_addr` finds at `bar`, and the depth pass from the
all-zero state ends with `func_depthD[foo] = 2`. -/
theorem high_edge_depth_two :
    StrictInc high_edge_tables 2 ∧
    (∀ i : Int, 0 ≤ i → i < 2 → (high_edge_tables.func_addrD i : Int) < 2 ^ 31) ∧
    (∀ a b, ¬ CallsByAddress high_edge_tables 2 a b) ∧
    func_addr high_edge_tables 2 (int32 (high_edge_tables.call_addrD 0 0)) = some 1 ∧
    (depth_pass high_edge_tables 2 Marks.zero).map
        (fun r => (r.2.func_depthD 0, r.2.func_depthD 1)) = some (2, 1) := by
  refine ⟨high_edge_strictInc, ?_, high_edge_no_match, by decide, by decide⟩
  intro i h0 h1
  have hi : i = 0 ∨ i = 1 := by omega
  rcases hi with rfl | rfl <;> decide

/-- C9 at its failing input: in the all-zero state `foo` has depth 0 and is not on the
stack, and its only call edge 0x100000020 matches the address of no function (its
targets are all unresolved); yet `anydepth_check_func(foo, func)` returns 2 and
memoizes `func_depthD[foo] = 2`, having descended into `bar` at 0x20. -/
theorem high_edge_call_returns_two :
    Marks.zero.func_depthD 0 = 0 ∧ Marks.zero.func_stackD 0 = 0 ∧
    func_cc high_edge_tables 0 = 1 ∧
    (∀ b, ¬ CallsByAddress high_edge_tables 2 0 b) ∧
    (anydepth_check_func high_edge_tables 2 (depth_fuel 2) 0 Marks.zero).map
        (fun r => (r.1, r.2.func_depthD 0)) = some (2, 2) :=
  ⟨rfl, rfl, by decide, fun b => high_edge_no_match 0 b, by decide⟩

/-- C8 at its failing input: two functions at 0x140001000 and 0x140002000, each with
exactly one call edge, which is the address of the other, so the two form a genuine
cycle. Cut to an `int` the edges match no table address; the normalizer and the full
depth pass return with both depths 1 and neither function flagged recursive. -/
theorem high_cycle_not_flagged :
    func_cc high_cycle_tables 0 = 1 ∧ func_cc high_cycle_tables 1 = 1 ∧
    CallsByAddress high_cycle_tables 2 0 1 ∧ CallsByAddress high_cycle_tables 2 1 0 ∧
    (normalize_then_depth_pass high_cycle_tables 2).map
        (fun r => (r.2.2.func_recurseD 0, r.2.2.func_recurseD 1,
          r.2.2.func_depthD 0, r.2.2.func_depthD 1)) = some (0, 0, 1, 1) :=
  ⟨by decide, by decide,
    ⟨by decide, by decide, by decide, by decide, 0, by decide, by decide, by decide⟩,
    ⟨by decide, by decide, by decide, by decide, 0, by decide, by decide, by decide⟩,
    by decide⟩

/-- C18 at its failing input: function 0 at 0x10 has the single call edge 0x100000020,
which matches the address of no function, and function 1 at 0x20 calls 0x10. By the
addresses function 0 calls nothing, so it does not reach itself. The top-level call
`anydepth_check_func(0, func)` from the all-zero state cuts the edge to the `int` 0x20,
descends into function 1, finds function 0 on the stack and sets
`func_recurseD[0]`. -/
theorem high_back_flagged_without_cycle :
    (∀ b, ¬ CallsByAddress high_back_tables 2 0 b) ∧
    ¬ Relation.TransGen (CallsByAddress high_back_tables 2) 0 0 ∧
    (top_level_calls high_back_tables 2 [0] Marks.zero).map
        (fun S => (S.func_recurseD 0, S.func_stackD 0, S.func_stackD 1)) = some (1, 0, 0) := by
  have hno : ∀ b, ¬ CallsByAddress high_back_tables 2 0 b := by
    intro b h
    obtain ⟨_, _, hb0, hb1, jt, hj0, hj1, he⟩ := h
    have hcc : func_cc high_back_tables 0 = 1 := by decide
    have hjt : jt = 0 := by omega
    subst hjt
    have hb : b = 0 ∨ b = 1 := by omega
    rcases hb with rfl | rfl <;> revert he <;> decide
  refine ⟨hno, ?_, by decide⟩
  intro hreach
  obtain ⟨b, hb, _⟩ := Relation.TransGen.head'_iff.mp hreach
  exact hno b hb

/-! ## A function that only calls itself, below an entry function that calls itself -/

/-- The depth pass on a table of two functions in which function 0 calls function 1 and
then itself, and both calls of function 1 go to function 0. -/
theorem entry_loop_pass (T : Tables)
    (hcc0 : func_cc T 0 = 2) (hcc1 : func_cc T 1 = 2)
    (h00 : func_addr T 2 (int32 (T.call_addrD 0 0)) = some 1)
    (h01 : func_addr T 2 (int32 (T.call_addrD 0 1)) = some 0)
    (h10 : func_addr T 2 (int32 (T.call_addrD 1 0)) = some 0)
    (h11 : func_addr T 2 (int32 (T.call_addrD 1 1)) = some 0) :
    ∃ hi S, depth_pass T 2 Marks.zero = some (hi, S) ∧ S.func_recurseD 1 = 1 ∧
      S.func_depthD 0 = 0 ∧ S.func_depthD 1 = 1 := by
  have e1 : int32 0 = 0 := by decide
  have e2 : int32 1 = 1 := by decide
  have e3 : int32 2 = 2 := by decide
  have f2 : depth_fuel 2 = 1 + 1 := rfl
  have n2 : (2 : Int).toNat = 1 + 1 := rfl
  have n1 : (1 : Int).toNat = 0 + 1 := rfl
  simp [depth_pass, depth_pass_loop, f2, n2, n1, anydepth_check_func, anydepth_loop,
    Marks.zero, setAt_apply, hcc0, hcc1, h00, h01, h10, h11, e1, e2, e3]
  exact ⟨_, _, ⟨rfl, rfl⟩, by simp [setAt], by simp [setAt], by simp [setAt]⟩

/-- C7 at its failing input: `main` at 0x10 calls 0x20 and 0x10, and every call edge of
function 1, `loop` at 0x20, targets `loop` itself. The normalizer rewrites the two
edges of `loop` to 0x10 and leaves the self-call of `main` as it is (0x10 is the
address of function 0); after the full depth pass `loop` is flagged recursive
(`func_recurseD[1] = 1`, not 0): its traversal reaches `main`, which still calls itself
and calls `loop` while `loop` is on the stack. -/
theorem entry_loop_flagged :
    StrictInc entry_loop_tables 2 ∧ func_cc entry_loop_tables 1 = 2 ∧
    (∀ jt, 0 ≤ jt → jt < func_cc entry_loop_tables 1 →
      entry_loop_tables.call_addrD 1 jt = (entry_loop_tables.func_addrD 1 : Int) ∧
      func_addr entry_loop_tables 2 (int32 (entry_loop_tables.call_addrD 1 jt)) = some 1) ∧
    ∃ T1 hi S, normalize_then_depth_pass entry_loop_tables 2 = some (T1, hi, S) ∧
      T1.call_addrD 0 1 = 0x10 ∧ T1.call_addrD 1 0 = 0x10 ∧ T1.call_addrD 1 1 = 0x10 ∧
      S.func_recurseD 1 = 1 ∧ S.func_depthD 0 = 0 ∧ S.func_depthD 1 = 1 := by
  obtain ⟨hi, S, hpass, a, b, c⟩ := entry_loop_pass (rm_selfcall_spec entry_loop_tables 2)
    (by decide) (by decide) (by decide) (by decide) (by decide) (by decide)
  refine ⟨?_, by decide, ?_, rm_selfcall_spec entry_loop_tables 2, hi, S, ?_, by decide,
    by decide, by decide, a, b, c⟩
  · intro i j h0 h1 h2
    have hi : i = 0 := by omega
    have hj : j = 1 := by omega
    subst hi; subst hj
    decide
  · intro jt h0 h1
    have hcc : func_cc entry_loop_tables 1 = 2 := by decide
    have hjt : jt = 0 ∨ jt = 1 := by omega
    rcases hjt with rfl | rfl <;> decide
  · unfold normalize_then_depth_pass
    rw [rm_selfcall_eq entry_loop_tables 2 (by decide) (by decide)]
    simp only [hpass, Option.map_some']

/-! ## A call instruction on a last line without a line feed -/

set_option maxRecDepth 100000 in
/-- C12 at its failing input: the text is the header of `foo` followed by one more line
that has `call` at column 40 and target 20, and that no line feed ends. By the
specification this line is a call instruction, so `foo` is followed by `k = 1` call
lines; the builder returns with `func_cc(foo) = 0` and no target stored. With a line
feed at the end of the same text the call is recorded, and a header on a last line
without line feed is recorded too. -/
theorem unterminated_call_dropped :
    line_starts unterminated_call_text =
      [unterminated_call_text, unterminated_call_text.drop 24] ∧
    header_line (line_at unterminated_call_text) = true ∧
    call_instruction (line_at (unterminated_call_text.drop 24)) = true ∧
    (build_tables strtoull_hex unterminated_call_text).map
        (fun s => (s.func, func_cc s.T 0, s.T.call_addrD 0 0)) = some (1, 0, 0) ∧
    (build_tables strtoull_hex (unterminated_call_text ++ [10])).map
        (fun s => (s.func, func_cc s.T 0, s.T.call_addrD 0 0)) = some (1, 1, 0x20) ∧
    (build_tables strtoull_hex unterminated_header_text).map
        (fun s => (s.func, s.T.func_addrD 0, func_name_of s.T 0)) =
      some (1, 0x10, bytes "foo") := by
  refine ⟨by decide, by decide, by decide, by decide, by decide, by decide⟩

/-! ## The tests of the scan and the lines of the specification -/

theorem is_header_eq_header_line (iter : List Int) :
    is_header iter = header_line (line_at iter) := by
  cases iter with
  | nil => rfl
  | cons c rest =>
    by_cases h10 : c = 10
    · subst h10; rfl
    · have hl : line_at (c :: rest) = c :: line_at rest := by
        simp [line_at, List.takeWhile, h10]
      rw [hl]
      rfl

theorem next_line_split : ∀ (l e : List Int), next_line l = some e →
    l = line_at l ++ 10 :: e := by
  intro l
  induction l with
  | nil => intro e h; simp [next_line] at h
  | cons c rest ih =>
    intro e h
    simp only [next_line] at h
    by_cases h10 : c = 10
    · rw [if_pos h10] at h
      have hr : rest = e := Option.some.inj h
      subst h10
      rw [← hr]
      simp [line_at, List.takeWhile]
    · rw [if_neg h10] at h
      by_cases h0 : c = 0
      · rw [if_pos h0] at h; exact absurd h (by simp)
      · rw [if_neg h0] at h
        have hl : line_at (c :: rest) = c :: line_at rest := by
          simp [line_at, List.takeWhile, h10]
        rw [hl, List.cons_append, ← ih e h]

/-- On a line that a line feed ends, the test of the call branch is the call
instruction of the specification: `call` at column 40 of the line. -/
theorem is_call_line_eq_call_instruction (iter e : List Int) (h : next_line iter = some e) :
    is_call_line iter = call_instruction (line_at iter) := by
  have hsplit := next_line_split iter e h
  unfold is_call_line call_instruction
  rw [← is_header_eq_header_line, h]
  congr 1
  generalize line_at iter = L at hsplit
  show (decide ((iter.length : Int) - e.length > 40) && is_call (iter.drop 40)) = _
  rw [hsplit]
  by_cases hlen : 40 ≤ L.length
  · obtain ⟨P, M, hPM, hP⟩ : ∃ P M, L = P ++ M ∧ P.length = 40 :=
      ⟨L.take 40, L.drop 40, (List.take_append_drop 40 L).symm, by
        rw [List.length_take]; omega⟩
    subst hPM
    have hd1 : (P ++ M ++ 10 :: e).drop 40 = M ++ 10 :: e := by
      rw [List.append_assoc, ← hP, List.drop_left]
    have hd2 : (P ++ M).drop 40 = M := by rw [← hP, List.drop_left]
    have hl : decide ((((P ++ M ++ 10 :: e).length : Nat) : Int) - (e.length : Nat) > 40)
        = true := by
      simp only [List.length_append, List.length_cons, decide_eq_true_eq]
      push_cast
      omega
    rw [hl, hd1, hd2, Bool.true_and]
    unfold is_call byte_at
    rcases M with _ | ⟨a, _ | ⟨b, _ | ⟨c, _ | ⟨d, rest⟩⟩⟩⟩ <;> simp
  · have hl : decide ((((L ++ 10 :: e).length : Nat) : Int) - (e.length : Nat) > 40)
        = false := by
      simp only [List.length_append, List.length_cons, decide_eq_false_iff_not]
      push_cast
      omega
    have hd : L.drop 40 = [] := List.drop_eq_nil_of_le (by omega)
    rw [hl, hd, Bool.false_and]
    simp

theorem is_call_line_unterminated (iter : List Int) (h : next_line iter = none) :
    is_call_line iter = false := by
  unfold is_call_line
  rw [h]
  simp

theorem filter_call_lines (B : List (List Int))
    (hend : ∀ l ∈ B, next_line l = none → call_instruction (line_at l) = false) :
    B.filter is_call_line = B.filter (fun l => call_instruction (line_at l)) := by
  apply List.filter_congr
  intro l hl
  cases hn : next_line l with
  | none => rw [is_call_line_unterminated l hn, hend l hl hn]
  | some e => exact is_call_line_eq_call_instruction l e hn

/-- Call-capacity truncation in the words of the specification, for call instructions
on lines that a line feed ends: when the lines of the input are `L1`, a header `h`,
lines `B` that are no headers, and then a header or the end of the input, and no line
of `B` is a call instruction without a line feed, the builder returns tables in which
the function of `h` has a call count of `min k 512`, where `k` is the number of call
instructions in `B`, and holds the targets of the first `min k 512` of them in input
order; the cap check holds exactly when `k ≥ 512`; and once 512 call instructions have
been read, the further lines of `B` leave the tables, the function count and the call
count as they are. -/
theorem call_capacity_by_lines (strtoull : List Int → Nat) (text : List Int)
    (L1 B L2 : List (List Int)) (h : List Int)
    (hsplit : line_starts text = L1 ++ h :: B ++ L2)
    (hh : header_line (line_at h) = true)
    (hB : ∀ l ∈ B, header_line (line_at l) = false)
    (hL2 : L2 = [] ∨ ∃ h2 rest, L2 = h2 :: rest ∧ header_line (line_at h2) = true)
    (hend : ∀ l ∈ B, next_line l = none → call_instruction (line_at l) = false) :
    ∃ s, build_tables strtoull text = some s ∧
      func_cc s.T (L1.countP (fun l => header_line (line_at l)) : Nat) =
        (min (B.filter (fun l => call_instruction (line_at l))).length 512 : Nat) ∧
      (∀ j : Nat, j < (B.filter (fun l => call_instruction (line_at l))).length → j < 512 →
        s.T.call_addrD (L1.countP (fun l => header_line (line_at l)) : Nat) j =
          call_target strtoull ((B.filter (fun l => call_instruction (line_at l))).getD j [])) ∧
      (func_cc s.T (L1.countP (fun l => header_line (line_at l)) : Nat) = MAX_CALL ↔
        512 ≤ (B.filter (fun l => call_instruction (line_at l))).length) ∧
      (∀ B1 B2 : List (List Int), B = B1 ++ B2 →
        512 ≤ (B1.filter (fun l => call_instruction (line_at l))).length →
        (scan_lines strtoull (L1 ++ h :: B1 ++ B2) Scan.init).T =
          (scan_lines strtoull (L1 ++ h :: B1) Scan.init).T ∧
        (scan_lines strtoull (L1 ++ h :: B1 ++ B2) Scan.init).func =
          (scan_lines strtoull (L1 ++ h :: B1) Scan.init).func ∧
        (scan_lines strtoull (L1 ++ h :: B1 ++ B2) Scan.init).call_count =
          (scan_lines strtoull (L1 ++ h :: B1) Scan.init).call_count) := by
  have hfun : is_header = fun l => header_line (line_at l) :=
    funext is_header_eq_header_line
  obtain ⟨s, h1, h2, h3, h4, h5⟩ := build_call_capacity strtoull text L1 B L2 h hsplit
    (by rw [is_header_eq_header_line]; exact hh)
    (fun l hl => by rw [is_header_eq_header_line]; exact hB l hl)
    (by
      rcases hL2 with hnil | ⟨h2, rest, hc, hh2⟩
      · exact Or.inl hnil
      · exact Or.inr ⟨h2, rest, hc, by rw [is_header_eq_header_line]; exact hh2⟩)
  rw [filter_call_lines B hend, hfun] at h2 h3 h4
  refine ⟨s, h1, h2, h3, h4, ?_⟩
  intro B1 B2 hB12 hfull
  apply h5 B1 B2 hB12
  have hend1 : ∀ l ∈ B1, next_line l = none → call_instruction (line_at l) = false :=
    fun l hl => hend l (by rw [hB12]; exact List.mem_append_left _ hl)
  rw [filter_call_lines B1 hend1]
  exact hfull
end CGraph
